import Mathlib

/-!
# print-tree: a verification development

Shallow embedding of the Go packages `render` (`internal/render/common.go`,
`row.go`, `rendering.go`) and `printer` (`printer.go`).

Modelling conventions.

* A Go `string` is a `List Char`; every element stands for one byte, so
  `len(s)` is `List.length`.
* A Go `int` is a mathematical `Int`, and `+`, `-` are the mathematical
  operations: they are Go's as long as the result lies between `math.MinInt`
  and `math.MaxInt` (`minInt = -2^63`, `maxInt = 2^63 - 1`), where Go's
  64-bit arithmetic does not wrap.  The integers `PrintTree` computes are
  column positions and row counts bounded by the size of the text.  A range
  hypothesis in a theorem (`minInt < o`, a count that is at most `maxInt`, a
  rendering in range) marks the region in which the count or index that the
  call computes does not wrap.
  The Go operators `/` and `%` truncate towards zero: `Int.tdiv`, `Int.tmod`.
* A panic is the result `none`.  Slice indexing, `strings.Repeat` with a
  negative count and the explicit `panic` calls are the panics of the code.
* `*Rendering` is modelled by the value `Rendering` (a non-nil pointer); the
  mutating methods return the new state.  `Rows` keeps the storage order of
  the source: `Rows[len-1]` is the top row.
* `*Node` is the inductive type `Node`, whose constructor `Node.nil` is the
  nil pointer.
-/

namespace Printer

/-- Go `string`: a sequence of bytes. -/
abbrev GoString := List Char

/-- The constant `math.MinInt` on a 64-bit platform. -/
def minInt : Int := -(2 ^ 63)

/-- The constant `math.MaxInt` on a 64-bit platform, the largest Go `int`. -/
def maxInt : Int := 2 ^ 63 - 1

/-- Go slice indexing `xs[i]`: panics when `i` is out of range. -/
def index? {α : Type} (xs : List α) (i : Int) : Option α :=
  if i < 0 then none else xs[i.toNat]?

/-- The library function `strings.Repeat(s, count)`: panics on a negative count. -/
def Repeat (s : GoString) (count : Int) : Option GoString :=
  if count < 0 then none else some (List.replicate count.toNat s).flatten

/-- Go string slicing `s[:hi]`: panics when `hi` is out of range. -/
def sliceTo? (s : GoString) (hi : Int) : Option GoString :=
  if hi < 0 ∨ hi > s.length then none else some (s.take hi.toNat)

/-- Go string slicing `s[lo:]`: panics when `lo` is out of range. -/
def sliceFrom? (s : GoString) (lo : Int) : Option GoString :=
  if lo < 0 ∨ lo > s.length then none else some (s.drop lo.toNat)

/-! ## common.go -/

/-- `func Spaces(count int) string` -/
def Spaces (count : Int) : Option GoString :=
  Repeat [' '] count

/-- `func Underscores(count int) string` -/
def Underscores (count : Int) : Option GoString :=
  Repeat ['_'] count

/-! ## row.go -/

/-- `type Row struct { val string; offset int }` -/
structure Row where
  val : GoString
  offset : Int
  deriving DecidableEq, Repr

namespace Row

/-- `func (rr Row) HasValue() bool` -/
def HasValue (rr : Row) : Bool :=
  decide (rr.val ≠ [])

/-- `func (rr Row) Length() int` -/
def Length (rr : Row) : Int :=
  rr.val.length

/-- `func (rr Row) StartIndex() int` -/
def StartIndex (rr : Row) : Int :=
  rr.offset

/-- `func (rr Row) EndIndex() int` -/
def EndIndex (rr : Row) : Int :=
  rr.offset + rr.val.length - 1

/-- `func (rr Row) Value() string` -/
def Value (rr : Row) : GoString :=
  rr.val

/-- `func (rr Row) Prefix() string`: the part of the value before index 0.
The negation `-rr.offset` is the mathematical one; it is Go's for every offset
above `math.MinInt`, the only `int` whose negation wraps. -/
def Prefix (rr : Row) : Option GoString :=
  if rr.val.length = 0 then some []
  else if rr.offset < 0 then
    if -rr.offset > rr.Length then
      match Spaces (-rr.offset - rr.Length) with
      | some sp => some (rr.val ++ sp)
      | none => none
    else sliceTo? rr.val (-rr.offset)
  else some []

/-- `func (rr Row) Suffix() string`: the part of the value from index 0 on.
The negation `-rr.offset` is the mathematical one; it is Go's for every offset
above `math.MinInt`, the only `int` whose negation wraps. -/
def Suffix (rr : Row) : Option GoString :=
  if rr.offset > 0 then
    match Spaces rr.offset with
    | some sp => some (sp ++ rr.val)
    | none => none
  else if rr.offset = 0 then some rr.val
  else if rr.offset < 0 then
    if -rr.offset > rr.Length then some []
    else sliceFrom? rr.val (-rr.offset)
  else some []

end Row

/-! ## rendering.go -/

/-- `type Rendering struct { Rows []*Row; minIndex int }`, rows in storage
order (the last element is the top row). -/
structure Rendering where
  Rows : List Row
  minIndex : Int
  deriving DecidableEq, Repr

/-- `func NewEmptyRendering() *Rendering` -/
def NewEmptyRendering : Rendering :=
  { Rows := [], minIndex := 0 }

/-- `func NewPartialRendering(val string) *Rendering` -/
def NewPartialRendering (val : GoString) : Rendering :=
  { Rows := [{ val := val, offset := 0 }], minIndex := 0 }

namespace Rendering

/-- `func (pr *Rendering) ShiftTopBy(thatMuch int) *Rendering`: the row
`pr.Rows[len(pr.Rows)-1]` is updated in place; indexing panics on a rendering
without rows. -/
def ShiftTopBy (pr : Rendering) (thatMuch : Int) : Option Rendering :=
  match index? pr.Rows ((pr.Rows.length : Int) - 1) with
  | none => none
  | some lastRow =>
    let newOffset := lastRow.offset + thatMuch
    some { Rows := pr.Rows.set (pr.Rows.length - 1) { val := lastRow.val, offset := newOffset },
           minIndex := if newOffset < pr.minIndex then newOffset else pr.minIndex }

/-- `func (pr *Rendering) AddOnTop(vals ...string) *Rendering` -/
def AddOnTop (pr : Rendering) (vals : List GoString) : Rendering :=
  match vals with
  | [] => pr
  | [v] => { pr with Rows := pr.Rows ++ [{ val := v, offset := 0 }] }
  | _ => { pr with Rows := pr.Rows ++ [{ val := vals.flatten, offset := 0 }] }

/-- `func (pr *Rendering) GetRow(n int) Row` -/
def GetRow (pr : Rendering) (n : Int) : Option Row :=
  if n < 0 ∨ n ≥ pr.Rows.length then none
  else index? pr.Rows (((pr.Rows.length : Int) - 1) - n)

/-- `func (pr *Rendering) TopRow() Row` -/
def TopRow (pr : Rendering) : Option Row :=
  pr.GetRow 0

/-- Loop of `String()`: `for i := len(pr.Rows) - 1; i >= 0; i--`.  The first
argument is `i + 1`, so `0` is the exit of the loop.  The count
`-pr.minIndex + offset` is the mathematical one; it is Go's as long as it is
at most `math.MaxInt`. -/
def stringLoop (pr : Rendering) : Nat → GoString → Option GoString
  | 0, sb => some sb
  | i + 1, sb =>
    match index? pr.Rows i with
    | none => none
    | some row =>
      match Spaces (-pr.minIndex + row.offset) with
      | none => none
      | some sp => stringLoop pr i (sb ++ sp ++ row.val ++ ['\n'])

/-- `func (pr *Rendering) String() string` -/
def String (pr : Rendering) : Option GoString :=
  stringLoop pr pr.Rows.length []

/-- Loop shared by `NormalizeOffsets` and `NormalizeOffsetsRev`:
`for i := 0; i < len(pr.Rows); i++ { pr.Rows[i].offset += reindexBy; if
pr.Rows[i].offset < pr.minIndex { pr.minIndex = pr.Rows[i].offset } }`. -/
def reindex (pr : Rendering) (reindexBy : Int) : Rendering :=
  { Rows := pr.Rows.map (fun row => { val := row.val, offset := row.offset + reindexBy }),
    minIndex := pr.Rows.foldl
      (fun m row => if row.offset + reindexBy < m then row.offset + reindexBy else m) pr.minIndex }

/-- `func (pr *Rendering) NormalizeOffsets() *Rendering` -/
def NormalizeOffsets (pr : Rendering) : Option Rendering :=
  match pr.TopRow with
  | none => none
  | some topRow =>
    let reindexBy := -topRow.StartIndex
    if reindexBy = 0 then some pr else some (pr.reindex reindexBy)

/-- `func (pr *Rendering) NormalizeOffsetsRev() *Rendering` -/
def NormalizeOffsetsRev (pr : Rendering) : Option Rendering :=
  match pr.TopRow with
  | none => none
  | some topRow =>
    let reindexBy := -topRow.EndIndex - 1
    some (pr.reindex reindexBy)

/-- Loop of `Reverse()`: `for i := len(pr.Rows) - 1; i >= 0; i--
{ tmpRows = append(tmpRows, pr.Rows[i]) }`.  The first argument is `i + 1`. -/
def reverseLoop (rows : List Row) : Nat → List Row → Option (List Row)
  | 0, tmpRows => some tmpRows
  | i + 1, tmpRows =>
    match index? rows i with
    | none => none
    | some row => reverseLoop rows i (tmpRows ++ [row])

/-- `func (pr *Rendering) Reverse()` -/
def Reverse (pr : Rendering) : Option Rendering :=
  if pr.Rows.length = 0 then some pr
  else
    match reverseLoop pr.Rows pr.Rows.length [] with
    | none => none
    | some tmpRows => some { pr with Rows := tmpRows }

end Rendering

/-- The closure `maybeMaxDistance` of `AlignDistance`, as a function of the
captured variable `maxDistance`. -/
def maybeMaxDistance (maxDistance val : Int) : Int :=
  if val > maxDistance then val else maxDistance

/-- Loop of `AlignDistance`: `for indexLeft >= 0 && indexRight >= 0`.  The two
counters are `indexLeft + 1` and `indexRight + 1`. -/
def alignLoop (left right : Rendering) : Nat → Nat → Int → Option Int
  | indexLeft + 1, indexRight + 1, maxDistance =>
    match index? left.Rows indexLeft, index? right.Rows indexRight with
    | some rowLeft, some rowRight =>
      let maxDistance :=
        if rowLeft.HasValue && rowRight.HasValue then
          if rowLeft.EndIndex ≥ 0 ∧ rowRight.StartIndex ≥ 0 then
            maybeMaxDistance maxDistance (rowLeft.EndIndex - rowRight.StartIndex + 1)
          else if rowLeft.EndIndex < 0 ∧ rowRight.StartIndex ≥ 0 then
            maybeMaxDistance maxDistance (rowLeft.EndIndex - rowRight.StartIndex + 1)
          else if rowLeft.EndIndex < 0 ∧ rowRight.StartIndex < 0 then
            maybeMaxDistance maxDistance (rowLeft.EndIndex - rowRight.StartIndex + 1)
          else
            maybeMaxDistance maxDistance (rowLeft.EndIndex - rowRight.StartIndex + 1)
        else maxDistance
      alignLoop left right indexLeft indexRight maxDistance
    | _, _ => none
  | _, _, maxDistance => some maxDistance

/-- `func AlignDistance(left, right *Rendering) int` -/
def AlignDistance (left right : Rendering) : Option Int :=
  alignLoop left right left.Rows.length right.Rows.length minInt

/-- Body of the loop of `JoinRenderings`: the merged row and its offset, from
the three branches on `jLeft` and `kRight`.  The spacing
`distance - (EndIndex + 1) + StartIndex` is the mathematical one; it is Go's as
long as it lies between `math.MinInt` and `math.MaxInt`. -/
def joinRow (left right : Rendering) (distance jLeft kRight : Int) :
    Option (GoString × Int) :=
  if jLeft < left.Rows.length ∧ kRight < right.Rows.length then
    match left.GetRow jLeft, right.GetRow kRight with
    | some l, some r =>
      match Spaces (distance - (l.EndIndex + 1) + r.StartIndex) with
      | some sp => some (l.Value ++ sp ++ r.Value, l.StartIndex)
      | none => none
    | _, _ => none
  else if jLeft < left.Rows.length ∧ kRight ≥ right.Rows.length then
    match left.GetRow jLeft, Spaces 0 with
    | some l, some sp => some (l.Value ++ sp ++ [], l.StartIndex)
    | _, _ => none
  else if jLeft ≥ left.Rows.length ∧ kRight < right.Rows.length then
    match right.GetRow kRight, Spaces 0 with
    | some r, some sp => some ([] ++ sp ++ r.Value, distance + r.StartIndex)
    | _, _ => none
  else none

/-- Loop of `JoinRenderings`: `for jLeft < len(left.Rows) || kRight <
len(right.Rows)`.  The first argument bounds the number of iterations; running
out of it is `none`. -/
def joinLoop (left right : Rendering) (distance : Int) :
    Nat → Int → Int → Rendering → Option Rendering
  | 0, _, _, _ => none
  | fuel + 1, jLeft, kRight, result =>
    if jLeft < left.Rows.length ∨ kRight < right.Rows.length then
      match joinRow left right distance jLeft kRight with
      | none => none
      | some (mergedRow, joinedIndex) =>
        match (result.AddOnTop [mergedRow]).ShiftTopBy joinedIndex with
        | none => none
        | some result => joinLoop left right distance fuel (jLeft + 1) (kRight + 1) result
    else some result

/-- `func JoinRenderings(left, right *Rendering, distance int) *Rendering` -/
def JoinRenderings (left right : Rendering) (distance : Int) : Option Rendering :=
  match joinLoop left right distance (left.Rows.length + right.Rows.length + 1) 0 0
      { Rows := [], minIndex := left.minIndex } with
  | none => none
  | some result => result.Reverse

/-! ## printer.go -/

/-- `type Node struct { Value string; LeftChild *Node; RightChild *Node }`
behind a pointer: `Node.nil` is the nil pointer. -/
inductive Node where
  | nil : Node
  | mk (Value : GoString) (LeftChild RightChild : Node) : Node
  deriving DecidableEq, Repr

/-- The test `p == nil` on a `*Node`. -/
def Node.isNil : Node → Bool
  | .nil => true
  | .mk _ _ _ => false

/-- `func (n *Node) IsLeaf() bool`; dereferencing a nil receiver panics. -/
def Node.IsLeaf : Node → Option Bool
  | .nil => none
  | .mk _ LeftChild RightChild => some (LeftChild.isNil && RightChild.isNil)

/-- The distance chosen by `PrintTree` from the length of the node's value
and the alignment distance of the children (the statements from
`requiredChildDistance := ...` to the parity fix-up). -/
def chooseDistance (valueLen alignDistance : Int) : Int :=
  let requiredChildDistance := alignDistance + 3
  let minPossibleDistance := 6 + valueLen + 1
  let distance :=
    if minPossibleDistance ≥ requiredChildDistance then minPossibleDistance - 1
    else requiredChildDistance
  if (distance - valueLen).tmod 2 = 1 then distance + 1 else distance

/-- The connector rows and the parent value that `PrintTree` puts on top of
the joined children (the statements after `result := render.JoinRenderings`). -/
def addConnectors (result : Rendering) (Value : GoString) (distance : Int) :
    Option Rendering := do
  let lowerRowSpacesCnt := distance - 2
  let sp ← Spaces lowerRowSpacesCnt
  let result := result.AddOnTop [['/'] ++ sp ++ ['\\']]
  let middleRowSpacesCnt := (Value.length : Int) + 2
  let middleRowUnderscoreCount := (lowerRowSpacesCnt - middleRowSpacesCnt).tdiv 2 - 1
  let us ← Underscores middleRowUnderscoreCount
  let sp ← Spaces ((Value.length : Int) + 2)
  let us2 ← Underscores middleRowUnderscoreCount
  let result ← (result.AddOnTop [us ++ ['/'] ++ sp ++ ['\\'] ++ us2]).ShiftTopBy 1
  let shift := (distance - (Value.length : Int)).tdiv 2 - 1
  let sp ← Spaces (Value.length : Int)
  let result ← (result.AddOnTop [['/'] ++ sp ++ ['\\']]).ShiftTopBy shift
  (result.AddOnTop [Value]).ShiftTopBy (shift + 1)

/-- `func PrintTree(curNode *Node) *render.Rendering` -/
def PrintTree : Node → Option Rendering
  | .nil => none
  | .mk Value LeftChild RightChild =>
    if Value = [] then none
    else
      match (Node.mk Value LeftChild RightChild).IsLeaf with
      | none => none
      | some true => some (NewPartialRendering Value)
      | some false =>
        match PrintTree LeftChild with
        | none => none
        | some leftPrinted =>
          match leftPrinted.NormalizeOffsetsRev with
          | none => none
          | some leftChildRendering =>
            match PrintTree RightChild with
            | none => none
            | some rightPrinted =>
              match rightPrinted.NormalizeOffsets with
              | none => none
              | some rightChildRendering =>
                match AlignDistance leftChildRendering rightChildRendering with
                | none => none
                | some alignDistance =>
                  let distance := chooseDistance Value.length alignDistance
                  match JoinRenderings leftChildRendering rightChildRendering distance with
                  | none => none
                  | some result => addConnectors result Value distance

/-- A leaf node with the given value. -/
def leaf (v : GoString) : Node := .mk v .nil .nil

/-! ## Specification-side definitions -/

/-- The per-row distance of `AlignDistance`: `left.EndIndex() - right.StartIndex() + 1`. -/
def rowDistance (l r : Row) : Int :=
  l.EndIndex - r.StartIndex + 1

/-- One iteration of the loop of `AlignDistance` on a pair of rows. -/
def alignStep (maxDistance : Int) (p : Row × Row) : Int :=
  if p.1.val ≠ [] ∧ p.2.val ≠ [] then max maxDistance (rowDistance p.1 p.2) else maxDistance

/-- The row that `JoinRenderings` builds from the rows with the same index
from the top, when at least one of them exists. -/
def mergeAt (distance : Int) : Option Row → Option Row → Option Row
  | some l, some r =>
    match Spaces (distance - (l.EndIndex + 1) + r.StartIndex) with
    | some sp => some { val := l.val ++ sp ++ r.val, offset := l.offset }
    | none => none
  | some l, none => some { val := l.val, offset := l.offset }
  | none, some r => some { val := r.val, offset := distance + r.offset }
  | none, none => none

/-- The rows `mergeAt` builds for the `n` indices from `i` on, top first. -/
def mergeFrom (distance : Int) (L R : List Row) : Nat → Nat → Option (List Row)
  | 0, _ => some []
  | n + 1, i =>
    match mergeAt distance L[i]? R[i]?, mergeFrom distance L R n (i + 1) with
    | some row, some rest => some (row :: rest)
    | _, _ => none

/-- The update of `minIndex` made by `ShiftTopBy`, folded over rows. -/
def minOffset (minIndex : Int) (rows : List Row) : Int :=
  rows.foldl (fun m row => if row.offset < m then row.offset else m) minIndex

/-- One printed line of `String()`. -/
def printedLine (minIndex : Int) (row : Row) : GoString :=
  List.replicate (-minIndex + row.offset).toNat ' ' ++ row.val ++ ['\n']

/-- The rendering cut to its top `k` rows. -/
def Rendering.topRows (pr : Rendering) (k : Nat) : Rendering :=
  { pr with Rows := pr.Rows.drop (pr.Rows.length - k) }

/-- The left rendering of `TestAlignDistanceFromDoc`: `ab123` shifted by -1. -/
def docLeft : Rendering :=
  { Rows := [{ val := ['a', 'b', '1', '2', '3'], offset := -1 }], minIndex := -1 }

/-- The right rendering of `TestAlignDistanceFromDoc`: `45cd` shifted by -2. -/
def docRight : Rendering :=
  { Rows := [{ val := ['4', '5', 'c', 'd'], offset := -2 }], minIndex := -2 }

/-- The left rendering of `TestJoinSymmetric`. -/
def symLeft : Rendering :=
  { Rows := [{ val := "22left22".toList, offset := -2 }, { val := "1left1".toList, offset := -1 },
             { val := "left".toList, offset := 0 }],
    minIndex := -2 }

/-- Some node of the tree has an empty label. -/
def anyEmptyLabel : Node → Bool
  | .nil => false
  | .mk Value LeftChild RightChild =>
    decide (Value = []) || anyEmptyLabel LeftChild || anyEmptyLabel RightChild

/-- Some node of the tree has exactly one child. -/
def anyOneChild : Node → Bool
  | .nil => false
  | .mk _ LeftChild RightChild =>
    (LeftChild.isNil != RightChild.isNil) || anyOneChild LeftChild || anyOneChild RightChild

/-- A tree (the root is not nil) in which every node has a non-empty label and
either no child or two children. -/
def WellFormed : Node → Bool
  | .nil => false
  | .mk Value LeftChild RightChild =>
    decide (Value ≠ []) &&
      ((LeftChild.isNil && RightChild.isNil) || (WellFormed LeftChild && WellFormed RightChild))

/-- The invariant of the renderings `PrintTree` returns: there is a row,
every row has a non-empty value, and `minIndex` is at most 0 and at most every
row offset. -/
def Rendering.Good (pr : Rendering) : Prop :=
  pr.Rows ≠ [] ∧ pr.minIndex ≤ 0 ∧ ∀ row ∈ pr.Rows, pr.minIndex ≤ row.offset ∧ row.val ≠ []

/-- The four rows `PrintTree` puts on top of the joined children, in storage
order: lower, middle and upper connector row and the parent value. -/
def connectorRows (Value : GoString) (distance : Int) : List Row :=
  [{ val := ['/'] ++ List.replicate (distance - 2).toNat ' ' ++ ['\\'], offset := 0 },
   { val := List.replicate ((distance - Value.length - 4) / 2 - 1).toNat '_' ++ ['/']
            ++ List.replicate (Value.length + 2) ' ' ++ ['\\']
            ++ List.replicate ((distance - Value.length - 4) / 2 - 1).toNat '_',
     offset := 1 },
   { val := ['/'] ++ List.replicate Value.length ' ' ++ ['\\'],
     offset := (distance - Value.length) / 2 - 1 },
   { val := Value, offset := (distance - Value.length) / 2 }]

/-- The tree of `buildTree` in `print_test.go`: the given root value over the
nodes `foo` and `bar`, each over the leaves `left` and `right`. -/
def buildTree (rootNodeVal : GoString) : Node :=
  .mk rootNodeVal
    (.mk "foo".toList (leaf "left".toList) (leaf "right".toList))
    (.mk "bar".toList (leaf "left".toList) (leaf "right".toList))

/-- The left child of `buildTree`. -/
def fooTree : Node :=
  .mk "foo".toList (leaf "left".toList) (leaf "right".toList)

/-- The right child of `buildTree`. -/
def barTree : Node :=
  .mk "bar".toList (leaf "left".toList) (leaf "right".toList)

/-- The right rendering of `TestJoinSymmetric`. -/
def symRight : Rendering :=
  { Rows := [{ val := "22right22".toList, offset := -2 },
             { val := "1right1".toList, offset := -1 }, { val := "right".toList, offset := 0 }],
    minIndex := -2 }

/-- The left rendering of `TestJoinSymmetricWithNormalize`, after
`NormalizeOffsetsRev()`. -/
def symLeftRev : Rendering :=
  { Rows := [{ val := "22left22".toList, offset := -6 }, { val := "1left1".toList, offset := -5 },
             { val := "left".toList, offset := -4 }],
    minIndex := -6 }

/-- The rendering of `TestAddOnTopThreeRows`: `foo`, `bar` shifted by -2 and
`baz` shifted by 3. -/
def threeRows : Rendering :=
  { Rows := [{ val := "foo".toList, offset := 0 }, { val := "bar".toList, offset := -2 },
             { val := "baz".toList, offset := 3 }],
    minIndex := -2 }

/-- The rendering of `TestNormalizeRevWithOffsets`: `foo`, `bar` shifted by 1
and `baz` shifted by 2. -/
def stairRows : Rendering :=
  { Rows := [{ val := "foo".toList, offset := 0 }, { val := "bar".toList, offset := 1 },
             { val := "baz".toList, offset := 2 }],
    minIndex := 0 }

/-- The rendering `NewPartialRendering("foo").ShiftTopBy(-5)`. -/
def shiftedFoo : Rendering :=
  { Rows := [{ val := "foo".toList, offset := -5 }], minIndex := -5 }

/-- The invariant of the renderings `PrintTree` returns that makes the cached
`minIndex` exact: the invariant `Good`, a row whose offset is `minIndex`, and a
top row at a non-negative offset. -/
def Rendering.Tight (pr : Rendering) : Prop :=
  pr.Good ∧ (∃ row ∈ pr.Rows, row.offset = pr.minIndex) ∧
    ∃ top, pr.TopRow = some top ∧ 0 ≤ top.offset

/-- The height of a tree in edges: 0 for a leaf (and for nil). -/
def height : Node → Nat
  | .nil => 0
  | .mk _ LeftChild RightChild =>
    if LeftChild.isNil && RightChild.isNil then 0
    else 1 + max (height LeftChild) (height RightChild)

/-- The invariant of `Rendering` on the cached `minIndex`: it is at most 0 and
at most the offset of every row. -/
def Rendering.Invariant (pr : Rendering) : Prop :=
  pr.minIndex ≤ 0 ∧ ∀ row ∈ pr.Rows, pr.minIndex ≤ row.offset

/-- A rendering made of Go values: `minIndex` and every row offset lie between
`math.MinInt` and `math.MaxInt`, and no value is longer than `math.MaxInt`.  A
call whose result is in range has not wrapped an offset. -/
def Rendering.InRange (pr : Rendering) : Prop :=
  minInt ≤ pr.minIndex ∧ pr.minIndex ≤ maxInt ∧
  ∀ row ∈ pr.Rows, minInt ≤ row.offset ∧ row.offset ≤ maxInt ∧ (row.val.length : Int) ≤ maxInt

/-- The renderings obtained from `NewEmptyRendering` or `NewPartialRendering`
by a sequence of `AddOnTop`, `ShiftTopBy`, `NormalizeOffsets`,
`NormalizeOffsetsRev`, `Reverse` and `JoinRenderings`, in which no call wraps an
integer: the result of every call is in range.  A call that panics obtains
nothing, and the two arguments of `JoinRenderings` are renderings in range that
satisfy the invariant. -/
inductive Obtained : Rendering → Prop
  | newEmpty : Obtained NewEmptyRendering
  | newPartial (val : GoString) :
      (NewPartialRendering val).InRange → Obtained (NewPartialRendering val)
  | addOnTop {pr : Rendering} (vals : List GoString) :
      Obtained pr → (pr.AddOnTop vals).InRange → Obtained (pr.AddOnTop vals)
  | shiftTopBy {pr res : Rendering} (thatMuch : Int) :
      Obtained pr → pr.ShiftTopBy thatMuch = some res → res.InRange → Obtained res
  | normalizeOffsets {pr res : Rendering} :
      Obtained pr → pr.NormalizeOffsets = some res → res.InRange → Obtained res
  | normalizeOffsetsRev {pr res : Rendering} :
      Obtained pr → pr.NormalizeOffsetsRev = some res → res.InRange → Obtained res
  | reverse {pr res : Rendering} :
      Obtained pr → pr.Reverse = some res → Obtained res
  | joinRenderings {left right res : Rendering} (distance : Int) :
      left.Invariant → right.Invariant → left.InRange → right.InRange →
      JoinRenderings left right distance = some res → res.InRange → Obtained res

/-- The rendering obtained by joining `NewPartialRendering("ab").ShiftTopBy(-2)`
with `NewPartialRendering("cd")` at the distance 1 and then
`AddOnTop("x").ShiftTopBy(3)`. -/
def joinedUnderX : Rendering :=
  { Rows := [{ val := "ab cd".toList, offset := -2 }, { val := "x".toList, offset := 3 }],
    minIndex := -2 }

/-! ## Lemmas on the primitives -/

theorem index?_natCast {α : Type} (xs : List α) (n : Nat) : index? xs (n : Int) = xs[n]? := by
  simp [index?]

theorem Repeat_single (c : Char) (n : Nat) : Repeat [c] (n : Int) = some (List.replicate n c) := by
  simp only [Repeat, Int.toNat_ofNat]
  rw [if_neg (by omega)]
  congr 1
  induction n with
  | zero => rfl
  | succ k ih => simp [List.replicate_succ, ih]

theorem Spaces_natCast (n : Nat) : Spaces (n : Int) = some (List.replicate n ' ') :=
  Repeat_single ' ' n

theorem Spaces_of_nonneg {n : Int} (h : 0 ≤ n) : Spaces n = some (List.replicate n.toNat ' ') := by
  obtain ⟨k, rfl⟩ := Int.eq_ofNat_of_zero_le h
  simpa using Spaces_natCast k

theorem Spaces_of_neg {n : Int} (h : n < 0) : Spaces n = none := by
  simp [Spaces, Repeat, h]

theorem Underscores_of_nonneg {n : Int} (h : 0 ≤ n) :
    Underscores n = some (List.replicate n.toNat '_') := by
  obtain ⟨k, rfl⟩ := Int.eq_ofNat_of_zero_le h
  simpa using Repeat_single '_' k

theorem GetRow_natCast (pr : Rendering) (n : Nat) : pr.GetRow (n : Int) = pr.Rows.reverse[n]? := by
  unfold Rendering.GetRow
  by_cases h : n < pr.Rows.length
  · rw [if_neg (by omega)]
    have e : ((pr.Rows.length : Int) - 1) - (n : Int) = ((pr.Rows.length - 1 - n : Nat) : Int) := by
      omega
    rw [e, index?_natCast, List.getElem?_reverse h]
  · rw [if_pos (by omega)]
    rw [List.getElem?_eq_none (by simpa using h)]

theorem GetRow_neg (pr : Rendering) {n : Int} (h : n < 0) : pr.GetRow n = none := by
  simp [Rendering.GetRow, h]

theorem take_succ_getElem {α : Type} (xs : List α) (k : Nat) (h : k < xs.length) :
    xs.take (k + 1) = xs.take k ++ [xs[k]] := by
  rw [List.take_succ, List.getElem?_eq_getElem h]
  rfl

theorem reverseLoop_eq (rows : List Row) (k : Nat) (hk : k ≤ rows.length) (tmp : List Row) :
    Rendering.reverseLoop rows k tmp = some (tmp ++ (rows.take k).reverse) := by
  induction k generalizing tmp with
  | zero => simp [Rendering.reverseLoop]
  | succ k ih =>
    have hlt : k < rows.length := hk
    simp only [Rendering.reverseLoop, index?_natCast, List.getElem?_eq_getElem hlt]
    rw [ih (by omega), take_succ_getElem rows k hlt, List.reverse_append]
    simp only [List.reverse_cons, List.reverse_nil, List.nil_append, List.append_assoc]

theorem Reverse_eq (pr : Rendering) :
    pr.Reverse = some { Rows := pr.Rows.reverse, minIndex := pr.minIndex } := by
  unfold Rendering.Reverse
  split
  · rename_i h
    have : pr.Rows = [] := List.length_eq_zero.mp h
    cases pr
    simp_all
  · rw [reverseLoop_eq pr.Rows pr.Rows.length (le_refl _)]
    simp

theorem stringLoop_eq (pr : Rendering) (k : Nat) (hk : k ≤ pr.Rows.length)
    (hmin : ∀ row ∈ pr.Rows.take k, pr.minIndex ≤ row.offset) (sb : GoString) :
    pr.stringLoop k sb
      = some (sb ++ (((pr.Rows.take k).reverse).map (printedLine pr.minIndex)).flatten) := by
  induction k generalizing sb with
  | zero => simp [Rendering.stringLoop]
  | succ k ih =>
    have hlt : k < pr.Rows.length := hk
    have htake := take_succ_getElem pr.Rows k hlt
    rw [htake] at hmin
    have h1 : pr.minIndex ≤ (pr.Rows[k]).offset :=
      hmin _ (List.mem_append_right _ (List.mem_singleton_self _))
    simp only [Rendering.stringLoop, index?_natCast, List.getElem?_eq_getElem hlt]
    rw [Spaces_of_nonneg (by omega)]
    simp only
    rw [ih (by omega) (fun row hr => hmin row (List.mem_append_left _ hr)), htake,
      List.reverse_append]
    simp only [List.reverse_cons, List.reverse_nil, List.nil_append, List.map_cons,
      List.singleton_append, List.flatten_cons, printedLine, List.append_assoc]

theorem String_eq (pr : Rendering) (hmin : ∀ row ∈ pr.Rows, pr.minIndex ≤ row.offset) :
    pr.String = some ((pr.Rows.reverse.map (printedLine pr.minIndex)).flatten) := by
  unfold Rendering.String
  rw [stringLoop_eq pr pr.Rows.length (le_refl _) (by simpa using hmin)]
  simp

theorem GetRow_eq_some {pr : Rendering} {i : Int} {a : Row} (h : pr.GetRow i = some a) :
    ∃ n : Nat, i = (n : Int) ∧ pr.Rows.reverse[n]? = some a := by
  by_cases hi : i < 0
  · rw [GetRow_neg pr hi] at h
    cases h
  · obtain ⟨n, rfl⟩ := Int.eq_ofNat_of_zero_le (not_lt.mp hi)
    exact ⟨n, rfl, by rw [← GetRow_natCast]; exact h⟩

theorem alignBody_eq (rowLeft rowRight : Row) (maxDistance : Int) :
    (if (rowLeft.HasValue && rowRight.HasValue) = true then
      if rowLeft.EndIndex ≥ 0 ∧ rowRight.StartIndex ≥ 0 then
        maybeMaxDistance maxDistance (rowLeft.EndIndex - rowRight.StartIndex + 1)
      else if rowLeft.EndIndex < 0 ∧ rowRight.StartIndex ≥ 0 then
        maybeMaxDistance maxDistance (rowLeft.EndIndex - rowRight.StartIndex + 1)
      else if rowLeft.EndIndex < 0 ∧ rowRight.StartIndex < 0 then
        maybeMaxDistance maxDistance (rowLeft.EndIndex - rowRight.StartIndex + 1)
      else
        maybeMaxDistance maxDistance (rowLeft.EndIndex - rowRight.StartIndex + 1)
    else maxDistance) = alignStep maxDistance (rowLeft, rowRight) := by
  have hmax : maybeMaxDistance maxDistance (rowLeft.EndIndex - rowRight.StartIndex + 1)
      = max maxDistance (rowDistance rowLeft rowRight) := by
    unfold maybeMaxDistance rowDistance
    split <;> omega
  simp only [ite_self, hmax, alignStep, Row.HasValue, Bool.and_eq_true, decide_eq_true_eq]

theorem alignLoop_eq (left right : Rendering) (nl nr : Nat) (hl : nl ≤ left.Rows.length)
    (hr : nr ≤ right.Rows.length) (m : Int) :
    alignLoop left right nl nr m
      = some (((left.Rows.take nl).reverse.zip (right.Rows.take nr).reverse).foldl alignStep m) := by
  induction nl generalizing nr m with
  | zero => cases nr <;> simp [alignLoop]
  | succ nl ih =>
    cases nr with
    | zero => simp [alignLoop]
    | succ nr =>
      have hl1 : nl < left.Rows.length := hl
      have hr1 : nr < right.Rows.length := hr
      simp only [alignLoop, index?_natCast, List.getElem?_eq_getElem hl1,
        List.getElem?_eq_getElem hr1]
      rw [alignBody_eq, ih nr (by omega) (by omega), take_succ_getElem _ nl hl1,
        take_succ_getElem _ nr hr1, List.reverse_append, List.reverse_append]
      simp only [List.reverse_cons, List.reverse_nil, List.nil_append, List.singleton_append,
        List.zip_cons_cons, List.foldl_cons]

theorem AlignDistance_eq (left right : Rendering) :
    AlignDistance left right
      = some ((left.Rows.reverse.zip right.Rows.reverse).foldl alignStep minInt) := by
  unfold AlignDistance
  rw [alignLoop_eq left right _ _ (le_refl _) (le_refl _), List.take_length, List.take_length]

theorem foldl_alignStep_ge_init (ps : List (Row × Row)) (m : Int) :
    m ≤ ps.foldl alignStep m := by
  induction ps generalizing m with
  | nil => simp
  | cons p ps ih =>
    simp only [List.foldl_cons]
    refine le_trans ?_ (ih _)
    unfold alignStep
    split
    · exact le_max_left _ _
    · exact le_refl _

theorem foldl_alignStep_ge_mem (ps : List (Row × Row)) (m : Int) (p : Row × Row) (hp : p ∈ ps)
    (h1 : p.1.val ≠ []) (h2 : p.2.val ≠ []) : rowDistance p.1 p.2 ≤ ps.foldl alignStep m := by
  induction ps generalizing m with
  | nil => cases hp
  | cons q ps ih =>
    simp only [List.foldl_cons]
    rcases List.mem_cons.mp hp with rfl | hp
    · refine le_trans ?_ (foldl_alignStep_ge_init ps _)
      simp only [alignStep, h1, h2, ne_eq, not_false_eq_true, and_self, if_true]
      exact le_max_right _ _
    · exact ih _ hp

theorem foldl_alignStep_attained (ps : List (Row × Row)) (m : Int) :
    ps.foldl alignStep m = m ∨
      ∃ p ∈ ps, p.1.val ≠ [] ∧ p.2.val ≠ [] ∧ rowDistance p.1 p.2 = ps.foldl alignStep m := by
  induction ps generalizing m with
  | nil => left; rfl
  | cons q ps ih =>
    simp only [List.foldl_cons]
    rcases ih (alignStep m q) with h | ⟨p, hp, h1, h2, h3⟩
    · rw [h]
      unfold alignStep
      split
      · rename_i hq
        rcases le_total m (rowDistance q.1 q.2) with hle | hle
        · right
          exact ⟨q, List.mem_cons_self _ _, hq.1, hq.2, (max_eq_right hle).symm⟩
        · left
          exact max_eq_left hle
      · left; rfl
    · right
      exact ⟨p, List.mem_cons_of_mem _ hp, h1, h2, h3⟩

theorem mem_zip_of_getElem? {α β : Type} (xs : List α) (ys : List β) (n : Nat) (a : α) (b : β)
    (ha : xs[n]? = some a) (hb : ys[n]? = some b) : (a, b) ∈ xs.zip ys := by
  rw [List.mem_iff_getElem?]
  refine ⟨n, ?_⟩
  rw [List.getElem?_zip_eq_some]
  exact ⟨ha, hb⟩

theorem getElem?_of_mem_zip {α β : Type} (xs : List α) (ys : List β) (p : α × β)
    (hp : p ∈ xs.zip ys) : ∃ n : Nat, xs[n]? = some p.1 ∧ ys[n]? = some p.2 := by
  rw [List.mem_iff_getElem?] at hp
  obtain ⟨n, hn⟩ := hp
  exact ⟨n, List.getElem?_zip_eq_some.mp hn⟩

theorem AddOnTop_ShiftTopBy (res : Rendering) (v : GoString) (k : Int) :
    (res.AddOnTop [v]).ShiftTopBy k
      = some { Rows := res.Rows ++ [{ val := v, offset := k }],
               minIndex := if k < res.minIndex then k else res.minIndex } := by
  simp only [Rendering.AddOnTop, Rendering.ShiftTopBy, List.length_append, List.length_singleton]
  have e : (((res.Rows.length + 1 : Nat) : Int) - 1) = ((res.Rows.length : Nat) : Int) := by
    omega
  rw [e, index?_natCast]
  simp

theorem joinRow_eq (left right : Rendering) (distance : Int) (j : Nat)
    (hj : j < left.Rows.length ∨ j < right.Rows.length) :
    joinRow left right distance (j : Int) (j : Int)
      = (mergeAt distance left.Rows.reverse[j]? right.Rows.reverse[j]?).map
          (fun row => (row.val, row.offset)) := by
  unfold joinRow
  simp only [GetRow_natCast, Nat.cast_lt, ge_iff_le, Nat.cast_le]
  by_cases h1 : j < left.Rows.length <;> by_cases h2 : j < right.Rows.length
  · obtain ⟨row1, e1⟩ : ∃ row, left.Rows.reverse[j]? = some row :=
      ⟨_, List.getElem?_eq_getElem (by simpa using h1)⟩
    obtain ⟨row2, e2⟩ : ∃ row, right.Rows.reverse[j]? = some row :=
      ⟨_, List.getElem?_eq_getElem (by simpa using h2)⟩
    rw [if_pos ⟨h1, h2⟩, e1, e2]
    simp only [mergeAt, Row.Value, Row.StartIndex]
    split <;> simp_all
  · obtain ⟨row1, e1⟩ : ∃ row, left.Rows.reverse[j]? = some row :=
      ⟨_, List.getElem?_eq_getElem (by simpa using h1)⟩
    have e2 : right.Rows.reverse[j]? = none :=
      List.getElem?_eq_none (by simpa using h2)
    rw [if_neg (by tauto), if_pos ⟨h1, not_lt.mp h2⟩, e1, e2]
    have e0 : Spaces 0 = some [] := Spaces_natCast 0
    simp [mergeAt, Row.Value, Row.StartIndex, e0]
  · have e1 : left.Rows.reverse[j]? = none :=
      List.getElem?_eq_none (by simpa using h1)
    obtain ⟨row2, e2⟩ : ∃ row, right.Rows.reverse[j]? = some row :=
      ⟨_, List.getElem?_eq_getElem (by simpa using h2)⟩
    rw [if_neg (by tauto), if_neg (by tauto), if_pos ⟨not_lt.mp h1, h2⟩, e1, e2]
    have e0 : Spaces 0 = some [] := Spaces_natCast 0
    simp [mergeAt, Row.Value, Row.StartIndex, e0]
  · exact absurd hj (by tauto)

theorem joinLoop_eq (left right : Rendering) (distance : Int) (fuel j : Nat) (res : Rendering)
    (hfuel : max left.Rows.length right.Rows.length - j < fuel) :
    joinLoop left right distance fuel (j : Int) (j : Int) res
      = (mergeFrom distance left.Rows.reverse right.Rows.reverse
          (max left.Rows.length right.Rows.length - j) j).map
          (fun rows => { Rows := res.Rows ++ rows, minIndex := minOffset res.minIndex rows }) := by
  induction fuel generalizing j res with
  | zero => omega
  | succ fuel ih =>
    unfold joinLoop
    by_cases hj : j < left.Rows.length ∨ j < right.Rows.length
    · have hcond : ((j : Int) < left.Rows.length ∨ (j : Int) < right.Rows.length) := by
        rcases hj with h | h
        · left; exact_mod_cast h
        · right; exact_mod_cast h
      have hn : max left.Rows.length right.Rows.length - j
          = (max left.Rows.length right.Rows.length - (j + 1)) + 1 := by
        rcases hj with h | h <;> omega
      rw [if_pos hcond, joinRow_eq left right distance j hj, hn, mergeFrom]
      cases hm : mergeAt distance left.Rows.reverse[j]? right.Rows.reverse[j]? with
      | none => simp
      | some row =>
        simp only [Option.map_some']
        rw [AddOnTop_ShiftTopBy]
        simp only
        have hstep := ih (j + 1)
          { Rows := res.Rows ++ [{ val := row.val, offset := row.offset }],
            minIndex := if row.offset < res.minIndex then row.offset else res.minIndex }
          (by omega)
        rw [show ((j : Int) + 1) = ((j + 1 : Nat) : Int) by push_cast; rfl, hstep]
        cases mergeFrom distance left.Rows.reverse right.Rows.reverse
            (max left.Rows.length right.Rows.length - (j + 1)) (j + 1) with
        | none => simp
        | some rest => simp [minOffset]
    · have hcond : ¬ ((j : Int) < left.Rows.length ∨ (j : Int) < right.Rows.length) := by
        intro h
        apply hj
        rcases h with h | h
        · left; exact_mod_cast h
        · right; exact_mod_cast h
      have hn : max left.Rows.length right.Rows.length - j = 0 := by
        have : ¬ j < left.Rows.length ∧ ¬ j < right.Rows.length := not_or.mp hj
        omega
      rw [if_neg hcond, hn]
      simp [mergeFrom, minOffset]

theorem JoinRenderings_eq (left right : Rendering) (distance : Int) :
    JoinRenderings left right distance
      = (mergeFrom distance left.Rows.reverse right.Rows.reverse
          (max left.Rows.length right.Rows.length) 0).map
          (fun rows => { Rows := rows.reverse, minIndex := minOffset left.minIndex rows }) := by
  unfold JoinRenderings
  have h := joinLoop_eq left right distance (left.Rows.length + right.Rows.length + 1) 0
    { Rows := [], minIndex := left.minIndex } (by omega)
  simp only [Nat.cast_zero, Nat.sub_zero, List.nil_append] at h
  rw [h]
  cases mergeFrom distance left.Rows.reverse right.Rows.reverse
      (max left.Rows.length right.Rows.length) 0 with
  | none => rfl
  | some rows => simp [Reverse_eq]

theorem mergeFrom_length (distance : Int) (L R : List Row) (n i : Nat) (rows : List Row)
    (h : mergeFrom distance L R n i = some rows) : rows.length = n := by
  induction n generalizing i rows with
  | zero =>
    simp only [mergeFrom, Option.some.injEq] at h
    rw [← h]; rfl
  | succ n ih =>
    unfold mergeFrom at h
    split at h
    · rename_i row rest _ hrest
      cases h
      simp [ih (i + 1) rest hrest]
    · cases h

theorem mergeFrom_getElem? (distance : Int) (L R : List Row) (n i : Nat) (rows : List Row)
    (h : mergeFrom distance L R n i = some rows) (k : Nat) (hk : k < n) :
    rows[k]? = mergeAt distance L[i + k]? R[i + k]? ∧ (rows[k]?).isSome := by
  induction n generalizing i rows k with
  | zero => omega
  | succ n ih =>
    unfold mergeFrom at h
    split at h
    · rename_i row rest hrow hrest
      cases h
      cases k with
      | zero => simp [hrow]
      | succ k =>
        have := ih (i + 1) rest hrest k (by omega)
        simpa [Nat.add_assoc, Nat.add_comm 1 k] using this
    · cases h

theorem mergeFrom_isSome (distance : Int) (L R : List Row) (n i : Nat)
    (h : ∀ k, k < n → (mergeAt distance L[i + k]? R[i + k]?).isSome) :
    ∃ rows, mergeFrom distance L R n i = some rows := by
  induction n generalizing i with
  | zero => exact ⟨[], rfl⟩
  | succ n ih =>
    obtain ⟨rest, hrest⟩ := ih (i + 1) (fun k hk => by
      have := h (k + 1) (by omega)
      simpa [Nat.add_assoc, Nat.add_comm 1 k] using this)
    have h0 := h 0 (by omega)
    obtain ⟨row, hrow⟩ := Option.isSome_iff_exists.mp h0
    rw [Nat.add_zero] at hrow
    exact ⟨row :: rest, by simp [mergeFrom, hrow, hrest]⟩

theorem HasValue_iff (rr : Row) : rr.HasValue = true ↔ rr.val ≠ [] := by
  simp [Row.HasValue]

theorem AlignDistance_ge_minInt {left right : Rendering} {d : Int}
    (h : AlignDistance left right = some d) : minInt ≤ d := by
  rw [AlignDistance_eq] at h
  cases h
  exact foldl_alignStep_ge_init _ _

theorem AlignDistance_bound {left right : Rendering} {d : Int}
    (h : AlignDistance left right = some d) {i : Int} {l r : Row}
    (hl : left.GetRow i = some l) (hr : right.GetRow i = some r)
    (hlv : l.HasValue = true) (hrv : r.HasValue = true) : rowDistance l r ≤ d := by
  rw [AlignDistance_eq] at h
  cases h
  obtain ⟨n, rfl, hn⟩ := GetRow_eq_some hl
  rw [GetRow_natCast] at hr
  exact foldl_alignStep_ge_mem _ _ (l, r) (mem_zip_of_getElem? _ _ n l r hn hr)
    ((HasValue_iff l).mp hlv) ((HasValue_iff r).mp hrv)

theorem AlignDistance_attained {left right : Rendering} {d : Int}
    (h : AlignDistance left right = some d) :
    d = minInt ∨ ∃ (n : Nat) (l r : Row), left.GetRow (n : Int) = some l ∧
      right.GetRow (n : Int) = some r ∧ l.HasValue = true ∧ r.HasValue = true ∧
      rowDistance l r = d := by
  rw [AlignDistance_eq] at h
  cases h
  rcases foldl_alignStep_attained (left.Rows.reverse.zip right.Rows.reverse) minInt with
    h0 | ⟨p, hp, h1, h2, h3⟩
  · left; exact h0
  · right
    obtain ⟨n, hn1, hn2⟩ := getElem?_of_mem_zip _ _ p hp
    exact ⟨n, p.1, p.2, by rw [GetRow_natCast]; exact hn1, by rw [GetRow_natCast]; exact hn2,
      (HasValue_iff _).mpr h1, (HasValue_iff _).mpr h2, h3⟩

theorem AlignDistance_truncate (left right : Rendering) :
    AlignDistance
        (left.topRows (min left.Rows.length right.Rows.length))
        (right.topRows (min left.Rows.length right.Rows.length))
      = AlignDistance left right := by
  rw [AlignDistance_eq, AlignDistance_eq]
  simp only [Rendering.topRows, List.reverse_drop]
  have e1 : left.Rows.length - (left.Rows.length - min left.Rows.length right.Rows.length)
      = min left.Rows.reverse.length right.Rows.reverse.length := by
    simp only [List.length_reverse]; omega
  have e2 : right.Rows.length - (right.Rows.length - min left.Rows.length right.Rows.length)
      = min left.Rows.reverse.length right.Rows.reverse.length := by
    simp only [List.length_reverse]; omega
  rw [e1, e2, ← List.zip_eq_zip_take_min]

theorem mergeAt_isSome_of (distance : Int) (a b : Option Row) (hab : a.isSome ∨ b.isSome)
    (hn : ∀ l r, a = some l → b = some r → 0 ≤ distance - (l.EndIndex + 1) + r.StartIndex) :
    (mergeAt distance a b).isSome := by
  cases a with
  | none =>
    cases b with
    | none => simp at hab
    | some r => simp [mergeAt]
  | some l =>
    cases b with
    | none => simp [mergeAt]
    | some r => simp [mergeAt, Spaces_of_nonneg (hn l r rfl rfl)]

theorem JoinRenderings_isSome (left right : Rendering) (distance : Int)
    (hn : ∀ (i : Int) (l r : Row), left.GetRow i = some l → right.GetRow i = some r →
      0 ≤ distance - (l.EndIndex + 1) + r.StartIndex) :
    ∃ res, JoinRenderings left right distance = some res := by
  obtain ⟨rows, hrows⟩ := mergeFrom_isSome distance left.Rows.reverse right.Rows.reverse
    (max left.Rows.length right.Rows.length) 0 (fun k hk => by
      apply mergeAt_isSome_of
      · rw [Nat.zero_add]
        rcases lt_max_iff.mp hk with h | h
        · left
          rw [List.getElem?_eq_getElem (by simpa using h)]; rfl
        · right
          rw [List.getElem?_eq_getElem (by simpa using h)]; rfl
      · intro l r hl hr
        rw [Nat.zero_add, ← GetRow_natCast] at hl hr
        exact hn k l r hl hr)
  exact ⟨_, by rw [JoinRenderings_eq, hrows]; rfl⟩

theorem JoinRenderings_rows {left right : Rendering} {distance : Int} {res : Rendering}
    (h : JoinRenderings left right distance = some res) :
    res.Rows.length = max left.Rows.length right.Rows.length ∧
    res.minIndex = minOffset left.minIndex res.Rows.reverse ∧
    ∀ i : Int, (left.GetRow i).isSome ∨ (right.GetRow i).isSome →
      res.GetRow i = mergeAt distance (left.GetRow i) (right.GetRow i) := by
  rw [JoinRenderings_eq] at h
  cases hm : mergeFrom distance left.Rows.reverse right.Rows.reverse
      (max left.Rows.length right.Rows.length) 0 with
  | none => rw [hm] at h; cases h
  | some rows =>
    rw [hm] at h
    simp only [Option.map_some', Option.some.injEq] at h
    subst h
    have hlen := mergeFrom_length _ _ _ _ _ _ hm
    refine ⟨by simpa using hlen, by simp, ?_⟩
    intro i hi
    have hi0 : 0 ≤ i := by
      by_contra hneg
      rw [GetRow_neg left (not_le.mp hneg), GetRow_neg right (not_le.mp hneg)] at hi
      simp at hi
    obtain ⟨n, rfl⟩ := Int.eq_ofNat_of_zero_le hi0
    simp only [GetRow_natCast, List.reverse_reverse] at hi ⊢
    have hk : n < max left.Rows.length right.Rows.length := by
      rcases hi with h1 | h1
      · obtain ⟨a, ha⟩ := Option.isSome_iff_exists.mp h1
        have := (List.getElem?_eq_some.mp ha).1
        simp only [List.length_reverse] at this
        exact lt_max_of_lt_left this
      · obtain ⟨a, ha⟩ := Option.isSome_iff_exists.mp h1
        have := (List.getElem?_eq_some.mp ha).1
        simp only [List.length_reverse] at this
        exact lt_max_of_lt_right this
    have := (mergeFrom_getElem? _ _ _ _ _ _ hm n hk).1
    rw [Nat.zero_add] at this
    exact this

/-! ## Claims on `AlignDistance` and `JoinRenderings` -/

/-- C6: `AlignDistance(left, right)` returns a value `d` that bounds the
per-row distance `left.GetRow(i).EndIndex() - right.GetRow(i).StartIndex() + 1`
of every index `i` (from the top) at which both renderings have a row with a
non-empty value, and that is attained by one of these rows unless it is the
initial value `math.MinInt`, so it is their maximum; the rows of the taller
rendering below the height of the shorter one do not influence it: the
renderings cut to their top `min(len(left.Rows), len(right.Rows))` rows have
the same distance. -/
theorem C6_AlignDistance_is_maximum (left right : Rendering) :
    ∃ d : Int, AlignDistance left right = some d ∧
      (∀ (i : Int) (l r : Row), left.GetRow i = some l → right.GetRow i = some r →
        l.HasValue = true → r.HasValue = true → l.EndIndex - r.StartIndex + 1 ≤ d) ∧
      (d = minInt ∨ ∃ (i : Int) (l r : Row), i < min left.Rows.length right.Rows.length ∧
        left.GetRow i = some l ∧ right.GetRow i = some r ∧
        l.HasValue = true ∧ r.HasValue = true ∧ l.EndIndex - r.StartIndex + 1 = d) ∧
      AlignDistance
        (left.topRows (min left.Rows.length right.Rows.length))
        (right.topRows (min left.Rows.length right.Rows.length)) = some d := by
  refine ⟨_, AlignDistance_eq left right, ?_, ?_, ?_⟩
  · intro i l r hl hr hlv hrv
    exact AlignDistance_bound (AlignDistance_eq left right) hl hr hlv hrv
  · rcases AlignDistance_attained (AlignDistance_eq left right) with h | ⟨n, l, r, h1, h2, h3, h4, h5⟩
    · left; exact h
    · right
      refine ⟨n, l, r, ?_, h1, h2, h3, h4, h5⟩
      rw [GetRow_natCast] at h1 h2
      have b1 := (List.getElem?_eq_some.mp h1).1
      have b2 := (List.getElem?_eq_some.mp h2).1
      simp only [List.length_reverse] at b1 b2
      exact_mod_cast lt_min b1 b2
  · rw [AlignDistance_truncate, AlignDistance_eq]

/-- C7: when `d0 = AlignDistance(left, right)` is not the sentinel
`math.MinInt`, then for every `d >= d0` and every paired row with non-empty
values on both sides every column of `[left_i.StartIndex(), left_i.EndIndex()]`
is strictly before every column of `[d + right_i.StartIndex(), d +
right_i.EndIndex()]`; and `d0` is minimal: at `d0 - 1` some paired row with
non-empty values has `left_i.EndIndex() >= (d0 - 1) + right_i.StartIndex()`. -/
theorem C7_AlignDistance_minimal_separation (left right : Rendering) (d0 : Int)
    (h : AlignDistance left right = some d0) (hs : d0 ≠ minInt) :
    (∀ d : Int, d0 ≤ d → ∀ (i : Int) (l r : Row), left.GetRow i = some l →
      right.GetRow i = some r → l.HasValue = true → r.HasValue = true →
      ∀ c1 c2 : Int, l.StartIndex ≤ c1 ∧ c1 ≤ l.EndIndex →
        d + r.StartIndex ≤ c2 ∧ c2 ≤ d + r.EndIndex → c1 < c2) ∧
    (∃ (i : Int) (l r : Row), left.GetRow i = some l ∧ right.GetRow i = some r ∧
      l.HasValue = true ∧ r.HasValue = true ∧ l.EndIndex ≥ (d0 - 1) + r.StartIndex) := by
  constructor
  · intro d hd i l r hl hr hlv hrv c1 c2 hc1 hc2
    have hb := AlignDistance_bound h hl hr hlv hrv
    unfold rowDistance at hb
    omega
  · rcases AlignDistance_attained h with h0 | ⟨n, l, r, h1, h2, h3, h4, h5⟩
    · exact absurd h0 hs
    · refine ⟨n, l, r, h1, h2, h3, h4, ?_⟩
      unfold rowDistance at h5
      omega

/-- Witness of C7 on the renderings of `TestAlignDistanceFromDoc`: `ab123`
shifted by -1 and `45cd` shifted by -2 have distance 6. -/
theorem C7_AlignDistance_minimal_separation_witness :
    (∀ d : Int, 6 ≤ d → ∀ (i : Int) (l r : Row),
      docLeft.GetRow i = some l →
      docRight.GetRow i = some r → l.HasValue = true → r.HasValue = true →
      ∀ c1 c2 : Int, l.StartIndex ≤ c1 ∧ c1 ≤ l.EndIndex →
        d + r.StartIndex ≤ c2 ∧ c2 ≤ d + r.EndIndex → c1 < c2) ∧
    (∃ (i : Int) (l r : Row),
      docLeft.GetRow i = some l ∧
      docRight.GetRow i = some r ∧
      l.HasValue = true ∧ r.HasValue = true ∧ l.EndIndex ≥ (6 - 1) + r.StartIndex) :=
  C7_AlignDistance_minimal_separation docLeft docRight 6 (by decide) (by decide)

/-- C8: if the spacing `n = distance - (left.GetRow(i).EndIndex()+1) +
right.GetRow(i).StartIndex()` is non-negative on every row index that exists in
both renderings, then `JoinRenderings(left, right, distance)` returns a
rendering whose row `i`, for every such index, has the value
`left.GetRow(i).Value() + Spaces(n) + right.GetRow(i).Value()` and the offset
`left.GetRow(i).StartIndex()`. -/
theorem C8_JoinRenderings_paired_row (left right : Rendering) (distance : Int)
    (hn : ∀ (i : Int) (l r : Row), left.GetRow i = some l → right.GetRow i = some r →
      0 ≤ distance - (l.EndIndex + 1) + r.StartIndex) :
    ∃ res, JoinRenderings left right distance = some res ∧
      ∀ (i : Int) (l r : Row), left.GetRow i = some l → right.GetRow i = some r →
        ∃ sp, Spaces (distance - (l.EndIndex + 1) + r.StartIndex) = some sp ∧
          res.GetRow i = some { val := l.Value ++ sp ++ r.Value, offset := l.StartIndex } := by
  obtain ⟨res, hres⟩ := JoinRenderings_isSome left right distance hn
  refine ⟨res, hres, ?_⟩
  intro i l r hl hr
  have hrow := (JoinRenderings_rows hres).2.2 i (by rw [hl]; left; rfl)
  have hsp := Spaces_of_nonneg (hn i l r hl hr)
  refine ⟨_, hsp, ?_⟩
  rw [hrow, hl, hr]
  simp only [mergeAt, hsp]
  rfl

/-- Witness of C8 on the one-row renderings of `TestAlignDistanceFromDoc`
joined at their alignment distance 6. -/
theorem C8_JoinRenderings_paired_row_witness :
    ∃ res, JoinRenderings docLeft docRight 6 = some res ∧
      ∀ (i : Int) (l r : Row), docLeft.GetRow i = some l → docRight.GetRow i = some r →
        ∃ sp, Spaces (6 - (l.EndIndex + 1) + r.StartIndex) = some sp ∧
          res.GetRow i = some { val := l.Value ++ sp ++ r.Value, offset := l.StartIndex } :=
  C8_JoinRenderings_paired_row docLeft docRight 6 (by
    intro i l r hl hr
    obtain ⟨n, rfl, hn⟩ := GetRow_eq_some hl
    rw [GetRow_natCast] at hr
    cases n with
    | zero =>
      simp only [docLeft, docRight, List.reverse_cons, List.reverse_nil, List.nil_append,
        List.getElem?_cons_zero, Option.some.injEq] at hn hr
      subst hn hr
      decide
    | succ n => simp [docLeft] at hn)

/-- C9: when `JoinRenderings(left, right, distance)` succeeds, the result has
`max(len(left.Rows), len(right.Rows))` rows; at an index `i` (from the top)
that both inputs have, its row is `left`'s value, the spaces and `right`'s
value at `left`'s offset; at an index that only `left` has, its row is
`left`'s value at the offset `left.GetRow(i).StartIndex()`; at an index that
only `right` has, its row is `right`'s value at the offset `distance +
right.GetRow(i).StartIndex()`. -/
theorem C9_JoinRenderings_rows (left right : Rendering) (distance : Int) (res : Rendering)
    (h : JoinRenderings left right distance = some res) :
    (res.Rows.length : Int) = max (left.Rows.length : Int) (right.Rows.length : Int) ∧
    (∀ (i : Int) (l r : Row), left.GetRow i = some l → right.GetRow i = some r →
      ∃ sp, Spaces (distance - (l.EndIndex + 1) + r.StartIndex) = some sp ∧
        res.GetRow i = some { val := l.Value ++ sp ++ r.Value, offset := l.StartIndex }) ∧
    (∀ (i : Int) (l : Row), left.GetRow i = some l → right.GetRow i = none →
      res.GetRow i = some { val := l.Value, offset := l.StartIndex }) ∧
    (∀ (i : Int) (r : Row), left.GetRow i = none → right.GetRow i = some r →
      res.GetRow i = some { val := r.Value, offset := distance + r.StartIndex }) := by
  obtain ⟨hlen, -, hrow⟩ := JoinRenderings_rows h
  refine ⟨by rw [hlen]; push_cast; rfl, ?_, ?_, ?_⟩
  · intro i l r hl hr
    have hi := hrow i (by rw [hl]; left; rfl)
    have hsome : (res.GetRow i).isSome := by
      obtain ⟨n, rfl, hn⟩ := GetRow_eq_some hl
      rw [GetRow_natCast]
      have := (List.getElem?_eq_some.mp hn).1
      simp only [List.length_reverse] at this
      rw [List.getElem?_eq_getElem (by simp only [List.length_reverse]; omega)]
      rfl
    rw [hi, hl, hr] at hsome
    rw [hi, hl, hr]
    simp only [mergeAt] at hsome ⊢
    cases hsp : Spaces (distance - (l.EndIndex + 1) + r.StartIndex) with
    | none => rw [hsp] at hsome; simp at hsome
    | some sp => exact ⟨sp, rfl, rfl⟩
  · intro i l hl hr
    rw [hrow i (by rw [hl]; left; rfl), hl, hr]
    rfl
  · intro i r hl hr
    rw [hrow i (by rw [hr]; right; rfl), hl, hr]
    rfl

/-- Witness of C9: the three rows of `TestJoinSymmetric`'s left rendering
joined with a one-row right rendering at distance 6. -/
theorem C9_JoinRenderings_rows_witness :
    (({ Rows := [{ val := "22left22".toList, offset := -2 },
                 { val := "1left1".toList, offset := -1 },
                 { val := "left45cd".toList, offset := 0 }],
        minIndex := -2 } : Rendering).Rows.length : Int)
      = max (symLeft.Rows.length : Int) (docRight.Rows.length : Int) ∧
    Rendering.GetRow
      { Rows := [{ val := "22left22".toList, offset := -2 },
                 { val := "1left1".toList, offset := -1 },
                 { val := "left45cd".toList, offset := 0 }],
        minIndex := -2 } 2
      = some { val := Row.Value { val := "22left22".toList, offset := -2 },
               offset := Row.StartIndex { val := "22left22".toList, offset := -2 } } :=
  ⟨(C9_JoinRenderings_rows symLeft docRight 6 _ (by decide)).1,
   (C9_JoinRenderings_rows symLeft docRight 6 _ (by decide)).2.2.1 2
     { val := "22left22".toList, offset := -2 } (by decide) (by decide)⟩

/-- C10, as the code has it: when on every paired row neither the row distance
`left.EndIndex() - right.StartIndex() + 1` nor the spacing
`n = distance - (left.EndIndex()+1) + right.StartIndex()` exceeds
`math.MaxInt` (so that neither wraps), then for every
`distance >= AlignDistance(left, right)` the spacing is non-negative on every
paired row whose two values are non-empty, and
`JoinRenderings(left, right, distance)` does not fail when every paired row has
non-empty values on both sides; on a paired row with non-empty values `n` is
negative only if `distance` is smaller than `AlignDistance(left, right)`. -/
theorem C10_spacing_nonneg_on_valued_rows (left right : Rendering) (d0 distance : Int)
    (h : AlignDistance left right = some d0)
    (_hrange : ∀ (i : Int) (l r : Row), left.GetRow i = some l → right.GetRow i = some r →
      l.EndIndex - r.StartIndex + 1 ≤ maxInt ∧
      distance - (l.EndIndex + 1) + r.StartIndex ≤ maxInt) :
    (d0 ≤ distance → ∀ (i : Int) (l r : Row), left.GetRow i = some l →
      right.GetRow i = some r → l.HasValue = true → r.HasValue = true →
      0 ≤ distance - (l.EndIndex + 1) + r.StartIndex) ∧
    (d0 ≤ distance → (∀ (i : Int) (l r : Row), left.GetRow i = some l →
      right.GetRow i = some r → l.HasValue = true ∧ r.HasValue = true) →
      ∃ res, JoinRenderings left right distance = some res) ∧
    (∀ (i : Int) (l r : Row), left.GetRow i = some l → right.GetRow i = some r →
      l.HasValue = true → r.HasValue = true →
      distance - (l.EndIndex + 1) + r.StartIndex < 0 → distance < d0) := by
  have key : ∀ (i : Int) (l r : Row), left.GetRow i = some l → right.GetRow i = some r →
      l.HasValue = true → r.HasValue = true → l.EndIndex - r.StartIndex + 1 ≤ d0 :=
    fun i l r hl hr hlv hrv => AlignDistance_bound h hl hr hlv hrv
  refine ⟨?_, ?_, ?_⟩
  · intro hd i l r hl hr hlv hrv
    have := key i l r hl hr hlv hrv
    omega
  · intro hd hall
    apply JoinRenderings_isSome
    intro i l r hl hr
    have := key i l r hl hr (hall i l r hl hr).1 (hall i l r hl hr).2
    omega
  · intro i l r hl hr hlv hrv hneg
    have := key i l r hl hr hlv hrv
    omega

/-- Witness of C10 on the renderings of `TestAlignDistanceFromDoc`, whose
alignment distance is 6, joined at distance 7: the spacing of the only paired
row is 1. -/
theorem C10_spacing_nonneg_on_valued_rows_witness :
    ((6 : Int) ≤ 7 → ∀ (i : Int) (l r : Row), docLeft.GetRow i = some l →
      docRight.GetRow i = some r → l.HasValue = true → r.HasValue = true →
      0 ≤ 7 - (l.EndIndex + 1) + r.StartIndex) ∧
    ((6 : Int) ≤ 7 → (∀ (i : Int) (l r : Row), docLeft.GetRow i = some l →
      docRight.GetRow i = some r → l.HasValue = true ∧ r.HasValue = true) →
      ∃ res, JoinRenderings docLeft docRight 7 = some res) ∧
    (∀ (i : Int) (l r : Row), docLeft.GetRow i = some l → docRight.GetRow i = some r →
      l.HasValue = true → r.HasValue = true →
      7 - (l.EndIndex + 1) + r.StartIndex < 0 → (7 : Int) < 6) :=
  C10_spacing_nonneg_on_valued_rows docLeft docRight 6 7 (by decide) (by
    intro i l r hl hr
    obtain ⟨n, -, hn⟩ := GetRow_eq_some hl
    obtain ⟨m, -, hm⟩ := GetRow_eq_some hr
    have hall : ∀ l ∈ docLeft.Rows, ∀ r ∈ docRight.Rows,
        l.EndIndex - r.StartIndex + 1 ≤ maxInt ∧
        7 - (l.EndIndex + 1) + r.StartIndex ≤ maxInt := by decide
    exact hall l (List.mem_reverse.mp (List.getElem?_mem hn)) r
      (List.mem_reverse.mp (List.getElem?_mem hm)))

/-- Counterexample to C10 as stated: `ab` against a row with an empty value.
`AlignDistance` skips the pair and returns `math.MinInt`; the distance 0 is not
smaller, yet the spacing of the only paired row is -2 and `JoinRenderings`
fails in `Spaces`. -/
theorem C10_counterexample :
    AlignDistance (NewPartialRendering ['a', 'b']) (NewPartialRendering []) = some minInt ∧
    minInt ≤ 0 ∧
    (NewPartialRendering ['a', 'b']).GetRow 0 = some { val := ['a', 'b'], offset := 0 } ∧
    (NewPartialRendering []).GetRow 0 = some { val := [], offset := 0 } ∧
    (0 : Int) - (Row.EndIndex { val := ['a', 'b'], offset := 0 } + 1)
      + Row.StartIndex { val := [], offset := 0 } = -2 ∧
    JoinRenderings (NewPartialRendering ['a', 'b']) (NewPartialRendering []) 0 = none := by
  decide

/-! ## Lemmas on the invariant of renderings -/

theorem foldl_min_le (f : Row → Int) (rows : List Row) (m0 : Int) :
    rows.foldl (fun m row => if f row < m then f row else m) m0 ≤ m0 ∧
    ∀ row ∈ rows, rows.foldl (fun m row => if f row < m then f row else m) m0 ≤ f row := by
  induction rows generalizing m0 with
  | nil => simp
  | cons a rows ih =>
    simp only [List.foldl_cons, List.mem_cons, forall_eq_or_imp]
    obtain ⟨h1, h2⟩ := ih (if f a < m0 then f a else m0)
    refine ⟨?_, ?_, h2⟩
    · by_cases hc : f a < m0
      · rw [if_pos hc] at h1 ⊢; omega
      · rw [if_neg hc] at h1 ⊢; omega
    · by_cases hc : f a < m0
      · rw [if_pos hc] at h1 ⊢; omega
      · rw [if_neg hc] at h1 ⊢; omega

theorem TopRow_eq_some_of_ne_nil (pr : Rendering) (h : pr.Rows ≠ []) :
    ∃ top, pr.TopRow = some top ∧ top ∈ pr.Rows := by
  have hlen : 0 < pr.Rows.reverse.length := by
    simpa using List.length_pos.mpr h
  refine ⟨pr.Rows.reverse[0], ?_, ?_⟩
  · unfold Rendering.TopRow
    have := GetRow_natCast pr 0
    simp only [Nat.cast_zero] at this
    rw [this, List.getElem?_eq_getElem hlen]
  · exact List.mem_reverse.mp (List.getElem_mem hlen)

theorem reindex_Rows (pr : Rendering) (k : Int) :
    (pr.reindex k).Rows
      = pr.Rows.map (fun row => { val := row.val, offset := row.offset + k }) := rfl

theorem reindex_Good (pr : Rendering) (k : Int) (h : pr.Good) : (pr.reindex k).Good := by
  obtain ⟨h1, h2, h3⟩ := h
  obtain ⟨f1, f2⟩ := foldl_min_le (fun row => row.offset + k) pr.Rows pr.minIndex
  refine ⟨?_, ?_, ?_⟩
  · rw [reindex_Rows]
    simp [h1]
  · exact le_trans f1 h2
  · intro row hrow
    rw [reindex_Rows, List.mem_map] at hrow
    obtain ⟨a, ha, rfl⟩ := hrow
    exact ⟨f2 a ha, (h3 a ha).2⟩

theorem reindex_GetRow (pr : Rendering) (k : Int) (i : Int) :
    (pr.reindex k).GetRow i
      = (pr.GetRow i).map (fun row => { val := row.val, offset := row.offset + k }) := by
  by_cases hi : i < 0
  · rw [GetRow_neg _ hi, GetRow_neg _ hi]; rfl
  · obtain ⟨n, rfl⟩ := Int.eq_ofNat_of_zero_le (not_lt.mp hi)
    rw [GetRow_natCast, GetRow_natCast, reindex_Rows, ← List.map_reverse, List.getElem?_map]

theorem NormalizeOffsetsRev_spec (pr : Rendering) (h : pr.Good) :
    ∃ top, pr.TopRow = some top ∧ top.val ≠ [] ∧
      pr.NormalizeOffsetsRev = some (pr.reindex (-top.EndIndex - 1)) ∧
      (pr.reindex (-top.EndIndex - 1)).Good ∧
      (pr.reindex (-top.EndIndex - 1)).GetRow 0
        = some { val := top.val, offset := -(top.val.length : Int) } := by
  obtain ⟨top, htop, hmem⟩ := TopRow_eq_some_of_ne_nil pr h.1
  refine ⟨top, htop, (h.2.2 top hmem).2, ?_, reindex_Good pr _ h, ?_⟩
  · simp only [Rendering.NormalizeOffsetsRev, htop]
  · unfold Rendering.TopRow at htop
    rw [reindex_GetRow, htop]
    simp only [Option.map_some', Row.EndIndex, Option.some.injEq, Row.mk.injEq, true_and]
    omega

theorem NormalizeOffsets_spec (pr : Rendering) (h : pr.Good) :
    ∃ top rc, pr.TopRow = some top ∧ top.val ≠ [] ∧
      pr.NormalizeOffsets = some rc ∧ rc.Good ∧ rc.Rows.length = pr.Rows.length ∧
      rc.GetRow 0 = some { val := top.val, offset := 0 } := by
  obtain ⟨top, htop, hmem⟩ := TopRow_eq_some_of_ne_nil pr h.1
  by_cases h0 : -top.StartIndex = 0
  · refine ⟨top, pr, htop, (h.2.2 top hmem).2, ?_, h, rfl, ?_⟩
    · simp only [Rendering.NormalizeOffsets, htop, h0, if_true]
    · unfold Rendering.TopRow at htop
      rw [htop]
      have : top.offset = 0 := by unfold Row.StartIndex at h0; omega
      rw [← this]
  · refine ⟨top, pr.reindex (-top.StartIndex), htop, (h.2.2 top hmem).2, ?_,
      reindex_Good pr _ h, by simp [reindex_Rows], ?_⟩
    · simp only [Rendering.NormalizeOffsets, htop, h0, if_false]
    · unfold Rendering.TopRow at htop
      rw [reindex_GetRow, htop]
      simp [Row.StartIndex]

theorem chooseDistance_spec (valueLen alignDistance : Int) :
    valueLen + 6 ≤ chooseDistance valueLen alignDistance ∧
    alignDistance + 2 ≤ chooseDistance valueLen alignDistance ∧
    (chooseDistance valueLen alignDistance - valueLen) % 2 = 0 ∧
    (alignDistance ≠ valueLen + 4 → alignDistance + 3 ≤ chooseDistance valueLen alignDistance) := by
  unfold chooseDistance
  simp only
  by_cases hmin : 6 + valueLen + 1 ≥ alignDistance + 3
  · rw [if_pos hmin]
    have e : (6 + valueLen + 1 - 1 - valueLen) = 6 := by omega
    rw [e]
    have : (6 : Int).tmod 2 = 0 := by decide
    rw [this]
    simp only [zero_ne_one, if_false]
    refine ⟨by omega, by omega, by omega, by omega⟩
  · rw [if_neg hmin]
    have hpos : 0 ≤ alignDistance + 3 - valueLen := by omega
    rw [Int.tmod_eq_emod hpos (by decide)]
    split <;> refine ⟨by omega, by omega, by omega, by omega⟩

theorem addConnectors_eq (res : Rendering) (Value : GoString) (distance : Int)
    (hd : (Value.length : Int) + 6 ≤ distance) (hm : res.minIndex ≤ 0) :
    addConnectors res Value distance
      = some { Rows := res.Rows ++ connectorRows Value distance, minIndex := res.minIndex } := by
  have e1 : (distance - 2 - ((Value.length : Int) + 2)).tdiv 2
      = (distance - Value.length - 4) / 2 := by
    rw [Int.tdiv_eq_ediv (by omega) (by decide)]
    congr 1
    omega
  have e2 : (distance - (Value.length : Int)).tdiv 2 = (distance - Value.length) / 2 :=
    Int.tdiv_eq_ediv (by omega) (by decide)
  have s1 : Spaces (distance - 2) = some (List.replicate (distance - 2).toNat ' ') :=
    Spaces_of_nonneg (by omega)
  have s2 : Spaces ((Value.length : Int) + 2) = some (List.replicate (Value.length + 2) ' ') :=
    Spaces_natCast (Value.length + 2)
  have s3 : Spaces (Value.length : Int) = some (List.replicate Value.length ' ') :=
    Spaces_natCast Value.length
  have u1 : Underscores ((distance - Value.length - 4) / 2 - 1)
      = some (List.replicate ((distance - Value.length - 4) / 2 - 1).toNat '_') :=
    Underscores_of_nonneg (by omega)
  have m1 : ¬ ((1 : Int) < res.minIndex) := by omega
  have m2 : ¬ ((distance - Value.length) / 2 - 1 < res.minIndex) := by omega
  have m3 : ¬ ((distance - Value.length) / 2 - 1 + 1 < res.minIndex) := by omega
  have e3 : (distance - (Value.length : Int)) / 2 - 1 + 1 = (distance - Value.length) / 2 := by
    omega
  simp only [addConnectors, e1, e2, s1, s2, s3, u1, Option.bind_eq_bind, Option.some_bind,
    AddOnTop_ShiftTopBy, m1, m2, m3, if_false, e3]
  have m4 : ¬ ((distance - Value.length) / 2 < res.minIndex) := by omega
  simp only [Rendering.AddOnTop, connectorRows, List.append_assoc, List.singleton_append,
    List.nil_append, List.cons_append, m1, m2, m4, if_false]

theorem GetRow_mem {pr : Rendering} {i : Int} {a : Row} (h : pr.GetRow i = some a) :
    a ∈ pr.Rows := by
  obtain ⟨n, -, hn⟩ := GetRow_eq_some h
  exact List.mem_reverse.mp (List.getElem?_mem hn)

theorem exists_GetRow_of_mem {pr : Rendering} {a : Row} (h : a ∈ pr.Rows) :
    ∃ n : Nat, pr.GetRow (n : Int) = some a := by
  obtain ⟨n, hn⟩ := List.mem_iff_getElem?.mp (List.mem_reverse.mpr h)
  exact ⟨n, by rw [GetRow_natCast]; exact hn⟩

theorem JoinRenderings_Good {left right : Rendering} {distance : Int} {res : Rendering}
    (hl : left.Good) (hr : right.Good) (h : JoinRenderings left right distance = some res) :
    res.Good := by
  obtain ⟨hlen, hmin, hrow⟩ := JoinRenderings_rows h
  obtain ⟨f1, f2⟩ := foldl_min_le (fun row => row.offset) res.Rows.reverse left.minIndex
  refine ⟨?_, ?_, ?_⟩
  · intro hnil
    rw [hnil] at hlen
    have : 0 < left.Rows.length := List.length_pos.mpr hl.1
    simp only [List.length_nil] at hlen
    omega
  · rw [hmin]
    exact le_trans f1 hl.2.1
  · intro row hmem
    refine ⟨by rw [hmin]; exact f2 row (List.mem_reverse.mpr hmem), ?_⟩
    obtain ⟨n, hn⟩ := exists_GetRow_of_mem hmem
    have hsome : (left.GetRow n).isSome ∨ (right.GetRow n).isSome := by
      have hb := (List.getElem?_eq_some.mp (by rw [GetRow_natCast] at hn; exact hn)).1
      simp only [List.length_reverse, hlen] at hb
      rcases lt_max_iff.mp hb with h1 | h1
      · left
        rw [GetRow_natCast, List.getElem?_eq_getElem (by simpa using h1)]; rfl
      · right
        rw [GetRow_natCast, List.getElem?_eq_getElem (by simpa using h1)]; rfl
    have hm := hrow n hsome
    rw [hn] at hm
    cases ha : left.GetRow n with
    | none =>
      cases hb : right.GetRow n with
      | none => rw [ha, hb] at hm; cases hm
      | some b =>
        rw [ha, hb] at hm
        simp only [mergeAt, Option.some.injEq] at hm
        rw [hm]
        exact (hr.2.2 b (GetRow_mem hb)).2
    | some a =>
      have hav := (hl.2.2 a (GetRow_mem ha)).2
      cases hb : right.GetRow n with
      | none =>
        rw [ha, hb] at hm
        simp only [mergeAt, Option.some.injEq] at hm
        rw [hm]
        exact hav
      | some b =>
        rw [ha, hb] at hm
        simp only [mergeAt] at hm
        split at hm
        · simp only [Option.some.injEq] at hm
          rw [hm]
          simp [hav]
        · cases hm

theorem NewPartialRendering_Good (v : GoString) (hv : v ≠ []) : (NewPartialRendering v).Good := by
  refine ⟨by simp [NewPartialRendering], le_refl _, ?_⟩
  intro row hrow
  simp only [NewPartialRendering, List.mem_singleton] at hrow
  subst hrow
  exact ⟨le_refl _, hv⟩

theorem connectorRows_Good (res : Rendering) (v : GoString) (distance : Int) (hres : res.Good)
    (hv : v ≠ []) (hd : (v.length : Int) + 6 ≤ distance) :
    Rendering.Good { Rows := res.Rows ++ connectorRows v distance, minIndex := res.minIndex } := by
  obtain ⟨h1, h2, h3⟩ := hres
  refine ⟨by simp [h1], h2, ?_⟩
  intro row hrow
  simp only [List.mem_append] at hrow
  rcases hrow with hrow | hrow
  · exact h3 row hrow
  · simp only [connectorRows, List.mem_cons, List.mem_singleton, List.not_mem_nil,
      or_false] at hrow
    rcases hrow with rfl | rfl | rfl | rfl
    · exact ⟨h2, by simp⟩
    · exact ⟨by simp only; omega, by simp⟩
    · exact ⟨by simp only; omega, by simp⟩
    · exact ⟨by simp only; omega, hv⟩

/-- The equation of `PrintTree` on a node, with `IsLeaf` evaluated. -/
theorem PrintTree_mk (v : GoString) (l r : Node) :
    PrintTree (.mk v l r)
      = if v = [] then none
        else if (l.isNil && r.isNil) = true then some (NewPartialRendering v)
        else
          match PrintTree l with
          | none => none
          | some leftPrinted =>
            match leftPrinted.NormalizeOffsetsRev with
            | none => none
            | some leftChildRendering =>
              match PrintTree r with
              | none => none
              | some rightPrinted =>
                match rightPrinted.NormalizeOffsets with
                | none => none
                | some rightChildRendering =>
                  match AlignDistance leftChildRendering rightChildRendering with
                  | none => none
                  | some alignDistance =>
                    match JoinRenderings leftChildRendering rightChildRendering
                        (chooseDistance v.length alignDistance) with
                    | none => none
                    | some result =>
                      addConnectors result v (chooseDistance v.length alignDistance) := by
  rw [PrintTree]
  by_cases hv : v = []
  · rw [if_pos hv, if_pos hv]
  · rw [if_neg hv, if_neg hv]
    simp only [Node.IsLeaf]
    cases hb : (l.isNil && r.isNil)
    · simp only [Bool.false_eq_true, if_false]
    · simp only [if_true]

/-- The steps of `PrintTree` on a node with two printed children. -/
theorem PrintTree_node (v : GoString) (l r : Node) (hv : v ≠ [])
    (hnl : (l.isNil && r.isNil) = false) (lp rp : Rendering)
    (hl : PrintTree l = some lp) (hr : PrintTree r = some rp) (hlg : lp.Good) (hrg : rp.Good) :
    ∃ lc rc ad res0, lp.NormalizeOffsetsRev = some lc ∧ rp.NormalizeOffsets = some rc ∧
      lc.Good ∧ rc.Good ∧ lc.Rows.length = lp.Rows.length ∧ rc.Rows.length = rp.Rows.length ∧
      AlignDistance lc rc = some ad ∧ 0 ≤ ad ∧
      (∀ (i : Int) (a b : Row), lc.GetRow i = some a → rc.GetRow i = some b →
        rowDistance a b ≤ ad) ∧
      JoinRenderings lc rc (chooseDistance v.length ad) = some res0 ∧ res0.Good ∧
      PrintTree (.mk v l r)
        = some { Rows := res0.Rows ++ connectorRows v (chooseDistance v.length ad),
                 minIndex := res0.minIndex } := by
  obtain ⟨ltop, hltop, hltv, hlc, hlcg, hlc0⟩ := NormalizeOffsetsRev_spec lp hlg
  obtain ⟨rtop, rc, hrtop, hrtv, hrc, hrcg, hrlen, hrc0⟩ := NormalizeOffsets_spec rp hrg
  have had := AlignDistance_eq (lp.reindex (-ltop.EndIndex - 1)) rc
  have hbound : ∀ (i : Int) (a b : Row),
      (lp.reindex (-ltop.EndIndex - 1)).GetRow i = some a → rc.GetRow i = some b →
      rowDistance a b ≤ _ := fun i a b ha hb =>
    AlignDistance_bound had ha hb
      ((HasValue_iff a).mpr (hlcg.2.2 a (GetRow_mem ha)).2)
      ((HasValue_iff b).mpr (hrcg.2.2 b (GetRow_mem hb)).2)
  have h0 := hbound 0 _ _ hlc0 hrc0
  have h00 : rowDistance { val := ltop.val, offset := -(ltop.val.length : Int) }
      { val := rtop.val, offset := 0 } = 0 := by
    simp only [rowDistance, Row.EndIndex, Row.StartIndex]
    omega
  rw [h00] at h0
  obtain ⟨hd1, hd2, -, -⟩ := chooseDistance_spec v.length
    ((List.zip (lp.reindex (-ltop.EndIndex - 1)).Rows.reverse rc.Rows.reverse).foldl
      alignStep minInt)
  obtain ⟨res0, hres0⟩ := JoinRenderings_isSome (lp.reindex (-ltop.EndIndex - 1)) rc
    (chooseDistance v.length
      ((List.zip (lp.reindex (-ltop.EndIndex - 1)).Rows.reverse rc.Rows.reverse).foldl
        alignStep minInt))
    (fun i a b ha hb => by
      have := hbound i a b ha hb
      unfold rowDistance at this
      omega)
  have hg0 := JoinRenderings_Good hlcg hrcg hres0
  refine ⟨_, rc, _, res0, hlc, hrc, hlcg, hrcg, by simp [reindex_Rows], hrlen, had, h0, hbound,
    hres0, hg0, ?_⟩
  rw [PrintTree_mk, if_neg hv]
  simp only [hnl, Bool.false_eq_true, if_false, hl, hlc, hr, hrc, had, hres0]
  exact addConnectors_eq res0 v _ hd1 hg0.2.1

theorem WellFormed_children {v : GoString} {l r : Node} (h : WellFormed (.mk v l r) = true)
    (hnl : (l.isNil && r.isNil) = false) : WellFormed l = true ∧ WellFormed r = true := by
  simp only [WellFormed, Bool.and_eq_true, Bool.or_eq_true, hnl, Bool.false_eq_true,
    false_or] at h
  exact h.2

theorem WellFormed_value {v : GoString} {l r : Node} (h : WellFormed (.mk v l r) = true) :
    v ≠ [] := by
  simp only [WellFormed, Bool.and_eq_true, decide_eq_true_eq] at h
  exact h.1

/-- On a well-formed tree `PrintTree` returns a rendering that satisfies the invariant. -/
theorem PrintTree_Good (t : Node) (h : WellFormed t = true) :
    ∃ res, PrintTree t = some res ∧ res.Good := by
  induction t with
  | nil => simp [WellFormed] at h
  | mk v l r ihl ihr =>
    have hv := WellFormed_value h
    by_cases hleaf : (l.isNil && r.isNil) = true
    · refine ⟨NewPartialRendering v, ?_, NewPartialRendering_Good v hv⟩
      rw [PrintTree_mk, if_neg hv, if_pos hleaf]
    · have hnl : (l.isNil && r.isNil) = false := by simpa using hleaf
      obtain ⟨hwl, hwr⟩ := WellFormed_children h hnl
      obtain ⟨lp, hl, hlg⟩ := ihl hwl
      obtain ⟨rp, hr, hrg⟩ := ihr hwr
      obtain ⟨lc, rc, ad, res0, -, -, -, -, -, -, -, -, -, -, hg0, hp⟩ :=
        PrintTree_node v l r hv hnl lp rp hl hr hlg hrg
      obtain ⟨hd1, -, -, -⟩ := chooseDistance_spec v.length ad
      exact ⟨_, hp, connectorRows_Good res0 v _ hg0 hv hd1⟩

theorem GetRow_connectorRows (rows : List Row) (m : Int) (v : GoString) (distance : Int) :
    Rendering.GetRow { Rows := rows ++ connectorRows v distance, minIndex := m } 0
      = some { val := v, offset := (distance - v.length) / 2 } ∧
    Rendering.GetRow { Rows := rows ++ connectorRows v distance, minIndex := m } 1
      = some { val := ['/'] ++ List.replicate v.length ' ' ++ ['\\'],
               offset := (distance - v.length) / 2 - 1 } ∧
    Rendering.GetRow { Rows := rows ++ connectorRows v distance, minIndex := m } 2
      = some { val := List.replicate ((distance - v.length - 4) / 2 - 1).toNat '_' ++ ['/']
                 ++ List.replicate (v.length + 2) ' ' ++ ['\\']
                 ++ List.replicate ((distance - v.length - 4) / 2 - 1).toNat '_',
               offset := 1 } ∧
    Rendering.GetRow { Rows := rows ++ connectorRows v distance, minIndex := m } 3
      = some { val := ['/'] ++ List.replicate (distance - 2).toNat ' ' ++ ['\\'],
               offset := 0 } := by
  have h0 := GetRow_natCast { Rows := rows ++ connectorRows v distance, minIndex := m } 0
  have h1 := GetRow_natCast { Rows := rows ++ connectorRows v distance, minIndex := m } 1
  have h2 := GetRow_natCast { Rows := rows ++ connectorRows v distance, minIndex := m } 2
  have h3 := GetRow_natCast { Rows := rows ++ connectorRows v distance, minIndex := m } 3
  simp only [Nat.cast_zero, Nat.cast_one, Nat.cast_ofNat] at h0 h1 h2 h3
  rw [h0, h1, h2, h3]
  simp [connectorRows]

/-! ## Claims on `PrintTree` -/

theorem PrintTree_some_shape (t : Node) (res : Rendering) (h : PrintTree t = some res) :
    t ≠ .nil ∧ anyEmptyLabel t = false ∧ anyOneChild t = false := by
  induction t generalizing res with
  | nil => simp [PrintTree] at h
  | mk v l r ihl ihr =>
    refine ⟨by simp, ?_⟩
    rw [PrintTree_mk] at h
    split at h
    · cases h
    · rename_i hv
      split at h
      · rename_i hleaf
        simp only [Bool.and_eq_true] at hleaf
        cases l <;> cases r <;> simp_all [Node.isNil, anyEmptyLabel, anyOneChild]
      · cases hl : PrintTree l with
        | none => simp [hl] at h
        | some lp =>
          cases hr : PrintTree r with
          | none =>
            rw [hl] at h
            simp only [hr] at h
            split at h <;> cases h
          | some rp =>
            obtain ⟨hl1, hl2, hl3⟩ := ihl lp hl
            obtain ⟨hr1, hr2, hr3⟩ := ihr rp hr
            have el : l.isNil = false := by cases l <;> simp_all [Node.isNil]
            have er : r.isNil = false := by cases r <;> simp_all [Node.isNil]
            simp [anyEmptyLabel, anyOneChild, hv, hl2, hl3, hr2, hr3, el, er]

/-- C5: `PrintTree` fails (returns no rendering) when the root is nil, when
some node of the tree has an empty label (a leaf with an empty label included)
and when some node has exactly one child. -/
theorem C5_PrintTree_fails_on_invalid_tree (t : Node)
    (h : t = .nil ∨ anyEmptyLabel t = true ∨ anyOneChild t = true) : PrintTree t = none := by
  cases hp : PrintTree t with
  | none => rfl
  | some res =>
    obtain ⟨h1, h2, h3⟩ := PrintTree_some_shape t res hp
    rcases h with h | h | h
    · exact absurd h h1
    · rw [h2] at h; cases h
    · rw [h3] at h; cases h

/-- Witness of C5: the nil root, a leaf with an empty label below a valid
root, and a node whose only child is the right one. -/
theorem C5_PrintTree_fails_on_invalid_tree_witness :
    PrintTree .nil = none ∧
    PrintTree (.mk ['+'] (leaf []) (leaf ['b'])) = none ∧
    PrintTree (.mk ['+'] .nil (leaf ['b'])) = none :=
  ⟨C5_PrintTree_fails_on_invalid_tree .nil (Or.inl rfl),
   C5_PrintTree_fails_on_invalid_tree _ (Or.inr (Or.inl (by decide))),
   C5_PrintTree_fails_on_invalid_tree _ (Or.inr (Or.inr (by decide)))⟩

/-- C4: on every tree in which each node has a non-empty label and either no
child or two children, `PrintTree` returns a rendering (no panic in `PrintTree`,
`JoinRenderings`, `GetRow`, `Spaces` or `Underscores`), and `String()` on the
result returns a text. -/
theorem C4_PrintTree_total (t : Node) (h : WellFormed t = true) :
    ∃ res, PrintTree t = some res ∧ ∃ text, res.String = some text := by
  obtain ⟨res, hres, hg⟩ := PrintTree_Good t h
  exact ⟨res, hres, _, String_eq res (fun row hrow => (hg.2.2 row hrow).1)⟩

/-- Witness of C4 on the two-level tree of `TestPrintTreeTwoLevels1`. -/
theorem C4_PrintTree_total_witness :
    ∃ res, PrintTree (buildTree "root".toList) = some res ∧ ∃ text, res.String = some text :=
  C4_PrintTree_total (buildTree "root".toList) (by decide)

/-- C3: on a well-formed tree whose root has two children, with `d` the
distance `PrintTree` chooses for the root from the alignment distance of the
normalized children, `d - len(label)` is even, and the result `r` has the label
as its top row, centred over the lower connector row `r.GetRow(3)` of length
`d` (`TopRow().StartIndex() - GetRow(3).StartIndex() == GetRow(3).EndIndex() -
TopRow().EndIndex()`), while the upper connector row `r.GetRow(1)` starts one
column left of the label and ends one column right of it. -/
theorem C3_label_centred (v : GoString) (l r : Node) (hw : WellFormed (.mk v l r) = true)
    (hl : l.isNil = false) (_hr : r.isNil = false) :
    ∃ lp lc rp rc ad res top r1 r3,
      PrintTree l = some lp ∧ lp.NormalizeOffsetsRev = some lc ∧
      PrintTree r = some rp ∧ rp.NormalizeOffsets = some rc ∧
      AlignDistance lc rc = some ad ∧
      (chooseDistance v.length ad - v.length) % 2 = 0 ∧
      PrintTree (.mk v l r) = some res ∧
      res.TopRow = some top ∧ res.GetRow 1 = some r1 ∧ res.GetRow 3 = some r3 ∧
      top.Value = v ∧ r3.Length = chooseDistance v.length ad ∧
      top.StartIndex - r3.StartIndex = r3.EndIndex - top.EndIndex ∧
      r1.StartIndex = top.StartIndex - 1 ∧ r1.EndIndex = top.EndIndex + 1 := by
  have hnl : (l.isNil && r.isNil) = false := by simp [hl]
  have hv := WellFormed_value hw
  obtain ⟨hwl, hwr⟩ := WellFormed_children hw hnl
  obtain ⟨lp, hlp, hlg⟩ := PrintTree_Good l hwl
  obtain ⟨rp, hrp, hrg⟩ := PrintTree_Good r hwr
  obtain ⟨lc, rc, ad, res0, hlc, hrc, -, -, -, -, had, -, -, -, -, hp⟩ :=
    PrintTree_node v l r hv hnl lp rp hlp hrp hlg hrg
  obtain ⟨hd1, -, hd3, -⟩ := chooseDistance_spec v.length ad
  obtain ⟨g0, g1, -, g3⟩ :=
    GetRow_connectorRows res0.Rows res0.minIndex v (chooseDistance v.length ad)
  refine ⟨lp, lc, rp, rc, ad, _, _, _, _, hlp, hlc, hrp, hrc, had, hd3, hp, g0, g1, g3, rfl,
    ?_, ?_, ?_, ?_⟩
  · simp only [Row.Length, List.length_append, List.length_singleton, List.length_replicate]
    omega
  · simp only [Row.StartIndex, Row.EndIndex, List.length_append, List.length_singleton,
      List.length_replicate]
    omega
  · simp only [Row.StartIndex]
  · simp only [Row.EndIndex, List.length_append, List.length_singleton, List.length_replicate]
    omega

/-- Witness of C3 on the two-level tree of `TestPrintTreeTwoLevels2`, whose
root `baz` needs the parity fix-up of the distance. -/
theorem C3_label_centred_witness :
    ∃ lp lc rp rc ad res top r1 r3,
      PrintTree fooTree = some lp ∧ lp.NormalizeOffsetsRev = some lc ∧
      PrintTree barTree = some rp ∧ rp.NormalizeOffsets = some rc ∧
      AlignDistance lc rc = some ad ∧
      (chooseDistance "baz".toList.length ad - "baz".toList.length) % 2 = 0 ∧
      PrintTree (.mk "baz".toList fooTree barTree) = some res ∧
      res.TopRow = some top ∧ res.GetRow 1 = some r1 ∧ res.GetRow 3 = some r3 ∧
      top.Value = "baz".toList ∧ r3.Length = chooseDistance "baz".toList.length ad ∧
      top.StartIndex - r3.StartIndex = r3.EndIndex - top.EndIndex ∧
      r1.StartIndex = top.StartIndex - 1 ∧ r1.EndIndex = top.EndIndex + 1 :=
  C3_label_centred "baz".toList fooTree barTree (by decide) (by decide) (by decide)

/-- The gap `PrintTree` leaves between the children of a node of a well-formed
tree: at least 2 columns on every paired row, and at least 3 unless the
alignment distance of the children is `len(label) + 4`, the case in which
`minPossibleDistance == requiredChildDistance`. -/
theorem PrintTree_children_gap (v : GoString) (l r : Node)
    (hw : WellFormed (.mk v l r) = true) (hl : l.isNil = false) :
    ∃ lp lc rp rc ad,
      PrintTree l = some lp ∧ lp.NormalizeOffsetsRev = some lc ∧
      PrintTree r = some rp ∧ rp.NormalizeOffsets = some rc ∧
      AlignDistance lc rc = some ad ∧
      ∀ (i : Int) (a b : Row), lc.GetRow i = some a → rc.GetRow i = some b →
        2 ≤ chooseDistance v.length ad - (a.EndIndex + 1) + b.StartIndex ∧
        (ad ≠ (v.length : Int) + 4 →
          3 ≤ chooseDistance v.length ad - (a.EndIndex + 1) + b.StartIndex) := by
  have hnl : (l.isNil && r.isNil) = false := by simp [hl]
  have hv := WellFormed_value hw
  obtain ⟨hwl, hwr⟩ := WellFormed_children hw hnl
  obtain ⟨lp, hlp, hlg⟩ := PrintTree_Good l hwl
  obtain ⟨rp, hrp, hrg⟩ := PrintTree_Good r hwr
  obtain ⟨lc, rc, ad, res0, hlc, hrc, -, -, -, -, had, -, hbound, -, -, -⟩ :=
    PrintTree_node v l r hv hnl lp rp hlp hrp hlg hrg
  obtain ⟨-, hd2, -, hd4⟩ := chooseDistance_spec v.length ad
  refine ⟨lp, lc, rp, rc, ad, hlp, hlc, hrp, hrc, had, ?_⟩
  intro i a b ha hb
  have := hbound i a b ha hb
  unfold rowDistance at this
  constructor
  · omega
  · intro hne
    have := hd4 hne
    omega

set_option maxRecDepth 100000 in
/-- C2 at the failing input: the tree of `buildTree` with the 11-character
root `abcdefghijk`.  The normalized children have alignment distance 15, so
`requiredChildDistance = 18 = minPossibleDistance` and `PrintTree` chooses
`minPossibleDistance - 1 = 17`; on the bottom row (index 4) the join puts
`17 - (7 + 1) + (-7) = 2` spaces between `right` and `left`. -/
theorem C2_two_spaces_at_failing_input :
    WellFormed (buildTree "abcdefghijk".toList) = true ∧
    ((PrintTree fooTree).bind Rendering.NormalizeOffsetsRev).bind
      (fun lc => ((PrintTree barTree).bind Rendering.NormalizeOffsets).bind
        (fun rc => AlignDistance lc rc)) = some 15 ∧
    chooseDistance ("abcdefghijk".toList.length : Int) 15 = 17 ∧
    ((PrintTree fooTree).bind Rendering.NormalizeOffsetsRev).bind (fun lc => lc.GetRow 4)
      = some { val := "left         right".toList, offset := -10 } ∧
    ((PrintTree barTree).bind Rendering.NormalizeOffsets).bind (fun rc => rc.GetRow 4)
      = some { val := "left         right".toList, offset := -7 } ∧
    (17 : Int) - (Row.EndIndex { val := "left         right".toList, offset := -10 } + 1)
      + Row.StartIndex { val := "left         right".toList, offset := -7 } = 2 ∧
    (PrintTree (buildTree "abcdefghijk".toList)).bind (fun res => res.GetRow 8)
      = some { val := "left         right  left         right".toList, offset := -10 } := by
  decide

theorem PrintTree_leaf (a : GoString) (ha : a ≠ []) :
    PrintTree (leaf a) = some (NewPartialRendering a) := by
  rw [leaf, PrintTree_mk, if_neg ha]
  rfl

theorem NormalizeOffsetsRev_single (a : GoString) (ha : a ≠ []) :
    (NewPartialRendering a).NormalizeOffsetsRev
      = some { Rows := [{ val := a, offset := -(a.length : Int) }],
               minIndex := -(a.length : Int) } := by
  have hpos : 0 < a.length := List.length_pos.mpr ha
  have htop : (NewPartialRendering a).TopRow = some { val := a, offset := 0 } := by
    unfold Rendering.TopRow
    have := GetRow_natCast (NewPartialRendering a) 0
    simp only [Nat.cast_zero] at this
    rw [this]
    rfl
  rw [Rendering.NormalizeOffsetsRev, htop]
  simp only [Rendering.reindex, NewPartialRendering, Row.EndIndex, List.map_cons, List.map_nil,
    List.foldl_cons, List.foldl_nil]
  have e : (0 : Int) + (-(0 + (a.length : Int) - 1) - 1) = -(a.length : Int) := by omega
  have hneg : -(a.length : Int) < 0 := by omega
  rw [e, if_pos hneg]

theorem NormalizeOffsets_single (b : GoString) :
    (NewPartialRendering b).NormalizeOffsets = some (NewPartialRendering b) := by
  have htop : (NewPartialRendering b).TopRow = some { val := b, offset := 0 } := by
    unfold Rendering.TopRow
    have := GetRow_natCast (NewPartialRendering b) 0
    simp only [Nat.cast_zero] at this
    rw [this]
    rfl
  simp [Rendering.NormalizeOffsets, htop, Row.StartIndex]

theorem AlignDistance_leaves (a b : GoString) (ha : a ≠ []) (hb : b ≠ []) :
    AlignDistance { Rows := [{ val := a, offset := -(a.length : Int) }],
                    minIndex := -(a.length : Int) } (NewPartialRendering b) = some 0 := by
  rw [AlignDistance_eq]
  simp only [NewPartialRendering, List.reverse_cons, List.reverse_nil, List.nil_append,
    List.zip_cons_cons, List.zip_nil_right, List.foldl_cons, List.foldl_nil, alignStep,
    ha, hb, ne_eq, not_false_eq_true, and_self, if_true, rowDistance, Row.EndIndex,
    Row.StartIndex]
  have e : -(a.length : Int) + (a.length : Int) - 1 - 0 + 1 = 0 := by omega
  rw [e]
  congr 1

theorem chooseDistance_zero (n : Nat) : chooseDistance (n : Int) 0 = (n : Int) + 6 := by
  unfold chooseDistance
  simp only
  have h1 : (6 : Int) + n + 1 ≥ 0 + 3 := by omega
  rw [if_pos h1]
  have e : (6 + (n : Int) + 1 - 1 - n) = 6 := by omega
  rw [e]
  have : (6 : Int).tmod 2 = 0 := by decide
  rw [this]
  simp only [zero_ne_one, if_false]
  omega

theorem JoinRenderings_leaves (a b : GoString) (n : Nat) :
    JoinRenderings { Rows := [{ val := a, offset := -(a.length : Int) }],
                     minIndex := -(a.length : Int) } (NewPartialRendering b) ((n : Int) + 6)
      = some { Rows := [{ val := a ++ List.replicate (n + 6) ' ' ++ b,
                          offset := -(a.length : Int) }],
               minIndex := -(a.length : Int) } := by
  rw [JoinRenderings_eq]
  have e : (n : Int) + 6 - (-(a.length : Int) + (a.length : Int) - 1 + 1) + 0
      = ((n + 6 : Nat) : Int) := by
    push_cast; omega
  simp only [NewPartialRendering, List.length_singleton, max_self, List.reverse_cons,
    List.reverse_nil, List.nil_append, mergeFrom, List.getElem?_cons_zero, mergeAt,
    Row.EndIndex, Row.StartIndex, e, Spaces_natCast, Option.map_some', minOffset,
    List.foldl_cons, List.foldl_nil, lt_self_iff_false, if_false]

/-- C1: for non-empty labels `L`, `a` and `b`, `PrintTree` of the node `L` over
the leaves `a` and `b`, followed by `String()`, is the text of five
newline-terminated lines: `spaces(len(a)+3) + L`; `spaces(len(a)+2) + "/" +
spaces(len(L)) + "\\"`; `spaces(len(a)+1) + "/" + spaces(len(L)+2) + "\\"`;
`spaces(len(a)) + "/" + spaces(len(L)+4) + "\\"`; `a + spaces(len(L)+6) + b`. -/
theorem C1_PrintTree_two_leaves (L a b : GoString) (hL : L ≠ []) (ha : a ≠ [])
    (hb : b ≠ []) :
    (PrintTree (.mk L (leaf a) (leaf b))).bind Rendering.String
      = some (List.replicate (a.length + 3) ' ' ++ L ++ ['\n']
          ++ (List.replicate (a.length + 2) ' ' ++ ['/'] ++ List.replicate L.length ' '
              ++ ['\\'] ++ ['\n'])
          ++ (List.replicate (a.length + 1) ' ' ++ ['/'] ++ List.replicate (L.length + 2) ' '
              ++ ['\\'] ++ ['\n'])
          ++ (List.replicate a.length ' ' ++ ['/'] ++ List.replicate (L.length + 4) ' '
              ++ ['\\'] ++ ['\n'])
          ++ (a ++ List.replicate (L.length + 6) ' ' ++ b ++ ['\n'])) := by
  have hp : PrintTree (.mk L (leaf a) (leaf b))
      = some { Rows := [{ val := a ++ List.replicate (L.length + 6) ' ' ++ b,
                          offset := -(a.length : Int) }]
                 ++ connectorRows L ((L.length : Int) + 6),
               minIndex := -(a.length : Int) } := by
    rw [PrintTree_mk, if_neg hL]
    simp only [leaf, Node.isNil, Bool.and_self, Bool.false_eq_true, if_false]
    have h1 := PrintTree_leaf a ha
    have h2 := PrintTree_leaf b hb
    rw [leaf] at h1 h2
    simp only [h1, h2, NormalizeOffsetsRev_single a ha, NormalizeOffsets_single,
      AlignDistance_leaves a b ha hb, chooseDistance_zero, JoinRenderings_leaves]
    exact addConnectors_eq _ L _ (le_refl _) (by simp only; omega)
  rw [hp, Option.some_bind, String_eq]
  · have e1 : ((L.length : Int) + 6 - 2).toNat = L.length + 4 := by omega
    have e2 : (((L.length : Int) + 6 - L.length - 4) / 2 - 1).toNat = 0 := by omega
    have e3 : ((L.length : Int) + 6 - L.length) / 2 = 3 := by omega
    have p0 : (-(-(a.length : Int)) + -(a.length : Int)).toNat = 0 := by omega
    have p1 : (-(-(a.length : Int)) + 0).toNat = a.length := by omega
    have p2 : (-(-(a.length : Int)) + 1).toNat = a.length + 1 := by omega
    have p3 : (-(-(a.length : Int)) + (3 - 1)).toNat = a.length + 2 := by omega
    have p4 : (-(-(a.length : Int)) + 3).toNat = a.length + 3 := by omega
    simp only [connectorRows, e1, e2, e3, List.reverse_append, List.reverse_cons,
      List.reverse_nil, List.nil_append, List.cons_append, List.map_cons, List.map_nil,
      List.flatten_cons, List.flatten_nil, printedLine, p0, p1, p2, p3, p4,
      List.replicate_zero, List.append_nil, List.append_assoc, List.singleton_append]
  · intro row hrow
    simp only [connectorRows, List.cons_append, List.nil_append, List.mem_cons,
      List.mem_singleton, List.not_mem_nil, or_false] at hrow
    rcases hrow with rfl | rfl | rfl | rfl | rfl <;> simp only <;> omega

/-- Witness of C1: the trees of `TestPrintTreeOneCharRoot` and
`TestPrintTreeTreeCharsRoot` print exactly the texts the tests expect, with a
gap of 7 columns between the leaves for `+` and of 9 columns for `foo`. -/
theorem C1_PrintTree_two_leaves_witness :
    (PrintTree (.mk "+".toList (leaf "left".toList) (leaf "right".toList))).bind
        Rendering.String
      = some "       +\n      / \\\n     /   \\\n    /     \\\nleft       right\n".toList ∧
    (PrintTree (.mk "foo".toList (leaf "left".toList) (leaf "right".toList))).bind
        Rendering.String
      = some
        "       foo\n      /   \\\n     /     \\\n    /       \\\nleft         right\n".toList :=
  ⟨C1_PrintTree_two_leaves "+".toList "left".toList "right".toList (by decide) (by decide)
    (by decide),
   C1_PrintTree_two_leaves "foo".toList "left".toList "right".toList (by decide) (by decide)
    (by decide)⟩

/-! ## Further claims on `JoinRenderings` -/

/-- A row of a successful join at an index that both inputs have. -/
theorem JoinRenderings_paired {left right : Rendering} {distance : Int} {res : Rendering}
    (h : JoinRenderings left right distance = some res) {i : Int} {l r : Row}
    (hl : left.GetRow i = some l) (hr : right.GetRow i = some r) :
    0 ≤ distance - (l.EndIndex + 1) + r.StartIndex ∧
    res.GetRow i = some
      { val := l.val ++ List.replicate (distance - (l.EndIndex + 1) + r.StartIndex).toNat ' '
                 ++ r.val,
        offset := l.offset } := by
  obtain ⟨hlen, -, hrow⟩ := JoinRenderings_rows h
  have hi := hrow i (by rw [hl]; left; rfl)
  have hsome : (res.GetRow i).isSome := by
    obtain ⟨n, rfl, hn⟩ := GetRow_eq_some hl
    rw [GetRow_natCast]
    have := (List.getElem?_eq_some.mp hn).1
    simp only [List.length_reverse] at this
    rw [List.getElem?_eq_getElem (by simp only [List.length_reverse]; omega)]
    rfl
  rw [hi, hl, hr] at hsome
  rw [hi, hl, hr]
  simp only [mergeAt] at hsome ⊢
  by_cases hn : 0 ≤ distance - (l.EndIndex + 1) + r.StartIndex
  · rw [Spaces_of_nonneg hn]
    exact ⟨hn, rfl⟩
  · rw [Spaces_of_neg (not_le.mp hn)] at hsome
    simp at hsome

/-- C11: when `d0 = AlignDistance(left, right)` is not the sentinel and
`JoinRenderings(left, right, d0 + k)` succeeds for a `k >= 0`, then on every
paired row with non-empty values whose per-row distance `left.EndIndex() -
right.StartIndex() + 1` equals `d0` the joined row is `left`'s value, exactly
`k` spaces and `right`'s value; on every other paired row with non-empty
values the joined row has strictly more than `k` spaces between the values. -/
theorem C11_join_at_distance_plus_k (left right : Rendering) (d0 k : Int) (res : Rendering)
    (h : AlignDistance left right = some d0) (_hs : d0 ≠ minInt) (hk : 0 ≤ k)
    (hj : JoinRenderings left right (d0 + k) = some res) :
    (∀ (i : Int) (l r : Row), left.GetRow i = some l → right.GetRow i = some r →
      l.HasValue = true → r.HasValue = true → l.EndIndex - r.StartIndex + 1 = d0 →
      res.GetRow i = some { val := l.Value ++ List.replicate k.toNat ' ' ++ r.Value,
                            offset := l.StartIndex }) ∧
    (∀ (i : Int) (l r : Row), left.GetRow i = some l → right.GetRow i = some r →
      l.HasValue = true → r.HasValue = true → l.EndIndex - r.StartIndex + 1 ≠ d0 →
      ∃ m : Nat, k < (m : Int) ∧
        res.GetRow i = some { val := l.Value ++ List.replicate m ' ' ++ r.Value,
                              offset := l.StartIndex }) := by
  constructor
  · intro i l r hl hr _ _ hd
    obtain ⟨-, hrow⟩ := JoinRenderings_paired hj hl hr
    have e : d0 + k - (l.EndIndex + 1) + r.StartIndex = k := by omega
    rw [hrow, e]
    rfl
  · intro i l r hl hr hlv hrv hd
    obtain ⟨hn, hrow⟩ := JoinRenderings_paired hj hl hr
    have hb := AlignDistance_bound h hl hr hlv hrv
    unfold rowDistance at hb
    refine ⟨(d0 + k - (l.EndIndex + 1) + r.StartIndex).toNat, by omega, ?_⟩
    rw [hrow]
    rfl

set_option maxRecDepth 100000 in
/-- Witness of C11 on the renderings of `TestJoinSymmetricWithAdditionalDistance`:
the alignment distance is 8 and the join at `8 + 3` puts 3 spaces on the bottom
row and more on the two rows above. -/
theorem C11_join_at_distance_plus_k_witness :
    (∀ (i : Int) (l r : Row), symLeft.GetRow i = some l → symRight.GetRow i = some r →
      l.HasValue = true → r.HasValue = true → l.EndIndex - r.StartIndex + 1 = 8 →
      Rendering.GetRow
        { Rows := [{ val := "22left22   22right22".toList, offset := -2 },
                   { val := "1left1     1right1".toList, offset := -1 },
                   { val := "left       right".toList, offset := 0 }],
          minIndex := -2 } i
        = some { val := l.Value ++ List.replicate (3 : Int).toNat ' ' ++ r.Value,
                 offset := l.StartIndex }) ∧
    (∀ (i : Int) (l r : Row), symLeft.GetRow i = some l → symRight.GetRow i = some r →
      l.HasValue = true → r.HasValue = true → l.EndIndex - r.StartIndex + 1 ≠ 8 →
      ∃ m : Nat, (3 : Int) < (m : Int) ∧
        Rendering.GetRow
          { Rows := [{ val := "22left22   22right22".toList, offset := -2 },
                     { val := "1left1     1right1".toList, offset := -1 },
                     { val := "left       right".toList, offset := 0 }],
            minIndex := -2 } i
          = some { val := l.Value ++ List.replicate m ' ' ++ r.Value,
                   offset := l.StartIndex }) :=
  C11_join_at_distance_plus_k symLeft symRight 8 3 _ (by decide) (by decide) (by decide)
    (by decide)

/-- A row of a successful join at an index that only one input has. -/
theorem JoinRenderings_unpaired {left right : Rendering} {distance : Int} {res : Rendering}
    (h : JoinRenderings left right distance = some res) (i : Int) :
    (∀ l, left.GetRow i = some l → right.GetRow i = none →
      res.GetRow i = some { val := l.val, offset := l.offset }) ∧
    (∀ r, left.GetRow i = none → right.GetRow i = some r →
      res.GetRow i = some { val := r.val, offset := distance + r.offset }) := by
  obtain ⟨-, -, hrow⟩ := JoinRenderings_rows h
  constructor
  · intro l hl hr
    rw [hrow i (by rw [hl]; left; rfl), hl, hr]
    rfl
  · intro r hl hr
    rw [hrow i (by rw [hr]; right; rfl), hl, hr]
    rfl

theorem Prefix_of_append (v w : GoString) (hv : v ≠ []) :
    Row.Prefix { val := v ++ w, offset := -(v.length : Int) } = some v := by
  have hpos : 0 < v.length := List.length_pos.mpr hv
  have h1 : ¬ ((v ++ w).length = 0) := by simp [hv]
  have h2 : -(v.length : Int) < 0 := by omega
  have h3 : ¬ (- -(v.length : Int) > ((v ++ w).length : Int)) := by
    simp only [List.length_append]; push_cast; omega
  have h5 : (- -(v.length : Int)).toNat = v.length := by omega
  have h6 : ¬ (- -(v.length : Int) < 0) := by omega
  simp only [Row.Prefix, Row.Length, h1, h2, h3, h5, h6, sliceTo?, if_true, if_false,
    List.take_left', or_self]

theorem Suffix_of_append (v w : GoString) (hv : v ≠ []) :
    Row.Suffix { val := v ++ w, offset := -(v.length : Int) } = some w := by
  have hpos : 0 < v.length := List.length_pos.mpr hv
  have h0 : ¬ (-(v.length : Int) > 0) := by omega
  have h1 : ¬ (-(v.length : Int) = 0) := by omega
  have h2 : -(v.length : Int) < 0 := by omega
  have h3 : ¬ (- -(v.length : Int) > ((v ++ w).length : Int)) := by
    simp only [List.length_append]; push_cast; omega
  have h5 : (- -(v.length : Int)).toNat = v.length := by omega
  have h6 : ¬ (- -(v.length : Int) < 0) := by omega
  simp only [Row.Suffix, Row.Length, h0, h1, h2, h3, h5, h6, sliceFrom?, if_true, if_false,
    List.drop_left', or_self]

/-- C12: when `JoinRenderings(left, right, distance)` succeeds, a paired row
`i` of the result starts at `left.GetRow(i).StartIndex()` with `left`'s value,
and the first character of `right`'s value is at column
`joined.GetRow(i).StartIndex() + len(left value) + n = distance +
right.GetRow(i).StartIndex()`; a row only `left` has keeps `left`'s columns and
a row only `right` has starts at `distance + right.GetRow(i).StartIndex()`.
For a `left` whose non-empty top row ends at -1 (rev-normalized) and a `right`
whose non-empty top row starts at 0 (normalized), the joined top row has
`Prefix()` equal to `left`'s top value and `Suffix()` equal to
`Spaces(distance)` followed by `right`'s top value. -/
theorem C12_join_keeps_columns (left right : Rendering) (distance : Int) (res : Rendering)
    (h : JoinRenderings left right distance = some res) :
    (∀ (i : Int) (l r : Row), left.GetRow i = some l → right.GetRow i = some r →
      ∃ (j : Row) (sp : GoString), res.GetRow i = some j ∧
        Spaces (distance - (l.EndIndex + 1) + r.StartIndex) = some sp ∧
        (sp.length : Int) = distance - (l.EndIndex + 1) + r.StartIndex ∧
        j.Value = l.Value ++ sp ++ r.Value ∧ j.StartIndex = l.StartIndex ∧
        j.StartIndex + l.Length + (distance - (l.EndIndex + 1) + r.StartIndex)
          = distance + r.StartIndex) ∧
    (∀ (i : Int) (l : Row), left.GetRow i = some l → right.GetRow i = none →
      ∃ j : Row, res.GetRow i = some j ∧ j.Value = l.Value ∧ j.StartIndex = l.StartIndex) ∧
    (∀ (i : Int) (r : Row), left.GetRow i = none → right.GetRow i = some r →
      ∃ j : Row, res.GetRow i = some j ∧ j.Value = r.Value ∧
        j.StartIndex = distance + r.StartIndex) ∧
    (∀ (l r : Row), left.TopRow = some l → right.TopRow = some r →
      l.EndIndex = -1 → r.StartIndex = 0 → l.Value ≠ [] → r.Value ≠ [] →
      ∃ (j : Row) (sp : GoString), res.TopRow = some j ∧ Spaces distance = some sp ∧
        j.Prefix = some l.Value ∧ j.Suffix = some (sp ++ r.Value)) := by
  refine ⟨?_, ?_, ?_, ?_⟩
  · intro i l r hl hr
    obtain ⟨hn, hrow⟩ := JoinRenderings_paired h hl hr
    refine ⟨_, _, hrow, Spaces_of_nonneg hn, ?_, rfl, rfl, ?_⟩
    · simp only [List.length_replicate]
      omega
    · simp only [Row.StartIndex, Row.Length, Row.EndIndex]
      omega
  · intro i l hl hr
    exact ⟨_, (JoinRenderings_unpaired h i).1 l hl hr, rfl, rfl⟩
  · intro i r hl hr
    exact ⟨_, (JoinRenderings_unpaired h i).2 r hl hr, rfl, rfl⟩
  · intro l r hl hr hle hrs hlv _
    unfold Rendering.TopRow at hl hr ⊢
    obtain ⟨hn, hrow⟩ := JoinRenderings_paired h hl hr
    have e : distance - (l.EndIndex + 1) + r.StartIndex = distance := by omega
    rw [e] at hn hrow
    have hoff : l.offset = -(l.val.length : Int) := by
      unfold Row.EndIndex at hle; omega
    refine ⟨_, _, hrow, Spaces_of_nonneg hn, ?_, ?_⟩
    · rw [hoff, List.append_assoc]
      exact Prefix_of_append l.val _ hlv
    · rw [hoff, List.append_assoc]
      exact Suffix_of_append l.val _ hlv

set_option maxRecDepth 100000 in
/-- Witness of C12 on the renderings of `TestJoinSymmetricWithNormalize` joined
at their alignment distance 4: the joined top row has the prefix `left` and the
suffix of four spaces and `right`. -/
theorem C12_join_keeps_columns_witness :
    ∃ (j : Row) (sp : GoString),
      Rendering.TopRow
        { Rows := [{ val := "22left2222right22".toList, offset := -6 },
                   { val := "1left1  1right1".toList, offset := -5 },
                   { val := "left    right".toList, offset := -4 }],
          minIndex := -6 } = some j ∧
      Spaces 4 = some sp ∧
      j.Prefix = some (Row.Value { val := "left".toList, offset := -4 }) ∧
      j.Suffix = some (sp ++ Row.Value { val := "right".toList, offset := 0 }) :=
  (C12_join_keeps_columns symLeftRev symRight 4 _ (by decide)).2.2.2
    { val := "left".toList, offset := -4 } { val := "right".toList, offset := 0 }
    (by decide) (by decide) (by decide) (by decide) (by decide) (by decide)

/-! ## Claims on `String` and on the sentinel of `AlignDistance` -/

/-- C14: for a rendering whose `minIndex` is at most every row offset, and
whose row offsets are at most `math.MaxInt` above `minIndex` (so that the count
`row.offset - minIndex` does not wrap), `String()` returns the concatenation of
one line per row, in top-first order (`GetRow(0)` first): line `i` is
`Spaces(row.offset - minIndex) + row.Value() + "\n"` for `row = GetRow(i)`. -/
theorem C14_String_lines (pr : Rendering)
    (hmin : ∀ row ∈ pr.Rows, pr.minIndex ≤ row.offset)
    (_hspan : ∀ row ∈ pr.Rows, row.offset - pr.minIndex ≤ maxInt) :
    ∃ (text : GoString) (lines : List GoString),
      pr.String = some text ∧ text = lines.flatten ∧ lines.length = pr.Rows.length ∧
      ∀ i : Nat, i < pr.Rows.length →
        ∃ (row : Row) (sp : GoString), pr.GetRow (i : Int) = some row ∧
          Spaces (row.offset - pr.minIndex) = some sp ∧
          lines[i]? = some (sp ++ row.Value ++ ['\n']) := by
  refine ⟨_, pr.Rows.reverse.map (printedLine pr.minIndex), String_eq pr hmin, rfl, by simp, ?_⟩
  intro i hi
  have hlt : i < pr.Rows.reverse.length := by simpa using hi
  have hrow : pr.Rows.reverse[i]? = some pr.Rows.reverse[i] := List.getElem?_eq_getElem hlt
  have hmem : pr.Rows.reverse[i] ∈ pr.Rows := List.mem_reverse.mp (List.getElem_mem hlt)
  have hge := hmin _ hmem
  refine ⟨pr.Rows.reverse[i], _, by rw [GetRow_natCast]; exact hrow,
    Spaces_of_nonneg (by omega), ?_⟩
  rw [List.getElem?_map, hrow]
  have e : -pr.minIndex + (pr.Rows.reverse[i]).offset
      = (pr.Rows.reverse[i]).offset - pr.minIndex := by omega
  simp only [Option.map_some', printedLine, Row.Value, e]

/-- Witness of C14 on the rendering of `TestAddOnTopThreeRows`. -/
theorem C14_String_lines_witness :
    ∃ (text : GoString) (lines : List GoString),
      threeRows.String = some text ∧ text = lines.flatten ∧
      lines.length = threeRows.Rows.length ∧
      ∀ i : Nat, i < threeRows.Rows.length →
        ∃ (row : Row) (sp : GoString), threeRows.GetRow (i : Int) = some row ∧
          Spaces (row.offset - threeRows.minIndex) = some sp ∧
          lines[i]? = some (sp ++ row.Value ++ ['\n']) :=
  C14_String_lines threeRows (by decide) (by decide)

/-- C19: `AlignDistance(left, right)` returns the sentinel `math.MinInt` when at
every row index that both renderings have at least one of the two rows has an
empty value, whatever the offsets; in particular when `left` has no rows and
when `right` has no rows. -/
theorem C19_AlignDistance_sentinel (left right : Rendering) :
    ((∀ (i : Int) (l r : Row), left.GetRow i = some l → right.GetRow i = some r →
        l.HasValue = false ∨ r.HasValue = false) →
      AlignDistance left right = some minInt) ∧
    (left.Rows = [] → AlignDistance left right = some minInt) ∧
    (right.Rows = [] → AlignDistance left right = some minInt) := by
  have key : (∀ (i : Int) (l r : Row), left.GetRow i = some l → right.GetRow i = some r →
      l.HasValue = false ∨ r.HasValue = false) → AlignDistance left right = some minInt := by
    intro h
    rcases AlignDistance_attained (AlignDistance_eq left right) with
      h0 | ⟨n, l, r, h1, h2, h3, h4, -⟩
    · rw [AlignDistance_eq, h0]
    · rcases h n l r h1 h2 with hf | hf
      · rw [h3] at hf; cases hf
      · rw [h4] at hf; cases hf
  refine ⟨key, ?_, ?_⟩
  · intro he
    apply key
    intro i l r hl _
    have := GetRow_mem hl
    rw [he] at this
    cases this
  · intro he
    apply key
    intro i l r _ hr
    have := GetRow_mem hr
    rw [he] at this
    cases this

/-- Witness of C19 on rows of `TestAlignDistanceRightShifted` (`a123` against
an empty value) and on an empty rendering. -/
theorem C19_AlignDistance_sentinel_witness :
    AlignDistance (NewPartialRendering "a123".toList) (NewPartialRendering []) = some minInt ∧
    AlignDistance NewEmptyRendering docRight = some minInt ∧
    AlignDistance docLeft NewEmptyRendering = some minInt :=
  ⟨(C19_AlignDistance_sentinel (NewPartialRendering "a123".toList) (NewPartialRendering [])).1
    (by
      intro i l r _ hr
      right
      have hm := GetRow_mem hr
      simp only [NewPartialRendering, List.mem_singleton] at hm
      subst hm
      rfl),
   (C19_AlignDistance_sentinel NewEmptyRendering docRight).2.1 rfl,
   (C19_AlignDistance_sentinel docLeft NewEmptyRendering).2.2 rfl⟩

/-- C20, as the code has it: for non-empty strings `l` and `r`,
`AlignDistance(NewPartialRendering(l), NewPartialRendering(r))` is `len(l)`,
whatever the length of `r`. -/
theorem C20_AlignDistance_unshifted (l r : GoString) (hl : l ≠ []) (hr : r ≠ []) :
    AlignDistance (NewPartialRendering l) (NewPartialRendering r) = some (l.length : Int) := by
  rw [AlignDistance_eq]
  simp only [NewPartialRendering, List.reverse_cons, List.reverse_nil, List.nil_append,
    List.zip_cons_cons, List.zip_nil_right, List.foldl_cons, List.foldl_nil, alignStep,
    hl, hr, ne_eq, not_false_eq_true, and_self, if_true, rowDistance, Row.EndIndex,
    Row.StartIndex]
  have e : (0 : Int) + (l.length : Int) - 1 - 0 + 1 = l.length := by omega
  rw [e]
  congr 1

/-- Witness of C20 on rows of `TestAlignDistanceNoShift`. -/
theorem C20_AlignDistance_unshifted_witness :
    AlignDistance (NewPartialRendering "a12345".toList) (NewPartialRendering "bcdef".toList)
      = some 6 ∧
    AlignDistance (NewPartialRendering "123".toList) (NewPartialRendering "1".toList)
      = some 3 ∧
    AlignDistance (NewPartialRendering "1".toList) (NewPartialRendering "123".toList)
      = some 1 :=
  ⟨C20_AlignDistance_unshifted "a12345".toList "bcdef".toList (by decide) (by decide),
   C20_AlignDistance_unshifted "123".toList "1".toList (by decide) (by decide),
   C20_AlignDistance_unshifted "1".toList "123".toList (by decide) (by decide)⟩

/-- Counterexample to C20 as stated: with an empty string on either side the
result is `math.MinInt`, not the length of the left string (the rows `a123` /
empty and empty / `123` of `TestAlignDistanceRightShifted`). -/
theorem C20_counterexample :
    AlignDistance (NewPartialRendering "a123".toList) (NewPartialRendering []) = some minInt ∧
    minInt ≠ (("a123".toList.length : Nat) : Int) ∧
    AlignDistance (NewPartialRendering []) (NewPartialRendering "123".toList) = some minInt ∧
    minInt ≠ ((([] : GoString).length : Nat) : Int) := by
  decide

/-! ## Claims on the normalizations -/

theorem NormalizeOffsets_eq (pr : Rendering) (top : Row) (htop : pr.TopRow = some top) :
    pr.NormalizeOffsets
      = some (if -top.StartIndex = 0 then pr else pr.reindex (-top.StartIndex)) := by
  simp only [Rendering.NormalizeOffsets, htop]
  split <;> rfl

theorem NormalizeOffsetsRev_eq (pr : Rendering) (top : Row) (htop : pr.TopRow = some top) :
    pr.NormalizeOffsetsRev = some (pr.reindex (-top.EndIndex - 1)) := by
  simp only [Rendering.NormalizeOffsetsRev, htop]

theorem foldl_min_eq_of_le (f : Row → Int) (rows : List Row) (m0 : Int)
    (h : ∀ row ∈ rows, m0 ≤ f row) :
    rows.foldl (fun m row => if f row < m then f row else m) m0 = m0 := by
  induction rows with
  | nil => rfl
  | cons a rows ih =>
    have ha : ¬ (f a < m0) := not_lt.mpr (h a (List.mem_cons_self _ _))
    simp only [List.foldl_cons, if_neg ha]
    exact ih (fun row hr => h row (List.mem_cons_of_mem _ hr))

theorem reindex_minIndex_le (pr : Rendering) (k : Int) :
    ∀ row ∈ (pr.reindex k).Rows, (pr.reindex k).minIndex ≤ row.offset := by
  intro row hrow
  rw [reindex_Rows, List.mem_map] at hrow
  obtain ⟨a, ha, rfl⟩ := hrow
  exact (foldl_min_le (fun row => row.offset + k) pr.Rows pr.minIndex).2 a ha

theorem reindex_zero (pr : Rendering) (h : ∀ row ∈ pr.Rows, pr.minIndex ≤ row.offset) :
    pr.reindex 0 = pr := by
  have h1 : pr.Rows.map (fun row : Row => ({ val := row.val, offset := row.offset + 0 } : Row))
      = pr.Rows := by
    conv => rhs; rw [← List.map_id pr.Rows]
    apply List.map_congr_left
    intro row _
    simp
  have h2 := foldl_min_eq_of_le (fun row => row.offset + 0) pr.Rows pr.minIndex
    (fun row hr => by have := h row hr; simp only; omega)
  cases pr
  simp only [Rendering.reindex] at h1 h2 ⊢
  rw [h1, h2]

theorem GetRow_length_reindex (pr : Rendering) (k : Int) :
    (pr.reindex k).Rows.length = pr.Rows.length := by
  simp [reindex_Rows]

/-- The result of `NormalizeOffsets` on a rendering with at least one row. -/
theorem NormalizeOffsets_top (pr : Rendering) (h : pr.Rows ≠ []) :
    ∃ (top : Row) (res : Rendering) (newTop : Row),
      pr.TopRow = some top ∧ pr.NormalizeOffsets = some res ∧ res.TopRow = some newTop ∧
      newTop.StartIndex = 0 ∧ res.Rows.length = pr.Rows.length := by
  obtain ⟨top, htop, -⟩ := TopRow_eq_some_of_ne_nil pr h
  refine ⟨top, _, { val := top.val, offset := top.offset + -top.StartIndex }, htop,
    NormalizeOffsets_eq pr top htop, ?_, ?_, ?_⟩
  · unfold Rendering.TopRow at htop ⊢
    split
    · rename_i h0
      rw [htop, h0]
      simp
    · rw [reindex_GetRow, htop]
      rfl
  · simp only [Row.StartIndex]; omega
  · split
    · rfl
    · exact GetRow_length_reindex pr _

/-- C16: on a rendering with at least one row `NormalizeOffsets()` returns a
rendering whose top row starts at 0, has an empty `Prefix()` and its whole
value as `Suffix()`; every row keeps its value, and every row's offset changes
by the same amount, the negated former start of the top row, so the
differences between row offsets are preserved. -/
theorem C16_NormalizeOffsets_effect (pr : Rendering) (h : pr.Rows ≠ []) :
    ∃ (top : Row) (res : Rendering) (newTop : Row),
      pr.TopRow = some top ∧ pr.NormalizeOffsets = some res ∧ res.TopRow = some newTop ∧
      newTop.StartIndex = 0 ∧ newTop.Prefix = some [] ∧ newTop.Suffix = some newTop.Value ∧
      newTop.Value = top.Value ∧ res.Rows.length = pr.Rows.length ∧
      (∀ (i : Int) (row : Row), pr.GetRow i = some row →
        res.GetRow i = some { val := row.val, offset := row.offset + -top.StartIndex }) ∧
      (∀ (i j : Int) (a b a2 b2 : Row), pr.GetRow i = some a → pr.GetRow j = some b →
        res.GetRow i = some a2 → res.GetRow j = some b2 →
        a2.offset - b2.offset = a.offset - b.offset) := by
  obtain ⟨top, htop, -⟩ := TopRow_eq_some_of_ne_nil pr h
  have hrows : ∀ (i : Int) (row : Row), pr.GetRow i = some row →
      Rendering.GetRow (if -top.StartIndex = 0 then pr else pr.reindex (-top.StartIndex)) i
        = some { val := row.val, offset := row.offset + -top.StartIndex } := by
    intro i row hrow
    split
    · rename_i h0
      rw [hrow, h0]
      simp
    · rw [reindex_GetRow, hrow]
      rfl
  have hlen : (if -top.StartIndex = 0 then pr else pr.reindex (-top.StartIndex)).Rows.length
      = pr.Rows.length := by
    split
    · rfl
    · exact GetRow_length_reindex pr _
  have hnew := hrows 0 top htop
  refine ⟨top, _, _, htop, NormalizeOffsets_eq pr top htop, hnew, ?_, ?_, ?_, rfl, hlen, hrows,
    ?_⟩
  · simp only [Row.StartIndex]; omega
  · have e : top.offset + -top.StartIndex = 0 := by simp only [Row.StartIndex]; omega
    rw [e]
    simp only [Row.Prefix, lt_self_iff_false, if_false, ite_self]
  · have e : top.offset + -top.StartIndex = 0 := by simp only [Row.StartIndex]; omega
    rw [e]
    simp only [Row.Suffix, gt_iff_lt, lt_self_iff_false, if_false, if_true, Row.Value]
  · intro i j a b a2 b2 ha hb ha2 hb2
    rw [hrows i a ha] at ha2
    rw [hrows j b hb] at hb2
    cases ha2
    cases hb2
    simp only
    omega

/-- Witness of C16 on the rendering of `TestAddOnTopThreeRows`, whose top row
`baz` starts at 3. -/
theorem C16_NormalizeOffsets_effect_witness :
    ∃ (top : Row) (res : Rendering) (newTop : Row),
      threeRows.TopRow = some top ∧ threeRows.NormalizeOffsets = some res ∧
      res.TopRow = some newTop ∧
      newTop.StartIndex = 0 ∧ newTop.Prefix = some [] ∧ newTop.Suffix = some newTop.Value ∧
      newTop.Value = top.Value ∧ res.Rows.length = threeRows.Rows.length ∧
      (∀ (i : Int) (row : Row), threeRows.GetRow i = some row →
        res.GetRow i = some { val := row.val, offset := row.offset + -top.StartIndex }) ∧
      (∀ (i j : Int) (a b a2 b2 : Row), threeRows.GetRow i = some a →
        threeRows.GetRow j = some b → res.GetRow i = some a2 → res.GetRow j = some b2 →
        a2.offset - b2.offset = a.offset - b.offset) :=
  C16_NormalizeOffsets_effect threeRows (by decide)

/-- C18: `NormalizeOffsets` and `NormalizeOffsetsRev` are idempotent: on a
rendering with at least one row, applying either of them to its own result
returns that result unchanged (same rows, same offsets, same `minIndex`). -/
theorem C18_normalizations_idempotent (pr : Rendering) (h : pr.Rows ≠ []) :
    (∃ once : Rendering, pr.NormalizeOffsets = some once ∧
      once.NormalizeOffsets = some once) ∧
    (∃ once : Rendering, pr.NormalizeOffsetsRev = some once ∧
      once.NormalizeOffsetsRev = some once) := by
  constructor
  · obtain ⟨top, res, newTop, -, hres, hnew, hstart, -⟩ := NormalizeOffsets_top pr h
    refine ⟨res, hres, ?_⟩
    rw [NormalizeOffsets_eq res newTop hnew, hstart]
    simp
  · obtain ⟨top, htop, -⟩ := TopRow_eq_some_of_ne_nil pr h
    have hnew : (pr.reindex (-top.EndIndex - 1)).TopRow
        = some { val := top.val, offset := top.offset + (-top.EndIndex - 1) } := by
      unfold Rendering.TopRow at htop ⊢
      rw [reindex_GetRow, htop]
      rfl
    refine ⟨_, NormalizeOffsetsRev_eq pr top htop, ?_⟩
    rw [NormalizeOffsetsRev_eq _ _ hnew]
    have e : -(Row.EndIndex { val := top.val, offset := top.offset + (-top.EndIndex - 1) }) - 1
        = 0 := by
      simp only [Row.EndIndex]; omega
    rw [e, reindex_zero _ (reindex_minIndex_le pr _)]

/-- Witness of C18 on the rendering of `TestAddOnTopThreeRows`. -/
theorem C18_normalizations_idempotent_witness :
    (∃ once : Rendering, threeRows.NormalizeOffsets = some once ∧
      once.NormalizeOffsets = some once) ∧
    (∃ once : Rendering, threeRows.NormalizeOffsetsRev = some once ∧
      once.NormalizeOffsetsRev = some once) :=
  C18_normalizations_idempotent threeRows (by decide)

/-- The prefixes of `TestNormalizeRevWithOffsets` after `NormalizeOffsetsRev()`. -/
theorem NormalizeOffsetsRev_stairRows_prefixes :
    stairRows.NormalizeOffsetsRev.bind (fun res => (res.GetRow 2).bind Row.Prefix)
      = some "foo  ".toList ∧
    stairRows.NormalizeOffsetsRev.bind (fun res => (res.GetRow 1).bind Row.Prefix)
      = some "bar ".toList ∧
    stairRows.NormalizeOffsetsRev.bind (fun res => (res.GetRow 0).bind Row.Prefix)
      = some "baz".toList := by
  decide

/-- C15 at the failing inputs.  The rendering
`NewPartialRendering("foo").ShiftTopBy(-5)` prints `foo`; after
`NormalizeOffsets()` and `NormalizeOffsetsRev()` it prints `foo` behind two
spaces, and after the two normalizations in the other order behind five
spaces.  `NewPartialRendering("foo")` prints `foo` behind three spaces after
`NormalizeOffsetsRev()` and `NormalizeOffsets()`.  In each case a shift to the
right leaves `minIndex` below every row offset. -/
theorem C15_String_changes_at_failing_input :
    (NewPartialRendering "foo".toList).ShiftTopBy (-5) = some shiftedFoo ∧
    shiftedFoo.String = some "foo\n".toList ∧
    (shiftedFoo.NormalizeOffsets.bind fun r1 => r1.NormalizeOffsetsRev.bind fun r2 => r2.String)
      = some "  foo\n".toList ∧
    (shiftedFoo.NormalizeOffsetsRev.bind fun r1 => r1.NormalizeOffsets.bind fun r2 => r2.String)
      = some "     foo\n".toList ∧
    (NewPartialRendering "foo".toList).String = some "foo\n".toList ∧
    ((NewPartialRendering "foo".toList).NormalizeOffsetsRev.bind fun r1 =>
        r1.NormalizeOffsets.bind fun r2 => r2.String)
      = some "   foo\n".toList ∧
    ((NewPartialRendering "foo".toList).NormalizeOffsetsRev.bind fun r1 =>
        r1.NormalizeOffsets) = some { Rows := [{ val := "foo".toList, offset := 0 }],
                                      minIndex := -3 } := by
  decide

/-! ## The cached `minIndex` of the renderings of `PrintTree` -/

theorem foldl_min_attained (f : Row → Int) (rows : List Row) (m0 : Int) :
    rows.foldl (fun m row => if f row < m then f row else m) m0 = m0 ∨
    ∃ row ∈ rows, f row = rows.foldl (fun m row => if f row < m then f row else m) m0 := by
  induction rows generalizing m0 with
  | nil => left; rfl
  | cons a rows ih =>
    simp only [List.foldl_cons]
    rcases ih (if f a < m0 then f a else m0) with h | ⟨row, hrow, h⟩
    · rw [h]
      by_cases hc : f a < m0
      · right
        exact ⟨a, List.mem_cons_self _ _, by rw [if_pos hc]⟩
      · left
        rw [if_neg hc]
    · right
      exact ⟨row, List.mem_cons_of_mem _ hrow, h⟩

theorem reindex_attains (pr : Rendering) (k : Int) (hk : k ≤ 0)
    (hle : ∀ row ∈ pr.Rows, pr.minIndex ≤ row.offset)
    (hatt : ∃ row ∈ pr.Rows, row.offset = pr.minIndex) :
    ∃ row ∈ (pr.reindex k).Rows, row.offset = (pr.reindex k).minIndex := by
  obtain ⟨a, ha, hoff⟩ := hatt
  obtain ⟨f1, f2⟩ := foldl_min_le (fun row => row.offset + k) pr.Rows pr.minIndex
  have hmin : (pr.reindex k).minIndex = pr.minIndex + k := by
    apply le_antisymm
    · have := f2 a ha
      simp only at this
      rw [hoff] at this
      exact this
    · rcases foldl_min_attained (fun row => row.offset + k) pr.Rows pr.minIndex with
        h | ⟨row, hrow, h⟩
      · show pr.minIndex + k ≤ List.foldl _ pr.minIndex pr.Rows
        rw [h]
        omega
      · show pr.minIndex + k ≤ List.foldl _ pr.minIndex pr.Rows
        rw [← h]
        have := hle row hrow
        omega
  refine ⟨{ val := a.val, offset := a.offset + k }, ?_, ?_⟩
  · rw [reindex_Rows, List.mem_map]
    exact ⟨a, ha, rfl⟩
  · rw [hmin, hoff]

theorem JoinRenderings_attains {left right : Rendering} {distance : Int} {res : Rendering}
    (h : JoinRenderings left right distance = some res)
    (hatt : ∃ row ∈ left.Rows, row.offset = left.minIndex) :
    ∃ row ∈ res.Rows, row.offset = res.minIndex := by
  obtain ⟨-, hmin, -⟩ := JoinRenderings_rows h
  rcases foldl_min_attained (fun row => row.offset) res.Rows.reverse left.minIndex with
    h0 | ⟨row, hrow, h1⟩
  · obtain ⟨a, ha, hoff⟩ := hatt
    obtain ⟨n, hn⟩ := exists_GetRow_of_mem ha
    have hres : res.minIndex = left.minIndex := by
      rw [hmin]
      exact h0
    cases hb : right.GetRow n with
    | none =>
      have hrow := (JoinRenderings_unpaired h n).1 a hn hb
      exact ⟨_, GetRow_mem hrow, by rw [hres, ← hoff]⟩
    | some b =>
      obtain ⟨-, hrow⟩ := JoinRenderings_paired h hn hb
      exact ⟨_, GetRow_mem hrow, by rw [hres, ← hoff]⟩
  · refine ⟨row, List.mem_reverse.mp hrow, ?_⟩
    rw [hmin]
    exact h1

/-- On a well-formed tree `PrintTree` returns a rendering whose `minIndex` is
the offset of one of its rows and whose top row is at a non-negative offset. -/
theorem PrintTree_Tight (t : Node) (h : WellFormed t = true) :
    ∃ res, PrintTree t = some res ∧ res.Tight := by
  induction t with
  | nil => simp [WellFormed] at h
  | mk v l r ihl ihr =>
    have hv := WellFormed_value h
    by_cases hleaf : (l.isNil && r.isNil) = true
    · refine ⟨NewPartialRendering v, ?_, NewPartialRendering_Good v hv, ?_, ?_⟩
      · rw [PrintTree_mk, if_neg hv, if_pos hleaf]
      · exact ⟨{ val := v, offset := 0 }, by simp [NewPartialRendering], rfl⟩
      · exact ⟨{ val := v, offset := 0 }, rfl, le_refl _⟩
    · have hnl : (l.isNil && r.isNil) = false := by simpa using hleaf
      obtain ⟨hwl, hwr⟩ := WellFormed_children h hnl
      obtain ⟨lp, hl, hlg, hlatt, ltop, hltop, hltop0⟩ := ihl hwl
      obtain ⟨rp, hr, hrg, -, -⟩ := ihr hwr
      obtain ⟨lc, rc, ad, res0, hlc, -, -, -, -, -, -, -, -, hres0, hg0, hp⟩ :=
        PrintTree_node v l r hv hnl lp rp hl hr hlg hrg
      obtain ⟨hd1, -, -, -⟩ := chooseDistance_spec v.length ad
      rw [NormalizeOffsetsRev_eq lp ltop hltop] at hlc
      cases hlc
      have hk : -ltop.EndIndex - 1 ≤ 0 := by
        simp only [Row.EndIndex]; omega
      have hatt0 := JoinRenderings_attains hres0
        (reindex_attains lp _ hk (fun row hrow => (hlg.2.2 row hrow).1) hlatt)
      obtain ⟨a, ha, hoff⟩ := hatt0
      refine ⟨_, hp, connectorRows_Good res0 v _ hg0 hv hd1, ?_, ?_⟩
      · exact ⟨a, List.mem_append_left _ ha, hoff⟩
      · refine ⟨_, (GetRow_connectorRows res0.Rows res0.minIndex v _).1, ?_⟩
        simp only
        omega

theorem printedLine_getElem? (pr : Rendering)
    (hmin : ∀ row ∈ pr.Rows, pr.minIndex ≤ row.offset) (i : Nat) (hi : i < pr.Rows.length) :
    ∃ (row : Row) (sp : GoString), pr.GetRow (i : Int) = some row ∧
      Spaces (row.offset - pr.minIndex) = some sp ∧
      (pr.Rows.reverse.map (printedLine pr.minIndex))[i]? = some (sp ++ row.Value ++ ['\n']) := by
  have hlt : i < pr.Rows.reverse.length := by simpa using hi
  have hrow : pr.Rows.reverse[i]? = some pr.Rows.reverse[i] := List.getElem?_eq_getElem hlt
  have hmem : pr.Rows.reverse[i] ∈ pr.Rows := List.mem_reverse.mp (List.getElem_mem hlt)
  have hge := hmin _ hmem
  refine ⟨pr.Rows.reverse[i], _, by rw [GetRow_natCast]; exact hrow,
    Spaces_of_nonneg (by omega), ?_⟩
  rw [List.getElem?_map, hrow]
  have e : -pr.minIndex + (pr.Rows.reverse[i]).offset
      = (pr.Rows.reverse[i]).offset - pr.minIndex := by omega
  simp only [Option.map_some', printedLine, Row.Value, e]

/-- C13: on every tree in which each node has a non-empty label and either no
child or two children, the rendering `PrintTree` returns has a `minIndex` that
is at most every row offset and is the offset of one of its rows, that is, the
smallest row offset; `String()` on it returns one line per row, line `i` being
`Spaces(row.offset - minIndex) + row.Value() + "\n"` for `row = GetRow(i)`, and
the line of a row at offset `minIndex` is the value of the row with no space in
front. -/
theorem C13_minIndex_is_smallest_offset (t : Node) (h : WellFormed t = true) :
    ∃ (res : Rendering) (text : GoString) (lines : List GoString),
      PrintTree t = some res ∧
      (∀ row ∈ res.Rows, res.minIndex ≤ row.offset) ∧
      (∃ row ∈ res.Rows, row.offset = res.minIndex) ∧
      res.String = some text ∧ text = lines.flatten ∧ lines.length = res.Rows.length ∧
      (∀ i : Nat, i < res.Rows.length →
        ∃ (row : Row) (sp : GoString), res.GetRow (i : Int) = some row ∧
          Spaces (row.offset - res.minIndex) = some sp ∧
          lines[i]? = some (sp ++ row.Value ++ ['\n'])) ∧
      ∃ (i : Nat) (row : Row), res.GetRow (i : Int) = some row ∧
        row.offset = res.minIndex ∧ lines[i]? = some (row.Value ++ ['\n']) := by
  obtain ⟨res, hres, hg, ⟨a, ha, hoff⟩, -⟩ := PrintTree_Tight t h
  have hle : ∀ row ∈ res.Rows, res.minIndex ≤ row.offset := fun row hrow => (hg.2.2 row hrow).1
  obtain ⟨n, hn⟩ := exists_GetRow_of_mem ha
  refine ⟨res, _, res.Rows.reverse.map (printedLine res.minIndex), hres, hle, ⟨a, ha, hoff⟩,
    String_eq res hle, rfl, by simp, printedLine_getElem? res hle, n, a, hn, hoff, ?_⟩
  rw [GetRow_natCast] at hn
  rw [List.getElem?_map, hn]
  have e : (-res.minIndex + a.offset).toNat = 0 := by omega
  simp only [Option.map_some', printedLine, e, List.replicate_zero, List.nil_append, Row.Value]

/-- Witness of C13 on the two-level tree of `TestPrintTreeTwoLevels2`. -/
theorem C13_minIndex_is_smallest_offset_witness :
    ∃ (res : Rendering) (text : GoString) (lines : List GoString),
      PrintTree (buildTree "baz".toList) = some res ∧
      (∀ row ∈ res.Rows, res.minIndex ≤ row.offset) ∧
      (∃ row ∈ res.Rows, row.offset = res.minIndex) ∧
      res.String = some text ∧ text = lines.flatten ∧ lines.length = res.Rows.length ∧
      (∀ i : Nat, i < res.Rows.length →
        ∃ (row : Row) (sp : GoString), res.GetRow (i : Int) = some row ∧
          Spaces (row.offset - res.minIndex) = some sp ∧
          lines[i]? = some (sp ++ row.Value ++ ['\n'])) ∧
      ∃ (i : Nat) (row : Row), res.GetRow (i : Int) = some row ∧
        row.offset = res.minIndex ∧ lines[i]? = some (row.Value ++ ['\n']) :=
  C13_minIndex_is_smallest_offset (buildTree "baz".toList) (by decide)

/-- The scope of the defect behind C15: a shift to the left of a rendering
whose `minIndex` is its smallest row offset leaves the text of `String()`
unchanged. -/
theorem reindex_String_of_shift_left (pr : Rendering) (k : Int) (hk : k ≤ 0)
    (hle : ∀ row ∈ pr.Rows, pr.minIndex ≤ row.offset)
    (hatt : ∃ row ∈ pr.Rows, row.offset = pr.minIndex) :
    (pr.reindex k).String = pr.String := by
  obtain ⟨a, ha, hoff⟩ := reindex_attains pr k hk hle hatt
  rw [reindex_Rows, List.mem_map] at ha
  obtain ⟨b, hb, rfl⟩ := ha
  have hmin : (pr.reindex k).minIndex = pr.minIndex + k := by
    apply le_antisymm
    · obtain ⟨c, hc, hcoff⟩ := hatt
      have := reindex_minIndex_le pr k { val := c.val, offset := c.offset + k }
        (by rw [reindex_Rows, List.mem_map]; exact ⟨c, hc, rfl⟩)
      simp only at this
      omega
    · have := hle b hb
      simp only at hoff
      omega
  rw [String_eq _ (reindex_minIndex_le pr k), String_eq pr hle, hmin, reindex_Rows,
    ← List.map_reverse, List.map_map]
  congr 2
  apply List.map_congr_left
  intro row _
  have e : -(pr.minIndex + k) + (row.offset + k) = -pr.minIndex + row.offset := by omega
  simp only [Function.comp, printedLine, e]

/-! ## Claims on shifted rows, `Prefix` and `Suffix` -/

theorem ShiftTopBy_single (v : GoString) (a : Int) :
    (NewPartialRendering v).ShiftTopBy a
      = some { Rows := [{ val := v, offset := a }], minIndex := if a < 0 then a else 0 } := by
  have h := AddOnTop_ShiftTopBy { Rows := [], minIndex := 0 } v a
  simp only [Rendering.AddOnTop, List.nil_append] at h
  exact h

/-- C21: for non-empty strings `l` and `r` and integers `a` and `b` (with
`len(l) + a - b` in the range of `int`, that is, not below `math.MinInt`),
`AlignDistance(NewPartialRendering(l).ShiftTopBy(a),
NewPartialRendering(r).ShiftTopBy(b))` is `len(l) + a - b`. -/
theorem C21_AlignDistance_shifted (l r : GoString) (a b : Int) (hl : l ≠ []) (hr : r ≠ [])
    (hrange : minInt ≤ (l.length : Int) + a - b) :
    ∃ left right : Rendering,
      (NewPartialRendering l).ShiftTopBy a = some left ∧
      (NewPartialRendering r).ShiftTopBy b = some right ∧
      AlignDistance left right = some ((l.length : Int) + a - b) := by
  refine ⟨_, _, ShiftTopBy_single l a, ShiftTopBy_single r b, ?_⟩
  rw [AlignDistance_eq]
  simp only [List.reverse_cons, List.reverse_nil, List.nil_append,
    List.zip_cons_cons, List.zip_nil_right, List.foldl_cons, List.foldl_nil, alignStep,
    hl, hr, ne_eq, not_false_eq_true, and_self, if_true, rowDistance, Row.EndIndex,
    Row.StartIndex]
  have e : a + (l.length : Int) - 1 - b + 1 = (l.length : Int) + a - b := by omega
  rw [e, max_eq_right hrange]

/-- Witness of C21 on rows of `TestAlignDistanceBothShifted`: `123` against
`123` with offsets 0 and 0 gives 3, with the left at -3 gives 0 and with the
right at -1 gives 4. -/
theorem C21_AlignDistance_shifted_witness :
    (∃ left right : Rendering,
      (NewPartialRendering "123".toList).ShiftTopBy 0 = some left ∧
      (NewPartialRendering "123".toList).ShiftTopBy 0 = some right ∧
      AlignDistance left right = some ((("123".toList.length : Nat) : Int) + 0 - 0)) ∧
    (∃ left right : Rendering,
      (NewPartialRendering "123".toList).ShiftTopBy (-3) = some left ∧
      (NewPartialRendering "123".toList).ShiftTopBy 0 = some right ∧
      AlignDistance left right = some ((("123".toList.length : Nat) : Int) + (-3) - 0)) ∧
    (∃ left right : Rendering,
      (NewPartialRendering "123".toList).ShiftTopBy 0 = some left ∧
      (NewPartialRendering "123".toList).ShiftTopBy (-1) = some right ∧
      AlignDistance left right = some ((("123".toList.length : Nat) : Int) + 0 - (-1))) :=
  ⟨C21_AlignDistance_shifted "123".toList "123".toList 0 0 (by decide) (by decide) (by decide),
   C21_AlignDistance_shifted "123".toList "123".toList (-3) 0 (by decide) (by decide)
     (by decide),
   C21_AlignDistance_shifted "123".toList "123".toList 0 (-1) (by decide) (by decide)
     (by decide)⟩

/-- C22, as the code has it: for a row with value `v` and an offset `o` above
`math.MinInt` (so that `-o` does not wrap), `Prefix()` is empty if `o >= 0`; it
is `v[0 : -o]` if `o < 0` and `-o <= len(v)`; for a non-empty `v` with `o < 0`
and `-o > len(v)` it is `v` followed by `-o - len(v)` spaces; for an empty `v`
it is empty, whatever the offset. -/
theorem C22_Prefix_cases (v : GoString) (o : Int) (_ho : minInt < o) :
    (0 ≤ o → Row.Prefix { val := v, offset := o } = some []) ∧
    (o < 0 → -o ≤ (v.length : Int) →
      Row.Prefix { val := v, offset := o } = some (v.take (-o).toNat)) ∧
    (v ≠ [] → o < 0 → -o > (v.length : Int) →
      Row.Prefix { val := v, offset := o }
        = some (v ++ List.replicate (-o - (v.length : Int)).toNat ' ')) ∧
    (v = [] → Row.Prefix { val := v, offset := o } = some []) := by
  refine ⟨?_, ?_, ?_, ?_⟩
  · intro h0
    have h1 : ¬ (o < 0) := by omega
    simp only [Row.Prefix, h1, if_false, ite_self]
  · intro h0 h1
    have hpos : 0 < v.length := by omega
    have h2 : ¬ (v.length = 0) := by omega
    have h3 : ¬ (-o > (v.length : Int)) := by omega
    have h4 : ¬ (-o < 0) := by omega
    simp only [Row.Prefix, Row.Length, h0, h2, h3, h4, sliceTo?, if_true, if_false, or_self]
  · intro hv h0 h1
    have hpos : 0 < v.length := List.length_pos.mpr hv
    have h2 : ¬ (v.length = 0) := by omega
    have hs := Spaces_of_nonneg (show 0 ≤ -o - (v.length : Int) by omega)
    simp only [Row.Prefix, Row.Length, h0, h1, h2, hs, if_true, if_false]
  · intro hv
    subst hv
    rfl

/-- Witness of C22 on rows of `TestPrefix`: `123` at the offsets 1, -2 and -5,
all above `math.MinInt`. -/
theorem C22_Prefix_cases_witness :
    minInt < 1 ∧ minInt < -2 ∧ minInt < -5 ∧
    Row.Prefix { val := "123".toList, offset := 1 } = some [] ∧
    Row.Prefix { val := "123".toList, offset := -2 } = some ("123".toList.take (2 : Int).toNat) ∧
    Row.Prefix { val := "123".toList, offset := -5 }
      = some ("123".toList ++ List.replicate (- -5 - (("123".toList.length : Nat) : Int)).toNat ' ') :=
  ⟨by decide, by decide, by decide,
   (C22_Prefix_cases "123".toList 1 (by decide)).1 (by decide),
   (C22_Prefix_cases "123".toList (-2) (by decide)).2.1 (by decide) (by decide),
   (C22_Prefix_cases "123".toList (-5) (by decide)).2.2.1 (by decide) (by decide) (by decide)⟩

/-- Counterexample to C22 as stated: the row with an empty value at offset -2
has `o < 0` and `-o > len(v)`, and its `Prefix()` is empty, not the two spaces
of the third case. -/
theorem C22_counterexample :
    ((-2 : Int) < 0) ∧ (-(-2 : Int) > ((([] : GoString).length : Nat) : Int)) ∧
    Row.Prefix { val := [], offset := -2 } = some [] ∧
    ([] : GoString) ≠
      [] ++ List.replicate (-(-2 : Int) - ((([] : GoString).length : Nat) : Int)).toNat ' ' := by
  decide

/-- C23: for a row with value `v` (empty or not) and an offset `o` above
`math.MinInt` (so that `-o` does not wrap), `Suffix()` is `o` spaces followed
by `v` if `o >= 0`; it is `v[-o : ]` if `o < 0` and `-o <= len(v)`; it is empty
if `o < 0` and `-o > len(v)`. -/
theorem C23_Suffix_cases (v : GoString) (o : Int) (_ho : minInt < o) :
    (0 ≤ o → Row.Suffix { val := v, offset := o } = some (List.replicate o.toNat ' ' ++ v)) ∧
    (o < 0 → -o ≤ (v.length : Int) →
      Row.Suffix { val := v, offset := o } = some (v.drop (-o).toNat)) ∧
    (o < 0 → -o > (v.length : Int) → Row.Suffix { val := v, offset := o } = some []) := by
  refine ⟨?_, ?_, ?_⟩
  · intro h0
    by_cases hz : o = 0
    · subst hz
      simp [Row.Suffix]
    · have hpos : o > 0 := by omega
      have hs := Spaces_of_nonneg h0
      simp only [Row.Suffix, hpos, hs, if_true]
  · intro h0 h1
    have h2 : ¬ (o > 0) := by omega
    have h3 : ¬ (o = 0) := by omega
    have h4 : ¬ (-o > (v.length : Int)) := by omega
    have h5 : ¬ (-o < 0) := by omega
    simp only [Row.Suffix, Row.Length, h0, h2, h3, h4, h5, sliceFrom?, if_true, if_false,
      or_self]
  · intro h0 h1
    have h2 : ¬ (o > 0) := by omega
    have h3 : ¬ (o = 0) := by omega
    simp only [Row.Suffix, Row.Length, h0, h1, h2, h3, if_true, if_false]

/-- Witness of C23 on rows of `TestSuffix`: `123` at the offsets 2, -1 and -4,
and an empty value at offset -2, all above `math.MinInt`. -/
theorem C23_Suffix_cases_witness :
    minInt < 2 ∧ minInt < -1 ∧ minInt < -4 ∧ minInt < -2 ∧
    Row.Suffix { val := "123".toList, offset := 2 }
      = some (List.replicate (2 : Int).toNat ' ' ++ "123".toList) ∧
    Row.Suffix { val := "123".toList, offset := -1 }
      = some ("123".toList.drop (- (-1 : Int)).toNat) ∧
    Row.Suffix { val := "123".toList, offset := -4 } = some [] ∧
    Row.Suffix { val := [], offset := -2 } = some [] :=
  ⟨by decide, by decide, by decide, by decide,
   (C23_Suffix_cases "123".toList 2 (by decide)).1 (by decide),
   (C23_Suffix_cases "123".toList (-1) (by decide)).2.1 (by decide) (by decide),
   (C23_Suffix_cases "123".toList (-4) (by decide)).2.2 (by decide) (by decide),
   (C23_Suffix_cases [] (-2) (by decide)).2.2 (by decide) (by decide)⟩

/-! ## Claims on `AddOnTop`, `ShiftTopBy`, `GetRow` and `Reverse` -/

theorem AddOnTop_eq (pr : Rendering) (vals : List GoString) (h : vals ≠ []) :
    pr.AddOnTop vals
      = { Rows := pr.Rows ++ [{ val := vals.flatten, offset := 0 }], minIndex := pr.minIndex } := by
  cases vals with
  | nil => exact absurd rfl h
  | cons v rest =>
    cases rest with
    | nil => simp [Rendering.AddOnTop]
    | cons w rest2 => rfl

theorem GetRow_concat (rows : List Row) (x : Row) (m m2 : Int) :
    Rendering.GetRow { Rows := rows ++ [x], minIndex := m } 0 = some x ∧
    ∀ i : Int, 0 ≤ i →
      Rendering.GetRow { Rows := rows ++ [x], minIndex := m } (i + 1)
        = Rendering.GetRow { Rows := rows, minIndex := m2 } i := by
  constructor
  · have h := GetRow_natCast { Rows := rows ++ [x], minIndex := m } 0
    simp only [Nat.cast_zero] at h
    rw [h]
    simp
  · intro i hi
    obtain ⟨n, rfl⟩ := Int.eq_ofNat_of_zero_le hi
    have h := GetRow_natCast { Rows := rows ++ [x], minIndex := m } (n + 1)
    rw [show (((n + 1 : Nat) : Int)) = (n : Int) + 1 by push_cast; rfl] at h
    rw [h, GetRow_natCast]
    simp

theorem exists_concat_of_ne_nil {α : Type} (xs : List α) (h : xs ≠ []) :
    ∃ init last, xs = init ++ [last] :=
  ⟨xs.dropLast, xs.getLast h, (List.dropLast_concat_getLast h).symm⟩

theorem ShiftTopBy_concat (init : List Row) (last : Row) (m delta : Int) :
    Rendering.ShiftTopBy { Rows := init ++ [last], minIndex := m } delta
      = some { Rows := init ++ [{ val := last.val, offset := last.offset + delta }],
               minIndex := if last.offset + delta < m then last.offset + delta else m } := by
  simp only [Rendering.ShiftTopBy, List.length_append, List.length_singleton]
  have e : (((init.length + 1 : Nat) : Int) - 1) = ((init.length : Nat) : Int) := by
    omega
  rw [e, index?_natCast]
  simp

/-- C24: `AddOnTop` with at least one fragment adds one row: the new top row
has the concatenation of the fragments as value and the offset 0, every former
row is one index further down (`GetRow(i+1)` of the result is the former
`GetRow(i)`) and `minIndex` is unchanged; with no fragment the rendering is
unchanged. -/
theorem C24_AddOnTop_effect (pr : Rendering) (vals : List GoString) :
    (vals ≠ [] →
      (pr.AddOnTop vals).Rows.length = pr.Rows.length + 1 ∧
      (pr.AddOnTop vals).TopRow = some { val := vals.flatten, offset := 0 } ∧
      (∀ i : Int, 0 ≤ i → (pr.AddOnTop vals).GetRow (i + 1) = pr.GetRow i) ∧
      (pr.AddOnTop vals).minIndex = pr.minIndex) ∧
    (vals = [] → pr.AddOnTop vals = pr) := by
  constructor
  · intro h
    rw [AddOnTop_eq pr vals h]
    obtain ⟨g0, g1⟩ := GetRow_concat pr.Rows { val := vals.flatten, offset := 0 } pr.minIndex
      pr.minIndex
    exact ⟨by simp, g0, g1, rfl⟩
  · intro h
    subst h
    rfl

/-- Witness of C24 on the rendering of `TestAddOnTopThreeRows` with two
fragments, and with none. -/
theorem C24_AddOnTop_effect_witness :
    ((threeRows.AddOnTop ["ab".toList, "cd".toList]).Rows.length = threeRows.Rows.length + 1 ∧
      (threeRows.AddOnTop ["ab".toList, "cd".toList]).TopRow
        = some { val := ["ab".toList, "cd".toList].flatten, offset := 0 } ∧
      (∀ i : Int, 0 ≤ i →
        (threeRows.AddOnTop ["ab".toList, "cd".toList]).GetRow (i + 1) = threeRows.GetRow i) ∧
      (threeRows.AddOnTop ["ab".toList, "cd".toList]).minIndex = threeRows.minIndex) ∧
    threeRows.AddOnTop [] = threeRows :=
  ⟨(C24_AddOnTop_effect threeRows ["ab".toList, "cd".toList]).1 (by decide),
   (C24_AddOnTop_effect threeRows []).2 rfl⟩

/-- C25: on a rendering with at least one row `ShiftTopBy(delta)` adds `delta`
to the offset of the top row and keeps its value; every other row is unchanged;
`minIndex` becomes the minimum of the former `minIndex` and the new offset of
the top row.  On a rendering with no rows `ShiftTopBy` fails. -/
theorem C25_ShiftTopBy_effect (pr : Rendering) (delta : Int) :
    (pr.Rows ≠ [] →
      ∃ (top : Row) (res : Rendering), pr.TopRow = some top ∧ pr.ShiftTopBy delta = some res ∧
        res.TopRow = some { val := top.val, offset := top.offset + delta } ∧
        res.Rows.length = pr.Rows.length ∧
        (∀ i : Int, i ≠ 0 → res.GetRow i = pr.GetRow i) ∧
        res.minIndex = min pr.minIndex (top.offset + delta)) ∧
    (pr.Rows = [] → pr.ShiftTopBy delta = none) := by
  constructor
  · intro h
    obtain ⟨init, last, hrows⟩ := exists_concat_of_ne_nil pr.Rows h
    cases pr with
    | mk rows m =>
      simp only at hrows
      subst hrows
      obtain ⟨g0, g1⟩ := GetRow_concat init last m m
      obtain ⟨k0, k1⟩ := GetRow_concat init
        { val := last.val, offset := last.offset + delta }
        (if last.offset + delta < m then last.offset + delta else m) m
      refine ⟨last, _, g0, ShiftTopBy_concat init last m delta, k0, by simp, ?_, ?_⟩
      · intro i hi
        by_cases hneg : i < 0
        · rw [GetRow_neg _ hneg, GetRow_neg _ hneg]
        · have hpos : 0 ≤ i - 1 := by omega
          have e : i = (i - 1) + 1 := by omega
          rw [e, k1 (i - 1) hpos, g1 (i - 1) hpos]
      · simp only
        by_cases hc : last.offset + delta < m
        · rw [if_pos hc, min_eq_right (le_of_lt hc)]
        · rw [if_neg hc, min_eq_left (not_lt.mp hc)]
  · intro h
    simp [Rendering.ShiftTopBy, h, index?]

/-- Witness of C25 on the rendering of `TestAddOnTopThreeRows` shifted by -7,
and on the empty rendering. -/
theorem C25_ShiftTopBy_effect_witness :
    (∃ (top : Row) (res : Rendering), threeRows.TopRow = some top ∧
        threeRows.ShiftTopBy (-7) = some res ∧
        res.TopRow = some { val := top.val, offset := top.offset + -7 } ∧
        res.Rows.length = threeRows.Rows.length ∧
        (∀ i : Int, i ≠ 0 → res.GetRow i = threeRows.GetRow i) ∧
        res.minIndex = min threeRows.minIndex (top.offset + -7)) ∧
    NewEmptyRendering.ShiftTopBy (-7) = none :=
  ⟨(C25_ShiftTopBy_effect threeRows (-7)).1 (by decide),
   (C25_ShiftTopBy_effect NewEmptyRendering (-7)).2 rfl⟩

/-- C26: `GetRow(n)` fails exactly when `n < 0` or `n >= len(Rows)`; otherwise
it returns the row stored at `Rows[len(Rows)-1-n]`; `TopRow()` is `GetRow(0)`,
the row added last, and fails exactly on a rendering with no rows. -/
theorem C26_GetRow_index (pr : Rendering) (n : Int) :
    (pr.GetRow n = none ↔ (n < 0 ∨ n ≥ (pr.Rows.length : Int))) ∧
    (0 ≤ n → n < (pr.Rows.length : Int) →
      ∃ row, pr.GetRow n = some row ∧
        pr.Rows[((pr.Rows.length : Int) - 1 - n).toNat]? = some row) ∧
    pr.TopRow = pr.GetRow 0 ∧
    (pr.TopRow = none ↔ pr.Rows = []) ∧
    (∀ v : GoString, (pr.AddOnTop [v]).TopRow = some { val := v, offset := 0 }) := by
  have hin : 0 ≤ n → n < (pr.Rows.length : Int) →
      ∃ row, pr.GetRow n = some row ∧
        pr.Rows[((pr.Rows.length : Int) - 1 - n).toNat]? = some row := by
    intro h0 h1
    have hlt : ((pr.Rows.length : Int) - 1 - n).toNat < pr.Rows.length := by omega
    refine ⟨pr.Rows[((pr.Rows.length : Int) - 1 - n).toNat], ?_, List.getElem?_eq_getElem hlt⟩
    have hc : ¬ (n < 0 ∨ n ≥ (pr.Rows.length : Int)) := by omega
    have hi : ¬ ((pr.Rows.length : Int) - 1 - n < 0) := by omega
    simp only [Rendering.GetRow, hc, index?, hi, if_false]
    exact List.getElem?_eq_getElem hlt
  refine ⟨?_, hin, rfl, ?_, ?_⟩
  · constructor
    · intro hnone
      by_contra hc
      obtain ⟨row, hrow, -⟩ := hin (by omega) (by omega)
      rw [hnone] at hrow
      cases hrow
    · intro hc
      simp only [Rendering.GetRow, hc, if_true]
  · constructor
    · intro hnone
      by_contra hne
      obtain ⟨top, htop, -⟩ := TopRow_eq_some_of_ne_nil pr hne
      rw [hnone] at htop
      cases htop
    · intro he
      simp [Rendering.TopRow, Rendering.GetRow, he]
  · intro v
    exact (GetRow_concat pr.Rows { val := v, offset := 0 } pr.minIndex pr.minIndex).1

/-- Witness of C26 on the rendering of `TestAddOnTopThreeRows`: the index 1 is
in range and returns `Rows[1]`, the indices -1 and 3 fail. -/
theorem C26_GetRow_index_witness :
    (∃ row, threeRows.GetRow 1 = some row ∧
      threeRows.Rows[((threeRows.Rows.length : Int) - 1 - 1).toNat]? = some row) ∧
    threeRows.GetRow (-1) = none ∧ threeRows.GetRow 3 = none ∧
    NewEmptyRendering.TopRow = none :=
  ⟨(C26_GetRow_index threeRows 1).2.1 (by decide) (by decide),
   (C26_GetRow_index threeRows (-1)).1.mpr (by decide),
   (C26_GetRow_index threeRows 3).1.mpr (by decide),
   (C26_GetRow_index NewEmptyRendering 0).2.2.2.1.mpr rfl⟩

theorem stringLoop_some_le (pr : Rendering) (k : Nat) (hk : k ≤ pr.Rows.length)
    (sb text : GoString) (h : pr.stringLoop k sb = some text) :
    ∀ row ∈ pr.Rows.take k, pr.minIndex ≤ row.offset := by
  induction k generalizing sb with
  | zero => simp
  | succ k ih =>
    have hlt : k < pr.Rows.length := hk
    rw [take_succ_getElem pr.Rows k hlt]
    simp only [Rendering.stringLoop, index?_natCast, List.getElem?_eq_getElem hlt] at h
    by_cases hneg : -pr.minIndex + (pr.Rows[k]).offset < 0
    · rw [Spaces_of_neg hneg] at h
      cases h
    · rw [Spaces_of_nonneg (not_lt.mp hneg)] at h
      intro row hrow
      rcases List.mem_append.mp hrow with h1 | h1
      · exact ih (by omega) _ h row h1
      · rw [List.mem_singleton] at h1
        subst h1
        omega

theorem String_some_le (pr : Rendering) (text : GoString) (h : pr.String = some text) :
    ∀ row ∈ pr.Rows, pr.minIndex ≤ row.offset := by
  have := stringLoop_some_le pr pr.Rows.length (le_refl _) [] text h
  simpa using this

/-- C27: `Reverse()` returns a rendering with the same `minIndex` whose row `i`
(for `0 <= i < count`) is the former row `count-1-i`; when `String()` succeeds
on the rendering, with the lines `Spaces(row.offset - minIndex) + row.Value() +
"\n"` of its rows from the top, `String()` of the reversed rendering is the
same lines in the opposite order; on a rendering with no rows `Reverse()`
changes nothing, and reversing the result returns the original rendering. -/
theorem C27_Reverse_effect (pr : Rendering) :
    (∃ res : Rendering, pr.Reverse = some res) ∧
    ∀ res : Rendering, pr.Reverse = some res →
      res.minIndex = pr.minIndex ∧
      res.Rows.length = pr.Rows.length ∧
      (∀ i : Int, 0 ≤ i → i < (pr.Rows.length : Int) →
        res.GetRow i = pr.GetRow ((pr.Rows.length : Int) - 1 - i)) ∧
      (∀ text : GoString, pr.String = some text →
        ∃ lines : List GoString, text = lines.flatten ∧ lines.length = pr.Rows.length ∧
          (∀ i : Nat, i < pr.Rows.length →
            ∃ (row : Row) (sp : GoString), pr.GetRow (i : Int) = some row ∧
              Spaces (row.offset - pr.minIndex) = some sp ∧
              lines[i]? = some (sp ++ row.Value ++ ['\n'])) ∧
          res.String = some lines.reverse.flatten) ∧
      (pr.Rows = [] → res = pr) ∧
      res.Reverse = some pr := by
  refine ⟨⟨_, Reverse_eq pr⟩, ?_⟩
  intro res hres
  rw [Reverse_eq] at hres
  cases hres
  refine ⟨rfl, by simp, ?_, ?_, ?_, ?_⟩
  · intro i h0 h1
    obtain ⟨n, rfl⟩ := Int.eq_ofNat_of_zero_le h0
    have hn : n < pr.Rows.length := by omega
    have e : (pr.Rows.length : Int) - 1 - (n : Int) = ((pr.Rows.length - 1 - n : Nat) : Int) := by
      omega
    rw [e, GetRow_natCast, GetRow_natCast]
    simp only [List.reverse_reverse]
    rw [List.getElem?_reverse (by omega)]
    congr 1
    omega
  · intro text htext
    have hmin := String_some_le pr text htext
    refine ⟨pr.Rows.reverse.map (printedLine pr.minIndex), ?_, by simp,
      printedLine_getElem? pr hmin, ?_⟩
    · rw [String_eq pr hmin] at htext
      cases htext
      rfl
    · rw [String_eq _ (by simpa using hmin)]
      simp only [List.reverse_reverse, List.map_reverse]
  · intro he
    cases pr with
    | mk rows m =>
      simp only at he
      subst he
      rfl
  · rw [Reverse_eq]
    simp

/-- Witness of C27 on the rendering of `TestReverse`: `String()` succeeds on
it, so the reversed rendering prints the same lines from the bottom. -/
theorem C27_Reverse_effect_witness :
    ∃ lines : List GoString, "  left\n 1left1\n22left22\n".toList = lines.flatten ∧
      lines.length = symLeft.Rows.length ∧
      (∀ i : Nat, i < symLeft.Rows.length →
        ∃ (row : Row) (sp : GoString), symLeft.GetRow (i : Int) = some row ∧
          Spaces (row.offset - symLeft.minIndex) = some sp ∧
          lines[i]? = some (sp ++ row.Value ++ ['\n'])) ∧
      Rendering.String
        { Rows := [{ val := "left".toList, offset := 0 },
                   { val := "1left1".toList, offset := -1 },
                   { val := "22left22".toList, offset := -2 }],
          minIndex := -2 } = some lines.reverse.flatten :=
  ((C27_Reverse_effect symLeft).2 _ (by decide)).2.2.2.1
    "  left\n 1left1\n22left22\n".toList (by decide)

/-! ## Claims on the connectors, the child distance and the height -/

/-- C28: on a well-formed tree whose root has two children the three connector
rows of the result join up diagonally.  The underscore count `u` of the middle
row, `(lowerRowSpacesCnt - middleRowSpacesCnt)/2 - 1`, is non-negative; the
middle row `GetRow(2)` starts one column right of the start of the lower row
`GetRow(3)` and ends one column left of its end; the slash of the middle row,
at column `GetRow(2).StartIndex() + u`, is one column left of the slash of the
upper row `GetRow(1)`, and its backslash, `len(label) + 3` columns further, is
one column right of the backslash of the upper row. -/
theorem C28_connectors_join_up (v : GoString) (l r : Node)
    (hw : WellFormed (.mk v l r) = true) (hl : l.isNil = false) (_hr : r.isNil = false) :
    ∃ (lp lc rp rc : Rendering) (ad : Int) (res : Rendering) (r1 r2 r3 : Row) (u : Nat),
      PrintTree l = some lp ∧ lp.NormalizeOffsetsRev = some lc ∧
      PrintTree r = some rp ∧ rp.NormalizeOffsets = some rc ∧
      AlignDistance lc rc = some ad ∧
      PrintTree (.mk v l r) = some res ∧
      res.GetRow 1 = some r1 ∧ res.GetRow 2 = some r2 ∧ res.GetRow 3 = some r3 ∧
      (u : Int) = (chooseDistance v.length ad - 2 - ((v.length : Int) + 2)).tdiv 2 - 1 ∧
      r1.Value = ['/'] ++ List.replicate v.length ' ' ++ ['\\'] ∧
      r2.Value = List.replicate u '_' ++ ['/'] ++ List.replicate (v.length + 2) ' ' ++ ['\\']
        ++ List.replicate u '_' ∧
      r3.Value = ['/'] ++ List.replicate (chooseDistance v.length ad - 2).toNat ' ' ++ ['\\'] ∧
      r2.StartIndex = r3.StartIndex + 1 ∧ r2.EndIndex = r3.EndIndex - 1 ∧
      r2.StartIndex + (u : Int) + 1 = r1.StartIndex ∧
      r2.StartIndex + (u : Int) + ((v.length : Int) + 3) = r1.EndIndex + 1 := by
  have hnl : (l.isNil && r.isNil) = false := by simp [hl]
  have hv := WellFormed_value hw
  obtain ⟨hwl, hwr⟩ := WellFormed_children hw hnl
  obtain ⟨lp, hlp, hlg⟩ := PrintTree_Good l hwl
  obtain ⟨rp, hrp, hrg⟩ := PrintTree_Good r hwr
  obtain ⟨lc, rc, ad, res0, hlc, hrc, -, -, -, -, had, -, -, -, -, hp⟩ :=
    PrintTree_node v l r hv hnl lp rp hlp hrp hlg hrg
  obtain ⟨hd1, -, hd3, -⟩ := chooseDistance_spec v.length ad
  obtain ⟨-, g1, g2, g3⟩ :=
    GetRow_connectorRows res0.Rows res0.minIndex v (chooseDistance v.length ad)
  have hu : 0 ≤ (chooseDistance v.length ad - (v.length : Int) - 4) / 2 - 1 := by omega
  have e1 : (chooseDistance v.length ad - 2 - ((v.length : Int) + 2)).tdiv 2
      = (chooseDistance v.length ad - v.length - 4) / 2 := by
    rw [Int.tdiv_eq_ediv (by omega) (by decide)]
    congr 1
    omega
  refine ⟨lp, lc, rp, rc, ad, _, _, _, _,
    ((chooseDistance v.length ad - (v.length : Int) - 4) / 2 - 1).toNat,
    hlp, hlc, hrp, hrc, had, hp, g1, g2, g3, ?_, rfl, rfl, rfl, rfl, ?_, ?_, ?_⟩
  · rw [e1]
    omega
  · simp only [Row.EndIndex, List.length_append, List.length_singleton, List.length_replicate]
    omega
  · simp only [Row.StartIndex]
    omega
  · simp only [Row.StartIndex, Row.EndIndex, List.length_append, List.length_singleton,
      List.length_replicate]
    omega

/-- Witness of C28 on the two-level tree of `TestPrintTreeTwoLevels2`, whose
middle connector row has five underscores on each side. -/
theorem C28_connectors_join_up_witness :
    ∃ (lp lc rp rc : Rendering) (ad : Int) (res : Rendering) (r1 r2 r3 : Row) (u : Nat),
      PrintTree fooTree = some lp ∧ lp.NormalizeOffsetsRev = some lc ∧
      PrintTree barTree = some rp ∧ rp.NormalizeOffsets = some rc ∧
      AlignDistance lc rc = some ad ∧
      PrintTree (.mk "baz".toList fooTree barTree) = some res ∧
      res.GetRow 1 = some r1 ∧ res.GetRow 2 = some r2 ∧ res.GetRow 3 = some r3 ∧
      (u : Int) = (chooseDistance "baz".toList.length ad - 2
        - (("baz".toList.length : Int) + 2)).tdiv 2 - 1 ∧
      r1.Value = ['/'] ++ List.replicate "baz".toList.length ' ' ++ ['\\'] ∧
      r2.Value = List.replicate u '_' ++ ['/'] ++ List.replicate ("baz".toList.length + 2) ' '
        ++ ['\\'] ++ List.replicate u '_' ∧
      r3.Value = ['/'] ++ List.replicate (chooseDistance "baz".toList.length ad - 2).toNat ' '
        ++ ['\\'] ∧
      r2.StartIndex = r3.StartIndex + 1 ∧ r2.EndIndex = r3.EndIndex - 1 ∧
      r2.StartIndex + (u : Int) + 1 = r1.StartIndex ∧
      r2.StartIndex + (u : Int) + (("baz".toList.length : Int) + 3) = r1.EndIndex + 1 :=
  C28_connectors_join_up "baz".toList fooTree barTree (by decide) (by decide) (by decide)

theorem NormalizeOffsets_top_row (pr : Rendering) (top : Row) (htop : pr.TopRow = some top) :
    ∃ res : Rendering, pr.NormalizeOffsets = some res ∧
      res.TopRow = some { val := top.val, offset := 0 } ∧
      res.Rows.length = pr.Rows.length := by
  refine ⟨_, NormalizeOffsets_eq pr top htop, ?_, ?_⟩
  · unfold Rendering.TopRow at htop ⊢
    split
    · rename_i h0
      rw [htop]
      have : top.offset = 0 := by unfold Row.StartIndex at h0; omega
      rw [← this]
    · rw [reindex_GetRow, htop]
      simp [Row.StartIndex]
  · split
    · rfl
    · exact GetRow_length_reindex pr _

theorem NormalizeOffsetsRev_top_row (pr : Rendering) (top : Row) (htop : pr.TopRow = some top) :
    ∃ res : Rendering, pr.NormalizeOffsetsRev = some res ∧
      res.TopRow = some { val := top.val, offset := -(top.val.length : Int) } ∧
      res.Rows.length = pr.Rows.length := by
  refine ⟨_, NormalizeOffsetsRev_eq pr top htop, ?_, GetRow_length_reindex pr _⟩
  unfold Rendering.TopRow at htop ⊢
  rw [reindex_GetRow, htop]
  simp only [Option.map_some', Row.EndIndex, Option.some.injEq, Row.mk.injEq, true_and]
  omega

/-- C29: for renderings `L` and `R` whose top rows have non-empty values,
`AlignDistance(L.NormalizeOffsetsRev(), R.NormalizeOffsets())` is not the
sentinel and is at least 0, the per-row distance of the pair of top rows being
exactly 0; it is 0 when both renderings have a single row.  Consequently the
`requiredChildDistance` of `PrintTree` at a node with two children in a
well-formed tree, the alignment distance of the normalized children plus 3, is
at least 3. -/
theorem C29_AlignDistance_normalized (L R : Rendering) (ltop rtop : Row)
    (hl : L.TopRow = some ltop) (hr : R.TopRow = some rtop)
    (hlv : ltop.HasValue = true) (hrv : rtop.HasValue = true) :
    (∃ (lc rc : Rendering) (d : Int) (a b : Row),
      L.NormalizeOffsetsRev = some lc ∧ R.NormalizeOffsets = some rc ∧
      AlignDistance lc rc = some d ∧ d ≠ minInt ∧ 0 ≤ d ∧
      lc.TopRow = some a ∧ rc.TopRow = some b ∧ a.EndIndex - b.StartIndex + 1 = 0 ∧
      (L.Rows.length = 1 → R.Rows.length = 1 → d = 0)) ∧
    (∀ (v : GoString) (l r : Node), WellFormed (.mk v l r) = true → l.isNil = false →
      r.isNil = false →
      ∃ (lp lc rp rc : Rendering) (ad : Int),
        PrintTree l = some lp ∧ lp.NormalizeOffsetsRev = some lc ∧
        PrintTree r = some rp ∧ rp.NormalizeOffsets = some rc ∧
        AlignDistance lc rc = some ad ∧ 3 ≤ ad + 3) := by
  constructor
  · obtain ⟨lc, hlc, hlc0, hlen⟩ := NormalizeOffsetsRev_top_row L ltop hl
    obtain ⟨rc, hrc, hrc0, hrlen⟩ := NormalizeOffsets_top_row R rtop hr
    have had := AlignDistance_eq lc rc
    have hdist : rowDistance { val := ltop.val, offset := -(ltop.val.length : Int) }
        { val := rtop.val, offset := 0 } = 0 := by
      simp only [rowDistance, Row.EndIndex, Row.StartIndex]
      omega
    have hb := AlignDistance_bound had (i := 0) hlc0 hrc0 hlv hrv
    rw [hdist] at hb
    have hneg : minInt < 0 := by decide
    refine ⟨lc, rc, _, _, _, hlc, hrc, had, ?_, hb, hlc0, hrc0, ?_, ?_⟩
    · intro he
      rw [he] at hb
      omega
    · simp only [rowDistance] at hdist
      exact hdist
    · intro h1 h2
      rcases AlignDistance_attained had with h0 | ⟨n, a, b, ha, hb2, -, -, hab⟩
      · rw [h0] at hb
        omega
      · have hn : n = 0 := by
          rw [GetRow_natCast] at ha
          have := (List.getElem?_eq_some.mp ha).1
          simp only [List.length_reverse] at this
          omega
        subst hn
        simp only [Nat.cast_zero] at ha hb2
        unfold Rendering.TopRow at hlc0 hrc0
        rw [hlc0] at ha
        rw [hrc0] at hb2
        cases ha
        cases hb2
        rw [← hab]
        exact hdist
  · intro v l r hw hl2 _
    have hnl : (l.isNil && r.isNil) = false := by simp [hl2]
    have hv := WellFormed_value hw
    obtain ⟨hwl, hwr⟩ := WellFormed_children hw hnl
    obtain ⟨lp, hlp, hlg⟩ := PrintTree_Good l hwl
    obtain ⟨rp, hrp, hrg⟩ := PrintTree_Good r hwr
    obtain ⟨lc, rc, ad, res0, hlc, hrc, -, -, -, -, had, had0, -, -, -, -⟩ :=
      PrintTree_node v l r hv hnl lp rp hlp hrp hlg hrg
    exact ⟨lp, lc, rp, rc, ad, hlp, hlc, hrp, hrc, had, by omega⟩

/-- Witness of C29 on the renderings of `TestJoinSymmetric`, which have three
rows each and the top rows `left` and `right`. -/
theorem C29_AlignDistance_normalized_witness :
    ∃ (lc rc : Rendering) (d : Int) (a b : Row),
      symLeft.NormalizeOffsetsRev = some lc ∧ symRight.NormalizeOffsets = some rc ∧
      AlignDistance lc rc = some d ∧ d ≠ minInt ∧ 0 ≤ d ∧
      lc.TopRow = some a ∧ rc.TopRow = some b ∧ a.EndIndex - b.StartIndex + 1 = 0 ∧
      (symLeft.Rows.length = 1 → symRight.Rows.length = 1 → d = 0) :=
  (C29_AlignDistance_normalized symLeft symRight { val := "left".toList, offset := 0 }
    { val := "right".toList, offset := 0 } (by decide) (by decide) (by decide) (by decide)).1

theorem height_node (v : GoString) (l r : Node) (hnl : (l.isNil && r.isNil) = false) :
    height (.mk v l r) = 1 + max (height l) (height r) := by
  simp [height, hnl]

theorem height_leaf (v : GoString) (l r : Node) (hleaf : (l.isNil && r.isNil) = true) :
    height (.mk v l r) = 0 := by
  simp only [height, hleaf, if_true]

/-- The number of rows of the rendering of a well-formed tree. -/
theorem PrintTree_rows (t : Node) (h : WellFormed t = true) :
    ∃ res, PrintTree t = some res ∧ res.Good ∧ res.Rows.length = 4 * height t + 1 := by
  induction t with
  | nil => simp [WellFormed] at h
  | mk v l r ihl ihr =>
    have hv := WellFormed_value h
    by_cases hleaf : (l.isNil && r.isNil) = true
    · refine ⟨NewPartialRendering v, ?_, NewPartialRendering_Good v hv, ?_⟩
      · rw [PrintTree_mk, if_neg hv, if_pos hleaf]
      · rw [height_leaf v l r hleaf]
        rfl
    · have hnl : (l.isNil && r.isNil) = false := by simpa using hleaf
      obtain ⟨hwl, hwr⟩ := WellFormed_children h hnl
      obtain ⟨lp, hl, hlg, hllen⟩ := ihl hwl
      obtain ⟨rp, hr, hrg, hrlen⟩ := ihr hwr
      obtain ⟨lc, rc, ad, res0, -, -, -, -, hlclen, hrclen, -, -, -, hres0, hg0, hp⟩ :=
        PrintTree_node v l r hv hnl lp rp hl hr hlg hrg
      obtain ⟨hd1, -, -, -⟩ := chooseDistance_spec v.length ad
      have hjoin := (JoinRenderings_rows hres0).1
      refine ⟨_, hp, connectorRows_Good res0 v _ hg0 hv hd1, ?_⟩
      rw [height_node v l r hnl]
      simp only [List.length_append, connectorRows, List.length_cons, List.length_nil, hjoin,
        hlclen, hrclen, hllen, hrlen]
      omega

/-- C30: on a well-formed tree with root label `v` the rendering `PrintTree`
returns has `4*h + 1` rows, `h` being the height of the tree in edges: one row
for a leaf, and 4 more than the larger of the renderings of the two children
for a node with two children.  Its top row has the value `v`, and every row has
a non-empty value. -/
theorem C30_row_count (v : GoString) (l r : Node) (hw : WellFormed (.mk v l r) = true) :
    ∃ (res : Rendering) (top : Row),
      PrintTree (.mk v l r) = some res ∧
      res.Rows.length = 4 * height (.mk v l r) + 1 ∧
      res.TopRow = some top ∧ top.Value = v ∧
      (∀ (i : Int) (row : Row), res.GetRow i = some row → row.HasValue = true) ∧
      ((l.isNil && r.isNil) = true → res.Rows.length = 1) ∧
      ((l.isNil && r.isNil) = false →
        ∃ lp rp : Rendering, PrintTree l = some lp ∧ PrintTree r = some rp ∧
          res.Rows.length = 4 + max lp.Rows.length rp.Rows.length) := by
  obtain ⟨res, hres, hg, hlen⟩ := PrintTree_rows (.mk v l r) hw
  have hv := WellFormed_value hw
  have htopv : ∃ top, res.TopRow = some top ∧ top.Value = v := by
    by_cases hleaf : (l.isNil && r.isNil) = true
    · rw [PrintTree_mk, if_neg hv, if_pos hleaf] at hres
      cases hres
      exact ⟨{ val := v, offset := 0 }, rfl, rfl⟩
    · have hnl : (l.isNil && r.isNil) = false := by simpa using hleaf
      obtain ⟨hwl, hwr⟩ := WellFormed_children hw hnl
      obtain ⟨lp, hl, hlg⟩ := PrintTree_Good l hwl
      obtain ⟨rp, hr, hrg⟩ := PrintTree_Good r hwr
      obtain ⟨lc, rc, ad, res0, -, -, -, -, -, -, -, -, -, -, -, hp⟩ :=
        PrintTree_node v l r hv hnl lp rp hl hr hlg hrg
      rw [hp] at hres
      cases hres
      exact ⟨_, (GetRow_connectorRows res0.Rows res0.minIndex v _).1, rfl⟩
  obtain ⟨top, htop, htv⟩ := htopv
  refine ⟨res, top, hres, hlen, htop, htv, ?_, ?_, ?_⟩
  · intro i row hrow
    exact (HasValue_iff row).mpr (hg.2.2 row (GetRow_mem hrow)).2
  · intro hleaf
    rw [hlen, height_leaf v l r hleaf]
  · intro hnl
    obtain ⟨hwl, hwr⟩ := WellFormed_children hw hnl
    obtain ⟨lp, hl, -, hllen⟩ := PrintTree_rows l hwl
    obtain ⟨rp, hr, -, hrlen⟩ := PrintTree_rows r hwr
    refine ⟨lp, rp, hl, hr, ?_⟩
    rw [hlen, height_node v l r hnl, hllen, hrlen]
    omega

/-- Witness of C30 on the two-level tree of `TestPrintTreeTwoLevels1`, of
height 2 and with 9 rows. -/
theorem C30_row_count_witness :
    ∃ (res : Rendering) (top : Row),
      PrintTree (.mk "root".toList fooTree barTree) = some res ∧
      res.Rows.length = 4 * height (.mk "root".toList fooTree barTree) + 1 ∧
      res.TopRow = some top ∧ top.Value = "root".toList ∧
      (∀ (i : Int) (row : Row), res.GetRow i = some row → row.HasValue = true) ∧
      ((fooTree.isNil && barTree.isNil) = true → res.Rows.length = 1) ∧
      ((fooTree.isNil && barTree.isNil) = false →
        ∃ lp rp : Rendering, PrintTree fooTree = some lp ∧ PrintTree barTree = some rp ∧
          res.Rows.length = 4 + max lp.Rows.length rp.Rows.length) :=
  C30_row_count "root".toList fooTree barTree (by decide)

/-! ## The invariant of `Rendering` under every operation -/

theorem Invariant_AddOnTop (pr : Rendering) (vals : List GoString) (h : pr.Invariant) :
    (pr.AddOnTop vals).Invariant := by
  by_cases hv : vals = []
  · subst hv
    exact h
  · rw [AddOnTop_eq pr vals hv]
    refine ⟨h.1, ?_⟩
    intro row hrow
    rcases List.mem_append.mp hrow with h1 | h1
    · exact h.2 row h1
    · rw [List.mem_singleton.mp h1]
      exact h.1

theorem ShiftTopBy_nil (m thatMuch : Int) :
    Rendering.ShiftTopBy { Rows := [], minIndex := m } thatMuch = none := by
  simp [Rendering.ShiftTopBy, index?]

theorem Invariant_ShiftTopBy (pr res : Rendering) (thatMuch : Int) (h : pr.Invariant)
    (he : pr.ShiftTopBy thatMuch = some res) : res.Invariant := by
  obtain ⟨rows, m⟩ := pr
  by_cases hr : rows = []
  · subst hr
    rw [ShiftTopBy_nil] at he
    cases he
  · obtain ⟨init, last, rfl⟩ := exists_concat_of_ne_nil rows hr
    rw [ShiftTopBy_concat] at he
    simp only [Option.some.injEq] at he
    subst he
    obtain ⟨h0, hrows⟩ := h
    simp only at h0 hrows
    refine ⟨?_, ?_⟩
    · simp only
      split <;> omega
    · intro row hrow
      simp only at hrow ⊢
      rcases List.mem_append.mp hrow with h1 | h1
      · have := hrows row (List.mem_append_left _ h1)
        split <;> omega
      · rw [List.mem_singleton.mp h1]
        simp only
        split <;> omega

theorem Invariant_reindex (pr : Rendering) (k : Int) (h : pr.minIndex ≤ 0) :
    (pr.reindex k).Invariant :=
  ⟨le_trans (foldl_min_le (fun row => row.offset + k) pr.Rows pr.minIndex).1 h,
    reindex_minIndex_le pr k⟩

theorem Invariant_NormalizeOffsets (pr res : Rendering) (h : pr.Invariant)
    (he : pr.NormalizeOffsets = some res) : res.Invariant := by
  cases htop : pr.TopRow with
  | none => simp [Rendering.NormalizeOffsets, htop] at he
  | some top =>
    rw [NormalizeOffsets_eq pr top htop] at he
    simp only [Option.some.injEq] at he
    subst he
    split
    · exact h
    · exact Invariant_reindex pr _ h.1

theorem Invariant_NormalizeOffsetsRev (pr res : Rendering) (h : pr.Invariant)
    (he : pr.NormalizeOffsetsRev = some res) : res.Invariant := by
  cases htop : pr.TopRow with
  | none => simp [Rendering.NormalizeOffsetsRev, htop] at he
  | some top =>
    rw [NormalizeOffsetsRev_eq pr top htop] at he
    simp only [Option.some.injEq] at he
    subst he
    exact Invariant_reindex pr _ h.1

theorem Invariant_Reverse (pr res : Rendering) (h : pr.Invariant)
    (he : pr.Reverse = some res) : res.Invariant := by
  rw [Reverse_eq] at he
  simp only [Option.some.injEq] at he
  subst he
  exact ⟨h.1, fun row hrow => h.2 row (List.mem_reverse.mp hrow)⟩

theorem Invariant_JoinRenderings (left right res : Rendering) (distance : Int)
    (h : left.minIndex ≤ 0) (he : JoinRenderings left right distance = some res) :
    res.Invariant := by
  obtain ⟨-, hmin, -⟩ := JoinRenderings_rows he
  have hf := foldl_min_le (fun row => row.offset) res.Rows.reverse left.minIndex
  unfold minOffset at hmin
  refine ⟨?_, ?_⟩
  · rw [hmin]
    exact le_trans hf.1 h
  · intro row hrow
    rw [hmin]
    exact hf.2 row (List.mem_reverse.mpr hrow)

theorem Obtained_Invariant (pr : Rendering) (h : Obtained pr) : pr.Invariant := by
  induction h with
  | newEmpty => exact ⟨le_refl _, fun row hrow => by cases hrow⟩
  | newPartial val _ =>
    refine ⟨le_refl _, ?_⟩
    intro row hrow
    rw [List.mem_singleton.mp hrow]
    exact le_refl _
  | addOnTop vals _ _ ih => exact Invariant_AddOnTop _ vals ih
  | shiftTopBy thatMuch _ he _ ih => exact Invariant_ShiftTopBy _ _ thatMuch ih he
  | normalizeOffsets _ he _ ih => exact Invariant_NormalizeOffsets _ _ ih he
  | normalizeOffsetsRev _ he _ ih => exact Invariant_NormalizeOffsetsRev _ _ ih he
  | reverse _ he ih => exact Invariant_Reverse _ _ ih he
  | joinRenderings distance hl _ _ _ he _ =>
    exact Invariant_JoinRenderings _ _ _ distance hl.1 he

/-- The rendering obtained from `NewPartialRendering("foo")` by
`NormalizeOffsetsRev()` and then `NormalizeOffsets()`: its only row is back at
the offset 0 and `minIndex` stays at -3. -/
theorem Obtained_staleFoo :
    Obtained { Rows := [{ val := "foo".toList, offset := 0 }], minIndex := -3 } :=
  Obtained.normalizeOffsets
    (Obtained.normalizeOffsetsRev
      (Obtained.newPartial "foo".toList ⟨by decide, by decide, by decide⟩)
      (show (NewPartialRendering "foo".toList).NormalizeOffsetsRev
        = some { Rows := [{ val := "foo".toList, offset := -3 }], minIndex := -3 } by decide)
      ⟨by decide, by decide, by decide⟩)
    (by decide) ⟨by decide, by decide, by decide⟩

/-- C31: every rendering obtained from `NewEmptyRendering` or
`NewPartialRendering` by a sequence of `AddOnTop`, `ShiftTopBy`,
`NormalizeOffsets`, `NormalizeOffsetsRev`, `Reverse` and `JoinRenderings` (of
renderings that satisfy the invariant), none of which wraps an integer, has
`minIndex` at most 0 and at most the offset of every row; hence, when no row
offset is more than `math.MaxInt` above `minIndex`, every count
`-minIndex + offset` that `String()` passes to `Spaces` is non-negative and
`String()` returns its text.  The bound need not be attained: some obtained
rendering has a row and a `minIndex` strictly below the offset of every row. -/
theorem C31_Rendering_invariant :
    (∀ pr : Rendering, Obtained pr →
      pr.minIndex ≤ 0 ∧
      (∀ row ∈ pr.Rows, pr.minIndex ≤ row.offset) ∧
      ((∀ row ∈ pr.Rows, -pr.minIndex + row.offset ≤ maxInt) →
        (∀ row ∈ pr.Rows, 0 ≤ -pr.minIndex + row.offset) ∧
        pr.String = some ((pr.Rows.reverse.map (printedLine pr.minIndex)).flatten))) ∧
    ∃ pr : Rendering, Obtained pr ∧ pr.Rows ≠ [] ∧
      ∀ row ∈ pr.Rows, pr.minIndex < row.offset := by
  refine ⟨?_, ?_⟩
  · intro pr h
    obtain ⟨h0, hrows⟩ := Obtained_Invariant pr h
    refine ⟨h0, hrows, fun _ => ⟨?_, String_eq pr hrows⟩⟩
    intro row hrow
    have := hrows row hrow
    omega
  · exact ⟨_, Obtained_staleFoo, by decide, by decide⟩

/-- Witness of C31 on the rendering obtained by joining
`NewPartialRendering("ab").ShiftTopBy(-2)` with `NewPartialRendering("cd")` at
the distance 1 and putting a row `"x"` on top, shifted by 3: `minIndex` is -2,
the rows are `"ab cd"` at -2 and `"x"` at 3, the counts are 0 and 5, and
`String()` prints the two lines. -/
theorem C31_Rendering_invariant_witness :
    Obtained joinedUnderX ∧
    (∀ row ∈ joinedUnderX.Rows, -joinedUnderX.minIndex + row.offset ≤ maxInt) ∧
    joinedUnderX.minIndex ≤ 0 ∧
    (∀ row ∈ joinedUnderX.Rows, joinedUnderX.minIndex ≤ row.offset) ∧
    (∀ row ∈ joinedUnderX.Rows, 0 ≤ -joinedUnderX.minIndex + row.offset) ∧
    joinedUnderX.String
      = some ((joinedUnderX.Rows.reverse.map (printedLine joinedUnderX.minIndex)).flatten) ∧
    joinedUnderX.String = some "     x\nab cd\n".toList :=
  have hd : Obtained joinedUnderX :=
    Obtained.shiftTopBy 3
      (Obtained.addOnTop ["x".toList]
        (Obtained.joinRenderings 1
          (show Rendering.Invariant { Rows := [{ val := "ab".toList, offset := -2 }],
                                      minIndex := -2 } from ⟨by decide, by decide⟩)
          (show (NewPartialRendering "cd".toList).Invariant from ⟨by decide, by decide⟩)
          (show Rendering.InRange { Rows := [{ val := "ab".toList, offset := -2 }],
                                    minIndex := -2 } from ⟨by decide, by decide, by decide⟩)
          (show (NewPartialRendering "cd".toList).InRange
            from ⟨by decide, by decide, by decide⟩)
          (show JoinRenderings { Rows := [{ val := "ab".toList, offset := -2 }], minIndex := -2 }
              (NewPartialRendering "cd".toList) 1
            = some { Rows := [{ val := "ab cd".toList, offset := -2 }], minIndex := -2 }
            by decide)
          ⟨by decide, by decide, by decide⟩)
        ⟨by decide, by decide, by decide⟩)
      (by decide) ⟨by decide, by decide, by decide⟩
  have hspan : ∀ row ∈ joinedUnderX.Rows, -joinedUnderX.minIndex + row.offset ≤ maxInt := by
    decide
  have h := C31_Rendering_invariant.1 joinedUnderX hd
  ⟨hd, hspan, h.1, h.2.1, (h.2.2 hspan).1, (h.2.2 hspan).2, by decide⟩

end Printer
